import Mathlib

/-!
Verification of the cancellation-propagation tree (`context` package).

Shallow embedding of the `context` package of `aszhc/achieve-golang`
(`src/context/cancelCtx.go`).  Contexts live on an explicit heap addressed
by natural-number ids; channels are natural-number ids whose closed status
is tracked in the state.  The distinguished reusable closed channel
`closedchan` is channel id `0`.  Goroutines do not run concurrently in the
embedding: the watcher goroutine spawned by `propagateCancel` is recorded
in the state and its body is the separate step function `watcherRun`;
the `time.AfterFunc` timer callback is the separate step function
`fireTimer`, enabled only while the timer is armed.  Panics and the
unreachable-by-typing cases are modelled as `none` results.
-/

namespace Context

/-- Cancellation causes (Go `error` values).  `canceled` is the package
variable `Canceled`, `deadlineExceeded` is `DeadlineExceeded`; `other`
covers any further error value. -/
inductive GoError where
  | canceled
  | deadlineExceeded
  | other (s : String)
deriving DecidableEq, Repr

/-- Keys for `Value` lookup.  `cancelCtxKey` models the address of the
private package variable `cancelCtxKey`; `str` models any other key. -/
inductive Key where
  | cancelCtxKey
  | str (s : String)
deriving DecidableEq, Repr

/-- Values stored in / returned by `Value`: a `*cancelCtx` reference
(`ctxRef`, as returned for the sentinel key) or an ordinary value. -/
inductive Val where
  | ctxRef (id : Nat)
  | str (s : String)
deriving DecidableEq, Repr

/-- One `Context` heap node.
* `emptyCtx` — the root contexts `Background()` / `TODO()`.
* `cancelCtx` — fields `Context` (parent), `done`, `children`, `err`;
  `children = []` stands for Go's nil map.
* `timerCtx` — a `cancelCtx` plus `deadline` and the timer handle
  (`timer = true` means an armed `time.AfterFunc` timer).
* `valueCtx` — parent plus one key/value pair.
* `foreignCtx` — an unknown third-party implementation of the `Context`
  interface exposing only a done channel and an error. -/
inductive Node where
  | emptyCtx
  | cancelCtx (parent : Nat) (done : Option Nat) (children : List Nat) (err : Option GoError)
  | timerCtx (parent : Nat) (done : Option Nat) (children : List Nat) (err : Option GoError)
      (deadline : Int) (timer : Bool)
  | valueCtx (parent : Nat) (key : Key) (val : Val)
  | foreignCtx (done : Option Nat) (err : Option GoError)
deriving DecidableEq, Repr

/-- The reusable closed channel `closedchan` is channel id `0`. -/
def closedchan : Nat := 0

/-- Whole-program state: the context heap (association list id ↦ node),
the next fresh context id, the next fresh channel id (`0` is reserved for
`closedchan`), the set of closed channels, the package counter
`goroutines`, the spawned watcher goroutines (parent id, child id), and
the current time. -/
structure State where
  heap : List (Nat × Node)
  nextCtx : Nat
  nextChan : Nat
  closedChans : List Nat
  goroutines : Int
  watchers : List (Nat × Nat)
  now : Int
deriving DecidableEq, Repr

/-- First-match association-list lookup. -/
def hGet : List (Nat × Node) → Nat → Option Node
  | [], _ => none
  | (k, v) :: t, id => if k = id then some v else hGet t id

/-- Replace the (first) binding of `id` by `nd`; no insertion. -/
def hSet : List (Nat × Node) → Nat → Node → List (Nat × Node)
  | [], _, _ => []
  | (k, v) :: t, id, nd => if k = id then (k, nd) :: t else (k, v) :: hSet t id nd

/-- Is this node a `canceler` (`*cancelCtx` or `*timerCtx`)? -/
def Node.isCanceler : Node → Bool
  | .cancelCtx _ _ _ _ => true
  | .timerCtx _ _ _ _ _ _ => true
  | _ => false

/-- The `done` field of a node (for nodes that have one). -/
def Node.doneOf : Node → Option Nat
  | .cancelCtx _ d _ _ => d
  | .timerCtx _ d _ _ _ _ => d
  | .foreignCtx d _ => d
  | _ => none

/-- The `err` field of a node (for nodes that have one). -/
def Node.errOf : Node → Option GoError
  | .cancelCtx _ _ _ e => e
  | .timerCtx _ _ _ e _ _ => e
  | .foreignCtx _ e => e
  | _ => none

/-- The `children` field of a canceler node. -/
def Node.childrenOf : Node → List Nat
  | .cancelCtx _ _ ch _ => ch
  | .timerCtx _ _ ch _ _ _ => ch
  | _ => []

/-- The parent (`Context` field) of a node. -/
def Node.parentOf : Node → Option Nat
  | .cancelCtx p _ _ _ => some p
  | .timerCtx p _ _ _ _ _ => some p
  | .valueCtx p _ _ => some p
  | _ => none

/-- The timer handle of a `timerCtx` (`some true` = armed). -/
def Node.timerOf : Node → Option Bool
  | .timerCtx _ _ _ _ _ t => some t
  | _ => none

/-- Constructor tag, parent field and deadline, used to state that
operations never change a node's kind, parent link or deadline. -/
def Node.sig : Node → Nat × Option Nat × Option Int
  | .emptyCtx => (0, none, none)
  | .cancelCtx p _ _ _ => (1, some p, none)
  | .timerCtx p _ _ _ dl _ => (2, some p, some dl)
  | .valueCtx p _ _ => (3, some p, none)
  | .foreignCtx _ _ => (4, none, none)

/-- Set the `done` field of a canceler node. -/
def Node.setDone (d : Option Nat) : Node → Node
  | .cancelCtx p _ ch e => .cancelCtx p d ch e
  | .timerCtx p _ ch e dl t => .timerCtx p d ch e dl t
  | n => n

/-- Set the `err` field of a canceler node. -/
def Node.setErr (e : Option GoError) : Node → Node
  | .cancelCtx p d ch _ => .cancelCtx p d ch e
  | .timerCtx p d ch _ dl t => .timerCtx p d ch e dl t
  | n => n

/-- Set the `children` field of a canceler node. -/
def Node.setChildren (ch : List Nat) : Node → Node
  | .cancelCtx p d _ e => .cancelCtx p d ch e
  | .timerCtx p d _ e dl t => .timerCtx p d ch e dl t
  | n => n

/-- Set the timer handle of a `timerCtx`. -/
def Node.setTimer (t : Bool) : Node → Node
  | .timerCtx p d ch e dl _ => .timerCtx p d ch e dl t
  | n => n

/-- Update the node at `id` in place (no-op if absent). -/
def State.upd (s : State) (id : Nat) (f : Node → Node) : State :=
  match hGet s.heap id with
  | some nd => { s with heap := hSet s.heap id (f nd) }
  | none => s

/-- Direct read of the `err` field of the node at `id` (the locked field
read `c.err`, as opposed to the interface method `Err`). -/
def errField (s : State) (id : Nat) : Option GoError :=
  match hGet s.heap id with
  | some nd => nd.errOf
  | none => none

/-- Direct read of the `done` field of the node at `id`. -/
def doneField (s : State) (id : Nat) : Option Nat :=
  match hGet s.heap id with
  | some nd => nd.doneOf
  | none => none

/-- Direct read of the `children` field of the node at `id`. -/
def childrenField (s : State) (id : Nat) : List Nat :=
  match hGet s.heap id with
  | some nd => nd.childrenOf
  | none => []

/-- `cancelCtx.Done`: lazily allocate the done channel on first call and
return it; `valueCtx` delegates to its parent via the embedded `Context`;
`emptyCtx` returns nil.  Fuel bounds the parent-chain walk. -/
def DoneAux : Nat → State → Nat → State × Option Nat
  | 0, s, _ => (s, none)
  | fuel + 1, s, id =>
    match hGet s.heap id with
    | some (.cancelCtx p none ch e) =>
      ({ s with heap := hSet s.heap id (.cancelCtx p (some s.nextChan) ch e),
                nextChan := s.nextChan + 1 }, some s.nextChan)
    | some (.cancelCtx _ (some d) _ _) => (s, some d)
    | some (.timerCtx p none ch e dl t) =>
      ({ s with heap := hSet s.heap id (.timerCtx p (some s.nextChan) ch e dl t),
                nextChan := s.nextChan + 1 }, some s.nextChan)
    | some (.timerCtx _ (some d) _ _ _ _) => (s, some d)
    | some (.valueCtx p _ _) => DoneAux fuel s p
    | some (.foreignCtx d _) => (s, d)
    | some .emptyCtx => (s, none)
    | none => (s, none)

/-- The `Done` method.  In well-formed states parent ids strictly decrease
along the chain, so fuel `id + 1` never runs out. -/
def Done (s : State) (id : Nat) : State × Option Nat :=
  DoneAux (id + 1) s id

/-- `cancelCtx.Err` reads `c.err` under the lock; `valueCtx` delegates;
`emptyCtx` returns nil. -/
def ErrAux : Nat → State → Nat → Option GoError
  | 0, _, _ => none
  | fuel + 1, s, id =>
    match hGet s.heap id with
    | some (.cancelCtx _ _ _ e) => e
    | some (.timerCtx _ _ _ e _ _) => e
    | some (.valueCtx p _ _) => ErrAux fuel s p
    | some (.foreignCtx _ e) => e
    | _ => none

/-- The `Err` method. -/
def Err (s : State) (id : Nat) : Option GoError :=
  ErrAux (id + 1) s id

/-- `cancelCtx.Value`: answers the sentinel key `&cancelCtxKey` with the
`*cancelCtx` itself (a `timerCtx` answers with its embedded `cancelCtx`,
i.e. the same node), otherwise delegates to the parent; `valueCtx`
returns its value on a key match, else delegates. -/
def ValueAux : Nat → State → Nat → Key → Option Val
  | 0, _, _, _ => none
  | fuel + 1, s, id, k =>
    match hGet s.heap id with
    | some (.cancelCtx p _ _ _) =>
      if k = Key.cancelCtxKey then some (Val.ctxRef id) else ValueAux fuel s p k
    | some (.timerCtx p _ _ _ _ _) =>
      if k = Key.cancelCtxKey then some (Val.ctxRef id) else ValueAux fuel s p k
    | some (.valueCtx p kk vv) => if k = kk then some vv else ValueAux fuel s p k
    | _ => none

/-- The `Value` method. -/
def Value (s : State) (id : Nat) (k : Key) : Option Val :=
  ValueAux (id + 1) s id k

/-- `Deadline`: a `timerCtx` reports its deadline; `cancelCtx` and
`valueCtx` delegate to the parent via the embedded `Context`; `emptyCtx`
and `foreignCtx` report no deadline. -/
def DeadlineAux : Nat → State → Nat → Option Int
  | 0, _, _ => none
  | fuel + 1, s, id =>
    match hGet s.heap id with
    | some (.cancelCtx p _ _ _) => DeadlineAux fuel s p
    | some (.timerCtx _ _ _ _ dl _) => some dl
    | some (.valueCtx p _ _) => DeadlineAux fuel s p
    | _ => none

/-- The `Deadline` method. -/
def Deadline (s : State) (id : Nat) : Option Int :=
  DeadlineAux (id + 1) s id

/-- `parentCancelCtx(parent)`: capture `parent.Done()`; report not-found if
it is `closedchan` or nil; otherwise ask the value chain for the sentinel
key, require the answer to be a concrete `*cancelCtx`, and require its
currently-observed done channel to equal the captured one. -/
def parentCancelCtx (s : State) (parent : Nat) : State × Option Nat :=
  let sd := Done s parent
  match sd.2 with
  | none => (sd.1, none)
  | some d =>
    if d = closedchan then (sd.1, none)
    else
      match Value sd.1 parent Key.cancelCtxKey with
      | some (Val.ctxRef p) =>
        match hGet sd.1.heap p with
        | some (.cancelCtx _ pd _ _) =>
          if pd = some d then (sd.1, some p) else (sd.1, none)
        | some (.timerCtx _ pd _ _ _ _) =>
          if pd = some d then (sd.1, some p) else (sd.1, none)
        | _ => (sd.1, none)
      | _ => (sd.1, none)

/-- `removeChild(parent, child)`: find the nearest concrete cancellable
ancestor and delete `child` from its `children` set; no-op when discovery
fails. -/
def removeChild (s : State) (parent : Nat) (child : Nat) : State :=
  let pr := parentCancelCtx s parent
  match pr.2 with
  | none => pr.1
  | some p => pr.1.upd p (fun nd => nd.setChildren (nd.childrenOf.filter (· ≠ child)))

/-- `cancelCtx.cancel(removeFromParent, err)`, plus the `timerCtx` variant.
A `none` cause is the `panic("context: internal error: missing cancel
error")`; fuel exhaustion and a non-canceler target (unrepresentable in
Go, whose type system guarantees every child is a `canceler`) are also
modelled as `none`.  Under the lock: if `err` is already set, return
unchanged; else set `err`, close the done channel (installing the shared
`closedchan` if it was never observed), cancel every child with
`(false, err)`, and nil out `children`; outside the lock, if
`removeFromParent`, detach from the parent.  The `timerCtx` branch is
modelled from the spec (its `cancel` method is not in the source): same
steps, and additionally the pending timer is deactivated, so a cancelled
timer scope never auto-fires. -/
def cancelAux : Nat → Bool → Option GoError → State → Nat → Option State
  | 0, _, _, _, _ => none
  | fuel + 1, removeFromParent, cause, s, id =>
    match cause with
    | none => none
    | some e =>
      match hGet s.heap id with
      | some (.cancelCtx parent done children err) =>
        match err with
        | some _ => some s
        | none =>
          let d := match done with | none => closedchan | some d0 => d0
          let s1 : State :=
            { s with heap := hSet s.heap id (.cancelCtx parent (some d) children (some e)),
                     closedChans := d :: s.closedChans }
          match children.foldl
              (fun acc c => acc.bind fun st => cancelAux fuel false (some e) st c)
              (some s1) with
          | none => none
          | some s2 =>
            let s3 := s2.upd id (Node.setChildren [])
            some (if removeFromParent then removeChild s3 parent id else s3)
      | some (.timerCtx parent done children err dl tm) =>
        match err with
        | some _ => some s
        | none =>
          let d := match done with | none => closedchan | some d0 => d0
          let s1 : State :=
            { s with heap := hSet s.heap id (.timerCtx parent (some d) children (some e) dl tm),
                     closedChans := d :: s.closedChans }
          match children.foldl
              (fun acc c => acc.bind fun st => cancelAux fuel false (some e) st c)
              (some s1) with
          | none => none
          | some s2 =>
            let s3 := (s2.upd id (Node.setChildren [])).upd id (Node.setTimer false)
            some (if removeFromParent then removeChild s3 parent id else s3)
      | _ => none

/-- The `cancel` method.  In well-formed states child ids strictly exceed
their registering ancestor's id and all ids are below `nextCtx`, so fuel
`nextCtx - id` suffices for the fan-out. -/
def cancel (s : State) (id : Nat) (removeFromParent : Bool) (cause : Option GoError) :
    Option State :=
  cancelAux (s.nextCtx - id) removeFromParent cause s id

/-- Insert a child into a canceler's `children` set (Go map insert:
no duplicate entries). -/
def Node.insertChild (c : Nat) (nd : Node) : Node :=
  if c ∈ nd.childrenOf then nd else nd.setChildren (nd.childrenOf ++ [c])

/-- `propagateCancel(parent, child)`: return if the parent can never be
cancelled (nil done channel); if the parent's done channel is already
closed, cancel the child immediately with `parent.Err()`; otherwise try
`parentCancelCtx` — on success either cancel the child with the
ancestor's error (if it was cancelled in the meantime) or register the
child in its `children` set; on failure increment the `goroutines`
counter and spawn a watcher goroutine. -/
def propagateCancel (s : State) (parent : Nat) (child : Nat) : Option State :=
  let sd := Done s parent
  match sd.2 with
  | none => some sd.1
  | some d =>
    if d ∈ sd.1.closedChans then
      cancel sd.1 child false (Err sd.1 parent)
    else
      let pr := parentCancelCtx sd.1 parent
      match pr.2 with
      | some p =>
        match errField pr.1 p with
        | some pe => cancel pr.1 child false (some pe)
        | none => some (pr.1.upd p (Node.insertChild child))
      | none =>
        some { pr.1 with goroutines := pr.1.goroutines + 1,
                         watchers := pr.1.watchers ++ [(parent, child)] }

/-- The body of the watcher goroutine spawned by `propagateCancel`: block
on parent-done or child-done; when the parent's done channel closes,
cancel the child with `(false, parent.Err())`; if the child is done
first, exit without effect. -/
def watcherRun (s : State) (parent : Nat) (child : Nat) : Option State :=
  let sd := Done s parent
  match sd.2 with
  | some d =>
    if d ∈ sd.1.closedChans then cancel sd.1 child false (Err sd.1 parent)
    else some sd.1
  | none => some sd.1

/-- `newCancelCtx(parent)`. -/
def newCancelCtx (parent : Nat) : Node :=
  Node.cancelCtx parent none [] none

/-- `WithCancel(parent)`: panic (`none`) on a missing parent; otherwise
allocate a fresh `cancelCtx`, attach it via `propagateCancel`, and return
it.  The returned `CancelFunc` is `c.cancel(true, Canceled)`, invoked via
`cancel · · true (some .canceled)`. -/
def WithCancel (s : State) (parent : Nat) : Option (State × Nat) :=
  match hGet s.heap parent with
  | none => none
  | some _ =>
    let c := s.nextCtx
    let s0 : State := { s with heap := s.heap ++ [(c, newCancelCtx parent)], nextCtx := c + 1 }
    match propagateCancel s0 parent c with
    | none => none
    | some s1 => some (s1, c)

/-- The non-degenerate branch of `WithDeadline`: allocate a `timerCtx`
with the requested deadline, attach it, then either cancel it at once
with `DeadlineExceeded` (when `time.Until(d) ≤ 0`; the trigger returned
there is `c.cancel(false, Canceled)`) or arm the timer if the scope is
still uncancelled (trigger `c.cancel(true, Canceled)`).  The `Bool` in
the result is the `removeFromParent` flag of the returned trigger. -/
def withDeadlineTimer (s : State) (parent : Nat) (d : Int) : Option (State × Nat × Bool) :=
  let c := s.nextCtx
  let s0 : State :=
    { s with heap := s.heap ++ [(c, Node.timerCtx parent none [] none d false)],
             nextCtx := c + 1 }
  match propagateCancel s0 parent c with
  | none => none
  | some s1 =>
    if d - s1.now ≤ 0 then
      match cancel s1 c true (some GoError.deadlineExceeded) with
      | none => none
      | some s2 => some (s2, c, false)
    else
      if errField s1 c = none then some (s1.upd c (Node.setTimer true), c, true)
      else some (s1, c, true)

/-- `WithDeadline(parent, d)`: panic (`none`) on a missing parent; if the
parent already carries a deadline `cur` with `cur.Before(d)`, degenerate
to `WithCancel(parent)`; otherwise build a timer scope. -/
def WithDeadline (s : State) (parent : Nat) (d : Int) : Option (State × Nat × Bool) :=
  match hGet s.heap parent with
  | none => none
  | some _ =>
    match Deadline s parent with
    | some cur =>
      if cur < d then (WithCancel s parent).map (fun r => (r.1, r.2, true))
      else withDeadlineTimer s parent d
    | none => withDeadlineTimer s parent d

/-- `WithTimeout(parent, timeout) = WithDeadline(parent, time.Now().Add(timeout))`. -/
def WithTimeout (s : State) (parent : Nat) (timeout : Int) : Option (State × Nat × Bool) :=
  WithDeadline s parent (s.now + timeout)

/-- The `time.AfterFunc` callback scheduled by `WithDeadline`:
`c.cancel(true, DeadlineExceeded)`.  It can only run while the timer is
armed; a deactivated or absent timer never fires. -/
def fireTimer (s : State) (id : Nat) : Option State :=
  match hGet s.heap id with
  | some (.timerCtx _ _ _ _ _ true) => cancel s id true (some GoError.deadlineExceeded)
  | _ => some s

/-- Direct read of a `timerCtx`'s timer handle. -/
def timerField (s : State) (id : Nat) : Option Bool :=
  match hGet s.heap id with
  | some nd => nd.timerOf
  | none => none

/-- Is the node at `id` a canceler? -/
def isCancelerAt (s : State) (id : Nat) : Bool :=
  match hGet s.heap id with
  | some nd => nd.isCanceler
  | none => false

/-- Structural well-formedness of one heap entry: its id is below
`nextCtx`; registered children are cancelers with strictly larger ids
(children are always created after their registering ancestor); the
parent link points to a strictly smaller existing id (parents are always
created first); an observed done channel is below `nextChan`; and no
`valueCtx` carries the package-private sentinel key (unforgeable outside
the package). -/
def nodeOkB (s : State) (p : Nat × Node) : Bool :=
  decide (p.1 < s.nextCtx) &&
  p.2.childrenOf.all (fun c => decide (p.1 < c) && isCancelerAt s c) &&
  (match p.2.parentOf with
   | none => true
   | some q => decide (q < p.1) && (hGet s.heap q).isSome) &&
  (match p.2.doneOf with
   | none => true
   | some ch => decide (ch < s.nextChan)) &&
  (match p.2 with
   | .valueCtx _ kk _ => decide (kk ≠ Key.cancelCtxKey)
   | _ => true)

/-- Well-formed state: distinct heap keys, channel ids below `nextChan`
(`closedchan = 0` is reserved and closed), every entry structurally ok,
and a done channel shared by two distinct contexts is closed (only the
shared `closedchan` is ever installed in more than one context). -/
def WF (s : State) : Prop :=
  (s.heap.map Prod.fst).Nodup ∧
  0 < s.nextChan ∧
  closedchan ∈ s.closedChans ∧
  (∀ ch ∈ s.closedChans, ch < s.nextChan) ∧
  (∀ p ∈ s.heap, nodeOkB s p = true) ∧
  (∀ p ∈ s.heap, ∀ q ∈ s.heap, p.1 ≠ q.1 →
    ∀ ch, p.2.doneOf = some ch → q.2.doneOf = some ch → ch ∈ s.closedChans)

/-- The cancellation invariant of one canceler entry: `err ≠ nil` iff the
done channel is closed (never-observed done counts as not closed). -/
def nodeInvB (s : State) (p : Nat × Node) : Bool :=
  if p.2.isCanceler then
    match p.2.errOf, p.2.doneOf with
    | some _, some ch => decide (ch ∈ s.closedChans)
    | some _, none => false
    | none, some ch => decide (ch ∉ s.closedChans)
    | none, none => true
  else true

/-- The cancellation invariant: for every cancellable scope on the heap,
`err` is non-nil exactly when its done channel is closed. -/
def Inv (s : State) : Prop :=
  ∀ p ∈ s.heap, nodeInvB s p = true

/-- How the heap evolves under `cancel` / `removeChild` / `Done`: the key
set is fixed, nodes keep their kind and parent link, `err` and `done`
fields are never overwritten once set, closed channels stay closed,
children sets only shrink, and `nextCtx`, `goroutines` and the watcher
list are untouched. -/
structure Evol (s t : State) : Prop where
  keys : t.heap.map Prod.fst = s.heap.map Prod.fst
  sig : ∀ n nd, hGet s.heap n = some nd →
    ∃ nd', hGet t.heap n = some nd' ∧ nd'.sig = nd.sig
  fixed : ∀ n nd, hGet s.heap n = some nd → nd.isCanceler = false →
    hGet t.heap n = some nd
  errs : ∀ n e, errField s n = some e → errField t n = some e
  done : ∀ n d, doneField s n = some d → doneField t n = some d
  closed : ∀ ch, ch ∈ s.closedChans → ch ∈ t.closedChans
  childSub : ∀ n, childrenField t n ⊆ childrenField s n
  ctx : t.nextCtx = s.nextCtx
  chan : s.nextChan ≤ t.nextChan
  gor : t.goroutines = s.goroutines
  wat : t.watchers = s.watchers
  now : t.now = s.now

/-- The node value produced by a successful first cancellation with cause
`e`: `err` set, done channel present (`closedchan` if never observed),
children nilled out, timer (if any) deactivated. -/
def finalNode (e : GoError) : Node → Node
  | .cancelCtx p dn _ _ => .cancelCtx p (some (dn.getD closedchan)) [] (some e)
  | .timerCtx p dn _ _ dl _ => .timerCtx p (some (dn.getD closedchan)) [] (some e) dl false
  | nd => nd

/-- The child fan-out loop of `cancel`, as a fold (each child is
cancelled with `(false, err)`). -/
def cancelChildren (fuel : Nat) (e : GoError) (cs : List Nat) (os : Option State) :
    Option State :=
  cs.foldl (fun acc c => acc.bind fun st => cancelAux fuel false (some e) st c) os

/-- Everything a successful `cancel(b, some e)` run guarantees: the state
evolves monotonically, stays well-formed and invariant-preserving, nodes
below the target are untouched (when no parent detachment runs), newly
set errors all equal the propagated cause, and a first cancellation
leaves exactly the `finalNode`, with every direct child cancelled (with
the same cause if it was still uncancelled). -/
abbrev CancelConcl (b : Bool) (e : GoError) (s : State) (id : Nat) (t : State) : Prop :=
  Evol s t ∧ WF t ∧ Inv t ∧
  (b = false → ∀ n, n < id → hGet t.heap n = hGet s.heap n) ∧
  (∀ n, errField s n = none → errField t n = none ∨ errField t n = some e) ∧
  (∀ nd, hGet s.heap id = some nd → nd.errOf = none →
    hGet t.heap id = some (finalNode e nd) ∧
    (∀ c ∈ nd.childrenOf, errField t c ≠ none) ∧
    (∀ c ∈ nd.childrenOf, errField s c = none → errField t c = some e))

/-- A concrete well-formed state: scope `1` is a `cancelCtx` child of the
root `emptyCtx` `0`, already cancelled (`err = Canceled`) with its done
channel `1` closed. -/
def c5state : State :=
  ⟨[(0, Node.emptyCtx), (1, Node.cancelCtx 0 (some 1) [] (some GoError.canceled))],
    2, 2, [1, 0], 0, [], 0⟩

/-- A concrete well-formed state: scope `1` is an armed `timerCtx` child
of the root `emptyCtx` `0` with deadline `5`. -/
def c4state : State :=
  ⟨[(0, Node.emptyCtx), (1, Node.timerCtx 0 none [] none 5 true)], 2, 1, [0], 0, [], 0⟩

/-- A concrete well-formed state exercising every node kind: root
`emptyCtx` `0`; live `cancelCtx` `1` (done `1`, child `2`); live
`cancelCtx` `2`; armed `timerCtx` `3` (deadline `5`, done not yet
observed); cancelled `cancelCtx` `4` (err `Canceled`, done `3` closed);
`foreignCtx` `5` with an open done channel `4`. -/
def wstate : State :=
  ⟨[(0, Node.emptyCtx),
    (1, Node.cancelCtx 0 (some 1) [2] none),
    (2, Node.cancelCtx 1 (some 2) [] none),
    (3, Node.timerCtx 0 none [] none 5 true),
    (4, Node.cancelCtx 0 (some 3) [] (some GoError.canceled)),
    (5, Node.foreignCtx (some 4) none)],
    6, 5, [3, 0], 0, [], 0⟩

/-- The state after cancelling the armed timer scope `3` of `wstate`. -/
def wtimerRes : State :=
  (cancel wstate 3 true (some GoError.canceled)).getD wstate

/-! ## Association-list lemmas -/


theorem hGet_hSet_self (h : List (Nat × Node)) (id : Nat) (nd : Node) :
    hGet (hSet h id nd) id = (hGet h id).map (fun _ => nd) := by
  induction h with
  | nil => simp [hGet, hSet]
  | cons p t ih =>
    obtain ⟨k, v⟩ := p
    by_cases hk : k = id
    · subst hk; simp [hGet, hSet]
    · simp [hGet, hSet, hk, ih]

theorem hGet_hSet_ne (h : List (Nat × Node)) {id n : Nat} (nd : Node) (hne : n ≠ id) :
    hGet (hSet h id nd) n = hGet h n := by
  induction h with
  | nil => simp [hGet, hSet]
  | cons p t ih =>
    obtain ⟨k, v⟩ := p
    by_cases hk : k = id
    · subst hk
      simp [hGet, hSet, Ne.symm hne]
    · simp only [hSet, if_neg hk, hGet]
      by_cases hkn : k = n <;> simp [hkn, ih]

theorem hSet_keys (h : List (Nat × Node)) (id : Nat) (nd : Node) :
    (hSet h id nd).map Prod.fst = h.map Prod.fst := by
  induction h with
  | nil => simp [hSet]
  | cons p t ih =>
    obtain ⟨k, v⟩ := p
    by_cases hk : k = id <;> simp [hSet, hk, ih]

theorem hGet_append (h t : List (Nat × Node)) (n : Nat) :
    hGet (h ++ t) n = ((hGet h n).rec (hGet t n) (fun v => some v)) := by
  induction h with
  | nil => simp [hGet]
  | cons p l ih =>
    obtain ⟨k, v⟩ := p
    by_cases hk : k = n <;> simp [hGet, hk, ih]

theorem hGet_mem {h : List (Nat × Node)} {n : Nat} {nd : Node} (hg : hGet h n = some nd) :
    (n, nd) ∈ h := by
  induction h with
  | nil => simp [hGet] at hg
  | cons p t ih =>
    obtain ⟨k, v⟩ := p
    by_cases hk : k = n
    · subst hk
      simp [hGet] at hg
      simp [hg]
    · simp only [hGet, if_neg hk] at hg
      exact List.mem_cons_of_mem _ (ih hg)

theorem hGet_isSome_iff {h : List (Nat × Node)} {n : Nat} :
    (hGet h n).isSome ↔ n ∈ h.map Prod.fst := by
  induction h with
  | nil => simp [hGet]
  | cons p t ih =>
    obtain ⟨k, v⟩ := p
    by_cases hk : k = n
    · subst hk; simp [hGet]
    · simp [hGet, hk, ih, Ne.symm hk]

theorem mem_hGet {h : List (Nat × Node)} (hn : (h.map Prod.fst).Nodup) {n : Nat} {nd : Node}
    (hm : (n, nd) ∈ h) : hGet h n = some nd := by
  induction h with
  | nil => simp at hm
  | cons p t ih =>
    obtain ⟨k, v⟩ := p
    simp only [List.map_cons, List.nodup_cons] at hn
    rcases List.mem_cons.mp hm with h1 | h2
    · cases h1
      simp [hGet]
    · have hkn : k ≠ n := by
        intro hkeq
        subst hkeq
        exact hn.1 (List.mem_map.mpr ⟨(k, nd), h2, rfl⟩)
      simp only [hGet, if_neg hkn]
      exact ih hn.2 h2

theorem hGet_fresh {s : State} (hwf : WF s) {n : Nat} (hn : s.nextCtx ≤ n) :
    hGet s.heap n = none := by
  cases hg : hGet s.heap n with
  | none => rfl
  | some nd =>
    have hm := hGet_mem hg
    have hok := hwf.2.2.2.2.1 _ hm
    simp only [nodeOkB, Bool.and_eq_true, decide_eq_true_eq] at hok
    omega

/-! ## Evol lemmas -/

theorem Evol.refl (s : State) : Evol s s :=
  ⟨rfl, fun n nd h => ⟨nd, h, rfl⟩, fun _ _ h _ => h, fun _ _ h => h, fun _ _ h => h,
   fun _ h => h, fun _ => List.Subset.refl _, rfl, le_refl _, rfl, rfl, rfl⟩

theorem Evol.trans {s t u : State} (h1 : Evol s t) (h2 : Evol t u) : Evol s u := by
  refine ⟨h1.keys ▸ h2.keys, ?_, ?_, fun n e h => h2.errs n e (h1.errs n e h),
    fun n d h => h2.done n d (h1.done n d h), fun ch h => h2.closed ch (h1.closed ch h),
    fun n => (h2.childSub n).trans (h1.childSub n), h1.ctx ▸ h2.ctx,
    le_trans h1.chan h2.chan, h1.gor ▸ h2.gor, h1.wat ▸ h2.wat, h1.now ▸ h2.now⟩
  · intro n nd hg
    obtain ⟨nd', hg', hk'⟩ := h1.sig n nd hg
    obtain ⟨nd'', hg'', hk''⟩ := h2.sig n nd' hg'
    exact ⟨nd'', hg'', hk'' ▸ hk'⟩
  · intro n nd hg hnc
    exact h2.fixed n nd (h1.fixed n nd hg hnc) hnc

/-! ## Effect of `Done` -/

/-- What `Done`'s lazy allocation does to the state: everything but the
updated node's `done` field and `nextChan` is untouched. -/
theorem alloc_effect (s : State) (id : Nat) (old new : Node)
    (hg : hGet s.heap id = some old) (hsig : new.sig = old.sig)
    (hcan : old.isCanceler = true) (herr : new.errOf = old.errOf)
    (hch : new.childrenOf = old.childrenOf) (htm : new.timerOf = old.timerOf)
    (hdn : old.doneOf = none) :
    Evol s { s with heap := hSet s.heap id new, nextChan := s.nextChan + 1 } ∧
    ({ s with heap := hSet s.heap id new, nextChan := s.nextChan + 1 } : State).closedChans
      = s.closedChans ∧
    (∀ n, errField { s with heap := hSet s.heap id new, nextChan := s.nextChan + 1 } n
      = errField s n) ∧
    (∀ n, childrenField { s with heap := hSet s.heap id new, nextChan := s.nextChan + 1 } n
      = childrenField s n) ∧
    (∀ n, timerField { s with heap := hSet s.heap id new, nextChan := s.nextChan + 1 } n
      = timerField s n) := by
  constructor
  · refine ⟨hSet_keys _ _ _, ?_, ?_, ?_, ?_, fun c h => h, ?_, rfl, Nat.le_succ _, rfl, rfl, rfl⟩
    · intro n nd hgn
      by_cases hn : n = id
      · subst hn
        rw [hg] at hgn; cases hgn
        exact ⟨new, by simp [hGet_hSet_self, hg], hsig⟩
      · exact ⟨nd, by simp [hGet_hSet_ne _ _ hn, hgn], rfl⟩
    · intro n nd hgn hnc
      by_cases hn : n = id
      · subst hn; rw [hg] at hgn; cases hgn; rw [hcan] at hnc; cases hnc
      · simp [hGet_hSet_ne _ _ hn, hgn]
    · intro n e0 he
      by_cases hn : n = id
      · subst hn
        simp only [errField, hg] at he
        simp [errField, hGet_hSet_self, hg, herr, he]
      · simpa [errField, hGet_hSet_ne _ _ hn] using he
    · intro n d0 hd
      by_cases hn : n = id
      · subst hn
        simp [doneField, hg, hdn] at hd
      · simpa [doneField, hGet_hSet_ne _ _ hn] using hd
    · intro n
      by_cases hn : n = id
      · subst hn
        simp [childrenField, hGet_hSet_self, hg, hch]
      · simp [childrenField, hGet_hSet_ne _ _ hn]
  refine ⟨rfl, ?_, ?_, ?_⟩
  · intro n
    by_cases hn : n = id
    · subst hn; simp [errField, hGet_hSet_self, hg, herr]
    · simp [errField, hGet_hSet_ne _ _ hn]
  · intro n
    by_cases hn : n = id
    · subst hn; simp [childrenField, hGet_hSet_self, hg, hch]
    · simp [childrenField, hGet_hSet_ne _ _ hn]
  · intro n
    by_cases hn : n = id
    · subst hn; simp [timerField, hGet_hSet_self, hg, htm]
    · simp [timerField, hGet_hSet_ne _ _ hn]

theorem DoneAux_effect : ∀ fuel s id,
    Evol s (DoneAux fuel s id).1 ∧
    (DoneAux fuel s id).1.closedChans = s.closedChans ∧
    (∀ n, errField (DoneAux fuel s id).1 n = errField s n) ∧
    (∀ n, childrenField (DoneAux fuel s id).1 n = childrenField s n) ∧
    (∀ n, timerField (DoneAux fuel s id).1 n = timerField s n) := by
  intro fuel
  induction fuel with
  | zero => intro s id; exact ⟨Evol.refl s, rfl, fun _ => rfl, fun _ => rfl, fun _ => rfl⟩
  | succ fuel ih =>
    intro s id
    match hg : hGet s.heap id with
    | none =>
      have hD : DoneAux (fuel + 1) s id = (s, none) := by simp [DoneAux, hg]
      rw [hD]; exact ⟨Evol.refl s, rfl, fun _ => rfl, fun _ => rfl, fun _ => rfl⟩
    | some Node.emptyCtx =>
      have hD : DoneAux (fuel + 1) s id = (s, none) := by simp [DoneAux, hg]
      rw [hD]; exact ⟨Evol.refl s, rfl, fun _ => rfl, fun _ => rfl, fun _ => rfl⟩
    | some (Node.foreignCtx d e) =>
      have hD : DoneAux (fuel + 1) s id = (s, d) := by simp [DoneAux, hg]
      rw [hD]; exact ⟨Evol.refl s, rfl, fun _ => rfl, fun _ => rfl, fun _ => rfl⟩
    | some (Node.valueCtx p k v) =>
      have hD : DoneAux (fuel + 1) s id = DoneAux fuel s p := by simp [DoneAux, hg]
      rw [hD]; exact ih s p
    | some (Node.cancelCtx p (some d) ch e) =>
      have hD : DoneAux (fuel + 1) s id = (s, some d) := by simp [DoneAux, hg]
      rw [hD]; exact ⟨Evol.refl s, rfl, fun _ => rfl, fun _ => rfl, fun _ => rfl⟩
    | some (Node.timerCtx p (some d) ch e dl tm) =>
      have hD : DoneAux (fuel + 1) s id = (s, some d) := by simp [DoneAux, hg]
      rw [hD]; exact ⟨Evol.refl s, rfl, fun _ => rfl, fun _ => rfl, fun _ => rfl⟩
    | some (Node.cancelCtx p none ch e) =>
      have hD : DoneAux (fuel + 1) s id =
          ({ s with heap := hSet s.heap id (Node.cancelCtx p (some s.nextChan) ch e),
                    nextChan := s.nextChan + 1 }, some s.nextChan) := by
        simp [DoneAux, hg]
      rw [hD]
      exact alloc_effect s id _ _ hg rfl rfl rfl rfl rfl rfl
    | some (Node.timerCtx p none ch e dl tm) =>
      have hD : DoneAux (fuel + 1) s id =
          ({ s with heap := hSet s.heap id (Node.timerCtx p (some s.nextChan) ch e dl tm),
                    nextChan := s.nextChan + 1 }, some s.nextChan) := by
        simp [DoneAux, hg]
      rw [hD]
      exact alloc_effect s id _ _ hg rfl rfl rfl rfl rfl rfl

theorem Done_evol (s : State) (id : Nat) : Evol s (Done s id).1 :=
  (DoneAux_effect (id + 1) s id).1

theorem mem_hSet {h : List (Nat × Node)} {id : Nat} {nd : Node} {q : Nat × Node}
    (hm : q ∈ hSet h id nd) : q ∈ h ∨ q = (id, nd) := by
  induction h with
  | nil => simp [hSet] at hm
  | cons p t ih =>
    obtain ⟨k, v⟩ := p
    by_cases hk : k = id
    · subst hk
      simp only [hSet, if_pos rfl] at hm
      rcases List.mem_cons.mp hm with h1 | h2
      · exact Or.inr h1
      · exact Or.inl (List.mem_cons_of_mem _ h2)
    · simp only [hSet, if_neg hk] at hm
      rcases List.mem_cons.mp hm with h1 | h2
      · exact Or.inl (h1 ▸ List.mem_cons_self _ _)
      · rcases ih h2 with h3 | h3
        · exact Or.inl (List.mem_cons_of_mem _ h3)
        · exact Or.inr h3

theorem sig_isCanceler {a b : Node} (h : a.sig = b.sig) : a.isCanceler = b.isCanceler := by
  cases a <;> cases b <;> first | rfl | (simp [Node.sig] at h)

theorem sig_parentOf {a b : Node} (h : a.sig = b.sig) : a.parentOf = b.parentOf := by
  cases a <;> cases b <;> simp_all [Node.sig, Node.parentOf]

/-- `Done`'s lazy allocation preserves well-formedness and the
cancellation invariant. -/
theorem alloc_WFInv (s : State) (id : Nat) (old new : Node)
    (hg : hGet s.heap id = some old) (hsig : new.sig = old.sig)
    (hcan : old.isCanceler = true) (herr : new.errOf = old.errOf)
    (hch : new.childrenOf = old.childrenOf)
    (hdn : old.doneOf = none) (hdnew : new.doneOf = some s.nextChan)
    (hwf : WF s) (hinv : Inv s) :
    WF { s with heap := hSet s.heap id new, nextChan := s.nextChan + 1 } ∧
    Inv { s with heap := hSet s.heap id new, nextChan := s.nextChan + 1 } := by
  obtain ⟨hnd, hpos, hc0, hcb, hok, hpair⟩ := hwf
  have hmem : ∀ q ∈ hSet s.heap id new,
      q ∈ s.heap ∨ q = (id, new) := fun q hq => mem_hSet hq
  have hgt : hGet (hSet s.heap id new) id = some new := by
    simp [hGet_hSet_self, hg]
  have hcanAt : ∀ c, isCancelerAt s c = true →
      isCancelerAt { s with heap := hSet s.heap id new, nextChan := s.nextChan + 1 } c = true := by
    intro c hcat
    by_cases hc : c = id
    · subst hc
      simp [isCancelerAt, hgt, sig_isCanceler hsig, hcan]
    · simpa [isCancelerAt, hGet_hSet_ne _ _ hc] using hcat
  have hfresh : ∀ x ∈ s.heap, ∀ c, x.2.doneOf = some c → c < s.nextChan := by
    intro x hx c hc
    have := hok x hx
    simp only [nodeOkB, Bool.and_eq_true, decide_eq_true_eq] at this
    obtain ⟨⟨⟨⟨_, _⟩, _⟩, h4⟩, _⟩ := this
    rw [hc] at h4
    simpa using h4
  constructor
  · refine ⟨by rw [hSet_keys]; exact hnd, by show 0 < s.nextChan + 1; omega, hc0,
      fun ch h => by show ch < s.nextChan + 1; have := hcb ch h; omega, ?_, ?_⟩
    · intro q hq
      rcases hmem q hq with hold | hnew
      · have hoq := hok q hold
        simp only [nodeOkB, Bool.and_eq_true, decide_eq_true_eq] at hoq ⊢
        obtain ⟨⟨⟨⟨h1, h2⟩, h3⟩, h4⟩, h5⟩ := hoq
        refine ⟨⟨⟨⟨h1, ?_⟩, ?_⟩, ?_⟩, h5⟩
        · rw [List.all_eq_true] at h2 ⊢
          intro c hcm
          have := h2 c hcm
          simp only [Bool.and_eq_true, decide_eq_true_eq] at this ⊢
          exact ⟨this.1, hcanAt c this.2⟩
        · match hpq : q.2.parentOf with
          | none => simp
          | some pq =>
            rw [hpq] at h3
            simp only [Bool.and_eq_true, decide_eq_true_eq] at h3 ⊢
            refine ⟨h3.1, ?_⟩
            rw [hGet_isSome_iff] at h3 ⊢
            simpa [hSet_keys] using h3.2
        · match hdq : q.2.doneOf with
          | none => simp
          | some ch =>
            rw [hdq] at h4
            simp only [decide_eq_true_eq] at h4 ⊢
            show ch < s.nextChan + 1
            omega
      · have hq1 : q.1 = id := by rw [hnew]
        have hq2 : q.2 = new := by rw [hnew]
        have hoq := hok (id, old) (hGet_mem hg)
        simp only [nodeOkB, Bool.and_eq_true, decide_eq_true_eq] at hoq ⊢
        obtain ⟨⟨⟨⟨h1, h2⟩, h3⟩, h4⟩, h5⟩ := hoq
        rw [hq1, hq2]
        refine ⟨⟨⟨⟨h1, ?_⟩, ?_⟩, ?_⟩, ?_⟩
        · rw [List.all_eq_true]
          rw [List.all_eq_true] at h2
          intro c hcm
          rw [hch] at hcm
          have := h2 c hcm
          simp only [Bool.and_eq_true, decide_eq_true_eq] at this ⊢
          exact ⟨this.1, hcanAt c this.2⟩
        · rw [sig_parentOf hsig]
          match hpq : old.parentOf with
          | none => simp
          | some pq =>
            rw [hpq] at h3
            simp only [Bool.and_eq_true, decide_eq_true_eq] at h3 ⊢
            refine ⟨h3.1, ?_⟩
            rw [hGet_isSome_iff] at h3 ⊢
            simpa [hSet_keys] using h3.2
        · rw [hdnew]
          show decide (s.nextChan < s.nextChan + 1) = true
          simp
        · match new, hdnew with
          | .cancelCtx _ _ _ _, _ => simp
          | .timerCtx _ _ _ _ _ _, _ => simp
          | .emptyCtx, hd => simp [Node.doneOf] at hd
          | .valueCtx _ _ _, hd => simp [Node.doneOf] at hd
          | .foreignCtx dd _, hd =>
            cases old <;> simp [Node.sig, Node.isCanceler] at hsig hcan
    · intro q hq r hr hne ch hqd hrd
      rcases hmem q hq with hqold | hqnew <;> rcases hmem r hr with hrold | hrnew
      · exact hpair q hqold r hrold hne ch hqd hrd
      · rw [show r.2 = new from by rw [hrnew], hdnew] at hrd
        cases hrd
        have := hfresh q hqold _ hqd
        omega
      · rw [show q.2 = new from by rw [hqnew], hdnew] at hqd
        cases hqd
        have := hfresh r hrold _ hrd
        omega
      · rw [show q.1 = id from by rw [hqnew], show r.1 = id from by rw [hrnew]] at hne
        simp at hne
  · intro q hq
    rcases hmem q hq with hold | hnew
    · have := hinv q hold
      simpa [nodeInvB] using this
    · have hq2 : q.2 = new := by rw [hnew]
      have hiold := hinv (id, old) (hGet_mem hg)
      simp only [nodeInvB, hcan, if_pos] at hiold
      have hcnew : new.isCanceler = true := by rw [sig_isCanceler hsig]; exact hcan
      simp only [nodeInvB, hq2, hcnew, if_pos]
      simp only [herr, hdnew]
      rw [hdn] at hiold
      match he : old.errOf with
      | some e0 => rw [he] at hiold; simp at hiold
      | none =>
        simp only [decide_eq_true_eq]
        show ¬ s.nextChan ∈ s.closedChans
        intro hmem0
        have := hcb _ hmem0
        omega

theorem DoneAux_WFInv : ∀ fuel s id, WF s → Inv s →
    WF (DoneAux fuel s id).1 ∧ Inv (DoneAux fuel s id).1 := by
  intro fuel
  induction fuel with
  | zero => intro s id hwf hinv; exact ⟨hwf, hinv⟩
  | succ fuel ih =>
    intro s id hwf hinv
    match hg : hGet s.heap id with
    | none => simpa [DoneAux, hg] using ⟨hwf, hinv⟩
    | some Node.emptyCtx => simpa [DoneAux, hg] using ⟨hwf, hinv⟩
    | some (Node.foreignCtx d e) => simpa [DoneAux, hg] using ⟨hwf, hinv⟩
    | some (Node.valueCtx p k v) =>
      have hD : DoneAux (fuel + 1) s id = DoneAux fuel s p := by simp [DoneAux, hg]
      rw [hD]; exact ih s p hwf hinv
    | some (Node.cancelCtx p (some d) ch e) => simpa [DoneAux, hg] using ⟨hwf, hinv⟩
    | some (Node.timerCtx p (some d) ch e dl tm) => simpa [DoneAux, hg] using ⟨hwf, hinv⟩
    | some (Node.cancelCtx p none ch e) =>
      have hD : (DoneAux (fuel + 1) s id).1 =
          { s with heap := hSet s.heap id (Node.cancelCtx p (some s.nextChan) ch e),
                   nextChan := s.nextChan + 1 } := by
        simp [DoneAux, hg]
      rw [hD]
      exact alloc_WFInv s id _ _ hg rfl rfl rfl rfl rfl rfl hwf hinv
    | some (Node.timerCtx p none ch e dl tm) =>
      have hD : (DoneAux (fuel + 1) s id).1 =
          { s with heap := hSet s.heap id (Node.timerCtx p (some s.nextChan) ch e dl tm),
                   nextChan := s.nextChan + 1 } := by
        simp [DoneAux, hg]
      rw [hD]
      exact alloc_WFInv s id _ _ hg rfl rfl rfl rfl rfl rfl hwf hinv

/-- Running `Done` twice in a row: the second call returns the same
channel and leaves the state unchanged (the lazily allocated channel is
allocated exactly once). -/
theorem DoneAux_idem : ∀ fuel s id t r, DoneAux fuel s id = (t, r) → DoneAux fuel t id = (t, r) := by
  intro fuel
  induction fuel with
  | zero =>
    intro s id t r h
    simp only [DoneAux] at h ⊢
    cases h
    rfl
  | succ fuel ih =>
    intro s id t r h
    match hg : hGet s.heap id with
    | none =>
      rw [show DoneAux (fuel + 1) s id = (s, none) from by simp [DoneAux, hg]] at h
      cases h
      simp [DoneAux, hg]
    | some Node.emptyCtx =>
      rw [show DoneAux (fuel + 1) s id = (s, none) from by simp [DoneAux, hg]] at h
      cases h
      simp [DoneAux, hg]
    | some (Node.foreignCtx d e) =>
      rw [show DoneAux (fuel + 1) s id = (s, d) from by simp [DoneAux, hg]] at h
      cases h
      simp [DoneAux, hg]
    | some (Node.cancelCtx p (some d) ch e) =>
      rw [show DoneAux (fuel + 1) s id = (s, some d) from by simp [DoneAux, hg]] at h
      cases h
      simp [DoneAux, hg]
    | some (Node.timerCtx p (some d) ch e dl tm) =>
      rw [show DoneAux (fuel + 1) s id = (s, some d) from by simp [DoneAux, hg]] at h
      cases h
      simp [DoneAux, hg]
    | some (Node.cancelCtx p none ch e) =>
      rw [show DoneAux (fuel + 1) s id =
          ({ s with heap := hSet s.heap id (Node.cancelCtx p (some s.nextChan) ch e),
                    nextChan := s.nextChan + 1 }, some s.nextChan) from by simp [DoneAux, hg]] at h
      cases h
      have hgt : hGet (hSet s.heap id (Node.cancelCtx p (some s.nextChan) ch e)) id
          = some (Node.cancelCtx p (some s.nextChan) ch e) := by
        simp [hGet_hSet_self, hg]
      simp [DoneAux, hgt]
    | some (Node.timerCtx p none ch e dl tm) =>
      rw [show DoneAux (fuel + 1) s id =
          ({ s with heap := hSet s.heap id (Node.timerCtx p (some s.nextChan) ch e dl tm),
                    nextChan := s.nextChan + 1 }, some s.nextChan) from by simp [DoneAux, hg]] at h
      cases h
      have hgt : hGet (hSet s.heap id (Node.timerCtx p (some s.nextChan) ch e dl tm)) id
          = some (Node.timerCtx p (some s.nextChan) ch e dl tm) := by
        simp [hGet_hSet_self, hg]
      simp [DoneAux, hgt]
    | some (Node.valueCtx p k v) =>
      rw [show DoneAux (fuel + 1) s id = DoneAux fuel s p from by simp [DoneAux, hg]] at h
      have hfix := (DoneAux_effect fuel s p).1.fixed id _ hg (by rfl)
      rw [h] at hfix
      rw [show DoneAux (fuel + 1) t id = DoneAux fuel t p from by simp [DoneAux, hfix]]
      exact ih s p t r h

theorem Done_idem {s : State} {id : Nat} {t : State} {r : Option Nat}
    (h : Done s id = (t, r)) : Done t id = (t, r) :=
  DoneAux_idem (id + 1) s id t r h

/-- `Done` on a canceler node whose channel is already allocated returns
that channel and leaves the state unchanged. -/
theorem Done_of_doneOf {s : State} {id : Nat} {nd : Node} {d : Nat}
    (hg : hGet s.heap id = some nd) (hc : nd.isCanceler = true)
    (hd : nd.doneOf = some d) : Done s id = (s, some d) := by
  match nd, hc, hd with
  | .cancelCtx p (some d0) ch e, _, hd =>
    simp only [Node.doneOf] at hd
    cases hd
    simp [Done, DoneAux, hg]
  | .timerCtx p (some d0) ch e dl tm, _, hd =>
    simp only [Node.doneOf] at hd
    cases hd
    simp [Done, DoneAux, hg]

theorem sig_eq_cancel {nd : Node} {p : Nat} {dn : Option Nat} {ch : List Nat}
    {e : Option GoError} (h : nd.sig = (Node.cancelCtx p dn ch e).sig) :
    ∃ dn' ch' e', nd = .cancelCtx p dn' ch' e' := by
  cases nd <;> simp [Node.sig] at h
  subst h
  exact ⟨_, _, _, rfl⟩

theorem sig_eq_timer {nd : Node} {p : Nat} {dn : Option Nat} {ch : List Nat}
    {e : Option GoError} {dl : Int} {tm : Bool}
    (h : nd.sig = (Node.timerCtx p dn ch e dl tm).sig) :
    ∃ dn' ch' e' tm', nd = .timerCtx p dn' ch' e' dl tm' := by
  cases nd <;> simp [Node.sig] at h
  obtain ⟨h1, h2⟩ := h
  subst h1; subst h2
  exact ⟨_, _, _, _, rfl⟩

theorem hGet_none_of_evol {s t : State} (hev : Evol s t) {n : Nat}
    (hg : hGet s.heap n = none) : hGet t.heap n = none := by
  cases hgt : hGet t.heap n with
  | none => rfl
  | some nd =>
    have h1 : n ∈ t.heap.map Prod.fst := hGet_isSome_iff.mp (by simp [hgt])
    rw [hev.keys] at h1
    have h2 : (hGet s.heap n).isSome := hGet_isSome_iff.mpr h1
    rw [hg] at h2
    cases h2

/-- `Value` is unchanged by `cancel` / `removeChild` / `Done` (the value
chain consults only kinds, parent links, keys and stored values, none of
which those operations touch). -/
theorem Evol_ValueAux {s t : State} (hev : Evol s t) :
    ∀ fuel id k, ValueAux fuel t id k = ValueAux fuel s id k := by
  intro fuel
  induction fuel with
  | zero => intro id k; rfl
  | succ fuel ih =>
    intro id k
    match hg : hGet s.heap id with
    | none => simp [ValueAux, hg, hGet_none_of_evol hev hg]
    | some Node.emptyCtx =>
      have := hev.fixed id _ hg (by rfl)
      simp [ValueAux, hg, this]
    | some (Node.foreignCtx d e) =>
      have := hev.fixed id _ hg (by rfl)
      simp [ValueAux, hg, this]
    | some (Node.valueCtx p kk vv) =>
      have := hev.fixed id _ hg (by rfl)
      simp only [ValueAux, hg, this]
      by_cases hk : k = kk <;> simp [hk, ih]
    | some (Node.cancelCtx p dn ch e) =>
      obtain ⟨nd', hgt, hsg⟩ := hev.sig id _ hg
      obtain ⟨dn', ch', e', rfl⟩ := sig_eq_cancel hsg
      simp only [ValueAux, hg, hgt]
      by_cases hk : k = Key.cancelCtxKey <;> simp [hk, ih]
    | some (Node.timerCtx p dn ch e dl tm) =>
      obtain ⟨nd', hgt, hsg⟩ := hev.sig id _ hg
      obtain ⟨dn', ch', e', tm', rfl⟩ := sig_eq_timer hsg
      simp only [ValueAux, hg, hgt]
      by_cases hk : k = Key.cancelCtxKey <;> simp [hk, ih]

theorem Evol_Value {s t : State} (hev : Evol s t) (id : Nat) (k : Key) :
    Value t id k = Value s id k :=
  Evol_ValueAux hev (id + 1) id k

/-- `Deadline` is unchanged by `cancel` / `removeChild` / `Done`. -/
theorem Evol_DeadlineAux {s t : State} (hev : Evol s t) :
    ∀ fuel id, DeadlineAux fuel t id = DeadlineAux fuel s id := by
  intro fuel
  induction fuel with
  | zero => intro id; rfl
  | succ fuel ih =>
    intro id
    match hg : hGet s.heap id with
    | none => simp [DeadlineAux, hg, hGet_none_of_evol hev hg]
    | some Node.emptyCtx =>
      have := hev.fixed id _ hg (by rfl)
      simp [DeadlineAux, hg, this]
    | some (Node.foreignCtx d e) =>
      have := hev.fixed id _ hg (by rfl)
      simp [DeadlineAux, hg, this]
    | some (Node.valueCtx p kk vv) =>
      have := hev.fixed id _ hg (by rfl)
      simp [DeadlineAux, hg, this, ih]
    | some (Node.cancelCtx p dn ch e) =>
      obtain ⟨nd', hgt, hsg⟩ := hev.sig id _ hg
      obtain ⟨dn', ch', e', rfl⟩ := sig_eq_cancel hsg
      simp [DeadlineAux, hg, hgt, ih]
    | some (Node.timerCtx p dn ch e dl tm) =>
      obtain ⟨nd', hgt, hsg⟩ := hev.sig id _ hg
      obtain ⟨dn', ch', e', tm', rfl⟩ := sig_eq_timer hsg
      simp [DeadlineAux, hg, hgt]

theorem Evol_Deadline {s t : State} (hev : Evol s t) (id : Nat) :
    Deadline t id = Deadline s id :=
  Evol_DeadlineAux hev (id + 1) id

/-! ## Extraction lemmas for `WF` and `Inv` -/

theorem WF_nodeOk {s : State} (hwf : WF s) {id : Nat} {nd : Node}
    (hg : hGet s.heap id = some nd) : nodeOkB s (id, nd) = true :=
  hwf.2.2.2.2.1 _ (hGet_mem hg)

theorem WF_lt_nextCtx {s : State} (hwf : WF s) {id : Nat} {nd : Node}
    (hg : hGet s.heap id = some nd) : id < s.nextCtx := by
  have := WF_nodeOk hwf hg
  simp only [nodeOkB, Bool.and_eq_true, decide_eq_true_eq] at this
  exact this.1.1.1.1

theorem WF_parent_lt {s : State} (hwf : WF s) {id : Nat} {nd : Node} {q : Nat}
    (hg : hGet s.heap id = some nd) (hp : nd.parentOf = some q) :
    q < id ∧ (hGet s.heap q).isSome := by
  have := WF_nodeOk hwf hg
  simp only [nodeOkB, Bool.and_eq_true, decide_eq_true_eq] at this
  have h3 := this.1.1.2
  rw [hp] at h3
  simp only [Bool.and_eq_true, decide_eq_true_eq] at h3
  exact h3

theorem WF_value_key {s : State} (hwf : WF s) {id p : Nat} {kk : Key} {vv : Val}
    (hg : hGet s.heap id = some (.valueCtx p kk vv)) : kk ≠ Key.cancelCtxKey := by
  have := WF_nodeOk hwf hg
  simp only [nodeOkB, Bool.and_eq_true, decide_eq_true_eq] at this
  exact this.2

theorem WF_children {s : State} (hwf : WF s) {id : Nat} {nd : Node}
    (hg : hGet s.heap id = some nd) :
    ∀ c ∈ nd.childrenOf, id < c ∧ isCancelerAt s c = true := by
  have := WF_nodeOk hwf hg
  simp only [nodeOkB, Bool.and_eq_true, decide_eq_true_eq] at this
  have h2 := this.1.1.1.2
  rw [List.all_eq_true] at h2
  intro c hc
  have := h2 c hc
  simp only [Bool.and_eq_true, decide_eq_true_eq] at this
  exact this

theorem Inv_node {s : State} (hinv : Inv s) {id : Nat} {nd : Node}
    (hg : hGet s.heap id = some nd) : nodeInvB s (id, nd) = true :=
  hinv _ (hGet_mem hg)

theorem Inv_closed_of_err {s : State} (hinv : Inv s) {id : Nat} {nd : Node}
    (hg : hGet s.heap id = some nd) (hc : nd.isCanceler = true) {e : GoError}
    (he : nd.errOf = some e) :
    ∃ ch, nd.doneOf = some ch ∧ ch ∈ s.closedChans := by
  have h := Inv_node hinv hg
  simp only [nodeInvB, hc, if_pos] at h
  rw [he] at h
  match hd : nd.doneOf with
  | some ch =>
    rw [hd] at h
    simp only [decide_eq_true_eq] at h
    exact ⟨ch, rfl, h⟩
  | none => rw [hd] at h; cases h

theorem Inv_open_of_none {s : State} (hinv : Inv s) {id : Nat} {nd : Node}
    (hg : hGet s.heap id = some nd) (hc : nd.isCanceler = true)
    (he : nd.errOf = none) {ch : Nat} (hd : nd.doneOf = some ch) :
    ch ∉ s.closedChans := by
  have h := Inv_node hinv hg
  simp only [nodeInvB, hc, if_pos] at h
  rw [he, hd] at h
  simpa using h

theorem Inv_err_of_closed {s : State} (hinv : Inv s) {id : Nat} {nd : Node}
    (hg : hGet s.heap id = some nd) (hc : nd.isCanceler = true) {ch : Nat}
    (hd : nd.doneOf = some ch) (hcl : ch ∈ s.closedChans) :
    ∃ e, nd.errOf = some e := by
  match he : nd.errOf with
  | some e => exact ⟨e, rfl⟩
  | none => exact absurd hcl (Inv_open_of_none hinv hg hc he hd)

/-- Answers to the sentinel key always come from a canceler on the
ancestor chain (hence with an id no larger than the starting point). -/
theorem ValueAux_sentinel {s : State} (hwf : WF s) :
    ∀ fuel id v, ValueAux fuel s id Key.cancelCtxKey = some v →
    ∃ p, v = Val.ctxRef p ∧ p ≤ id ∧ isCancelerAt s p = true := by
  intro fuel
  induction fuel with
  | zero => intro id v h; simp [ValueAux] at h
  | succ fuel ih =>
    intro id v h
    match hg : hGet s.heap id with
    | none => simp [ValueAux, hg] at h
    | some Node.emptyCtx => simp [ValueAux, hg] at h
    | some (Node.foreignCtx d e) => simp [ValueAux, hg] at h
    | some (Node.cancelCtx p dn ch e) =>
      simp only [ValueAux, hg, if_pos rfl] at h
      cases h
      exact ⟨id, rfl, le_refl _, by simp [isCancelerAt, hg, Node.isCanceler]⟩
    | some (Node.timerCtx p dn ch e dl tm) =>
      simp only [ValueAux, hg, if_pos rfl] at h
      cases h
      exact ⟨id, rfl, le_refl _, by simp [isCancelerAt, hg, Node.isCanceler]⟩
    | some (Node.valueCtx p kk vv) =>
      have hkk := WF_value_key hwf hg
      simp only [ValueAux, hg, if_neg (Ne.symm hkk)] at h
      obtain ⟨q, hv, hle, hcan⟩ := ih p v h
      have hlt := (WF_parent_lt hwf hg (by rfl)).1
      exact ⟨q, hv, by omega, hcan⟩

/-! ## `State.upd`, `removeChild` and `parentCancelCtx` effect lemmas -/

theorem upd_hGet_self (s : State) (id : Nat) (f : Node → Node) :
    hGet (s.upd id f).heap id = (hGet s.heap id).map f := by
  unfold State.upd
  match hg : hGet s.heap id with
  | none => simp [hg]
  | some nd => simp [hg, hGet_hSet_self]

theorem upd_hGet_ne (s : State) (id : Nat) (f : Node → Node) {n : Nat} (h : n ≠ id) :
    hGet (s.upd id f).heap n = hGet s.heap n := by
  unfold State.upd
  match hg : hGet s.heap id with
  | none => simp [hg]
  | some nd => simp [hg, hGet_hSet_ne _ _ h]

theorem upd_keys (s : State) (id : Nat) (f : Node → Node) :
    (s.upd id f).heap.map Prod.fst = s.heap.map Prod.fst := by
  unfold State.upd
  match hg : hGet s.heap id with
  | none => simp [hg]
  | some nd => simp [hg, hSet_keys]

theorem upd_scalars (s : State) (id : Nat) (f : Node → Node) :
    (s.upd id f).nextCtx = s.nextCtx ∧ (s.upd id f).nextChan = s.nextChan ∧
    (s.upd id f).closedChans = s.closedChans ∧ (s.upd id f).goroutines = s.goroutines ∧
    (s.upd id f).watchers = s.watchers ∧ (s.upd id f).now = s.now := by
  unfold State.upd
  match hg : hGet s.heap id with
  | none => simp [hg]
  | some nd => simp [hg]

/-- A field update that keeps kind, parent, deadline, `err`, `done`, and
only shrinks `children`, is an evolution step. -/
theorem upd_evol (s : State) (id : Nat) (f : Node → Node)
    (hsig : ∀ nd, (f nd).sig = nd.sig)
    (hfix : ∀ nd, nd.isCanceler = false → f nd = nd)
    (herr : ∀ nd, (f nd).errOf = nd.errOf)
    (hdone : ∀ nd, (f nd).doneOf = nd.doneOf)
    (hch : ∀ nd, (f nd).childrenOf ⊆ nd.childrenOf) :
    Evol s (s.upd id f) := by
  obtain ⟨e1, e2, e3, e4, e5, e6⟩ := upd_scalars s id f
  refine ⟨upd_keys s id f, ?_, ?_, ?_, ?_, ?_, ?_, e1, le_of_eq e2.symm, e4, e5, e6⟩
  · intro n nd hg
    by_cases hn : n = id
    · subst hn
      refine ⟨f nd, ?_, hsig nd⟩
      rw [upd_hGet_self, hg]
      rfl
    · exact ⟨nd, by rw [upd_hGet_ne s id f hn, hg], rfl⟩
  · intro n nd hg hnc
    by_cases hn : n = id
    · subst hn
      rw [upd_hGet_self, hg]
      simp [hfix nd hnc]
    · rw [upd_hGet_ne s id f hn, hg]
  · intro n e he
    by_cases hn : n = id
    · subst hn
      match hg : hGet s.heap n with
      | none => simp [errField, hg] at he
      | some nd =>
        have he2 : nd.errOf = some e := by simpa [errField, hg] using he
        simp [errField, upd_hGet_self, hg, herr nd, he2]
    · simpa [errField, upd_hGet_ne s id f hn] using he
  · intro n d hd
    by_cases hn : n = id
    · subst hn
      match hg : hGet s.heap n with
      | none => simp [doneField, hg] at hd
      | some nd =>
        have hd2 : nd.doneOf = some d := by simpa [doneField, hg] using hd
        simp [doneField, upd_hGet_self, hg, hdone nd, hd2]
    · simpa [doneField, upd_hGet_ne s id f hn] using hd
  · rw [e3]
    exact fun ch h => h
  · intro n
    by_cases hn : n = id
    · subst hn
      simp only [childrenField]
      rw [upd_hGet_self]
      match hg : hGet s.heap n with
      | none => simp
      | some nd => simpa using hch nd
    · simp [childrenField, upd_hGet_ne s id f hn]

/-- Such an update also preserves `WF` and `Inv`. -/
theorem upd_WFInv (s : State) (id : Nat) (f : Node → Node)
    (hsig : ∀ nd, (f nd).sig = nd.sig)
    (hfix : ∀ nd, nd.isCanceler = false → f nd = nd)
    (herr : ∀ nd, (f nd).errOf = nd.errOf)
    (hdone : ∀ nd, (f nd).doneOf = nd.doneOf)
    (hch : ∀ nd, (f nd).childrenOf ⊆ nd.childrenOf)
    (hwf : WF s) (hinv : Inv s) : WF (s.upd id f) ∧ Inv (s.upd id f) := by
  obtain ⟨e1, e2, e3, e4, e5, e6⟩ := upd_scalars s id f
  obtain ⟨hnd, hpos, hc0, hcb, hok, hpair⟩ := hwf
  have hmem : ∀ q ∈ (s.upd id f).heap, q ∈ s.heap ∨ ∃ nd0, hGet s.heap id = some nd0 ∧
      q = (id, f nd0) := by
    intro q hq
    unfold State.upd at hq
    match hg : hGet s.heap id with
    | none => rw [hg] at hq; exact Or.inl hq
    | some nd0 =>
      rw [hg] at hq
      rcases mem_hSet hq with h1 | h2
      · exact Or.inl h1
      · exact Or.inr ⟨nd0, rfl, h2⟩
  have hcanAt : ∀ c, isCancelerAt s c = true → isCancelerAt (s.upd id f) c = true := by
    intro c hcat
    by_cases hc : c = id
    · subst hc
      match hg : hGet s.heap c with
      | none => simp [isCancelerAt, hg] at hcat
      | some nd =>
        have h2 : nd.isCanceler = true := by simpa [isCancelerAt, hg] using hcat
        simp [isCancelerAt, upd_hGet_self, hg, sig_isCanceler (hsig nd), h2]
    · simp only [isCancelerAt] at hcat ⊢
      rw [upd_hGet_ne s id f hc]
      exact hcat
  have hokf : ∀ n nd0, hGet s.heap n = some nd0 → nodeOkB (s.upd id f) (n, f nd0) = true := by
    intro n nd0 hg
    have hoq := hok (n, nd0) (hGet_mem hg)
    simp only [nodeOkB, Bool.and_eq_true, decide_eq_true_eq] at hoq ⊢
    obtain ⟨⟨⟨⟨h1, h2⟩, h3⟩, h4⟩, h5⟩ := hoq
    rw [e1, e2]
    refine ⟨⟨⟨⟨h1, ?_⟩, ?_⟩, ?_⟩, ?_⟩
    · rw [List.all_eq_true] at h2 ⊢
      intro c hcm
      have hcm0 : c ∈ nd0.childrenOf := hch nd0 hcm
      have := h2 c hcm0
      simp only [Bool.and_eq_true, decide_eq_true_eq] at this ⊢
      exact ⟨this.1, hcanAt c this.2⟩
    · rw [sig_parentOf (hsig nd0)]
      match hpq : nd0.parentOf with
      | none => simp
      | some pq =>
        rw [hpq] at h3
        simp only [Bool.and_eq_true, decide_eq_true_eq] at h3 ⊢
        refine ⟨h3.1, ?_⟩
        rw [hGet_isSome_iff] at h3 ⊢
        rw [upd_keys]
        exact h3.2
    · rw [hdone nd0]
      match hdq : nd0.doneOf with
      | none => simp
      | some ch =>
        rw [hdq] at h4
        exact h4
    · match hcc : nd0.isCanceler with
      | true =>
        match nd0, hcc with
        | .cancelCtx pp dd cc ee, _ =>
          obtain ⟨_, _, _, hfe⟩ := sig_eq_cancel (hsig (Node.cancelCtx pp dd cc ee))
          rw [hfe]
        | .timerCtx pp dd cc ee dll tt, _ =>
          obtain ⟨_, _, _, _, hfe⟩ := sig_eq_timer (hsig (Node.timerCtx pp dd cc ee dll tt))
          rw [hfe]
      | false =>
        rw [hfix nd0 hcc]
        exact h5
  constructor

  · refine ⟨by rw [upd_keys]; exact hnd, by omega, by rw [e3]; exact hc0,
      by rw [e3, e2]; exact hcb, ?_, ?_⟩
    · intro q hq
      rcases hmem q hq with hold | ⟨nd0, hg0, hq0⟩
      · have hoq := hok q hold
        simp only [nodeOkB, Bool.and_eq_true, decide_eq_true_eq] at hoq ⊢
        obtain ⟨⟨⟨⟨h1, h2⟩, h3⟩, h4⟩, h5⟩ := hoq
        rw [e1, e2]
        refine ⟨⟨⟨⟨h1, ?_⟩, ?_⟩, h4⟩, h5⟩
        · rw [List.all_eq_true] at h2 ⊢
          intro c hcm
          have := h2 c hcm
          simp only [Bool.and_eq_true, decide_eq_true_eq] at this ⊢
          exact ⟨this.1, hcanAt c this.2⟩
        · match hpq : q.2.parentOf with
          | none => simp
          | some pq =>
            rw [hpq] at h3
            simp only [Bool.and_eq_true, decide_eq_true_eq] at h3 ⊢
            refine ⟨h3.1, ?_⟩
            rw [hGet_isSome_iff] at h3 ⊢
            rw [upd_keys]
            exact h3.2
      · rw [hq0]
        exact hokf id nd0 hg0
    · intro q hq r hr hne ch hqd hrd
      rw [e3]
      have hdq : ∀ x, x ∈ (s.upd id f).heap → ∀ c, x.2.doneOf = some c →
          ∃ y ∈ s.heap, y.1 = x.1 ∧ y.2.doneOf = some c := by
        intro x hx c hc
        rcases hmem x hx with hold | ⟨nd0, hg0, hx0⟩
        · exact ⟨x, hold, rfl, hc⟩
        · refine ⟨(id, nd0), hGet_mem hg0, by rw [hx0], ?_⟩
          rw [hx0] at hc
          simp only at hc
          rw [hdone nd0] at hc
          exact hc
      obtain ⟨y1, hy1, he1, hd1⟩ := hdq q hq ch hqd
      obtain ⟨y2, hy2, he2, hd2⟩ := hdq r hr ch hrd
      exact hpair y1 hy1 y2 hy2 (by rw [he1, he2]; exact hne) ch hd1 hd2
  · intro q hq
    rcases hmem q hq with hold | ⟨nd0, hg0, hq0⟩
    · have := hinv q hold
      simp only [nodeInvB, e3] at *
      exact this
    · have hi := hinv (id, nd0) (hGet_mem hg0)
      rw [hq0]
      simp only [nodeInvB, e3] at hi ⊢
      rw [show (f nd0).isCanceler = nd0.isCanceler from sig_isCanceler (hsig nd0),
        herr nd0, hdone nd0]
      exact hi

/-! ## Setter lemmas -/

theorem setChildren_sig (nd : Node) (ch : List Nat) : (nd.setChildren ch).sig = nd.sig := by
  cases nd <;> rfl

theorem setChildren_fix (nd : Node) (ch : List Nat) (h : nd.isCanceler = false) :
    nd.setChildren ch = nd := by
  cases nd <;> first | rfl | simp [Node.isCanceler] at h

theorem setChildren_err (nd : Node) (ch : List Nat) : (nd.setChildren ch).errOf = nd.errOf := by
  cases nd <;> rfl

theorem setChildren_done (nd : Node) (ch : List Nat) : (nd.setChildren ch).doneOf = nd.doneOf := by
  cases nd <;> rfl

theorem setChildren_timer (nd : Node) (ch : List Nat) :
    (nd.setChildren ch).timerOf = nd.timerOf := by
  cases nd <;> rfl

theorem setChildren_childrenOf (nd : Node) (ch : List Nat) (h : nd.isCanceler = true) :
    (nd.setChildren ch).childrenOf = ch := by
  cases nd <;> first | rfl | simp [Node.isCanceler] at h

theorem setTimer_sig (nd : Node) (t : Bool) : (nd.setTimer t).sig = nd.sig := by
  cases nd <;> rfl

theorem setTimer_fix (nd : Node) (t : Bool) (h : nd.isCanceler = false) :
    nd.setTimer t = nd := by
  cases nd <;> first | rfl | simp [Node.isCanceler] at h

theorem setTimer_err (nd : Node) (t : Bool) : (nd.setTimer t).errOf = nd.errOf := by
  cases nd <;> rfl

theorem setTimer_done (nd : Node) (t : Bool) : (nd.setTimer t).doneOf = nd.doneOf := by
  cases nd <;> rfl

theorem setTimer_childrenOf (nd : Node) (t : Bool) :
    (nd.setTimer t).childrenOf = nd.childrenOf := by
  cases nd <;> rfl

/-- Field updates through preserving setters keep `errField` pointwise. -/
theorem upd_errField (s : State) (id : Nat) (f : Node → Node)
    (herr : ∀ nd, (f nd).errOf = nd.errOf) (n : Nat) :
    errField (s.upd id f) n = errField s n := by
  by_cases hn : n = id
  · subst hn
    match hg : hGet s.heap n with
    | none => simp [errField, upd_hGet_self, hg]
    | some nd => simp [errField, upd_hGet_self, hg, herr nd]
  · simp [errField, upd_hGet_ne s id f hn]

theorem upd_doneField (s : State) (id : Nat) (f : Node → Node)
    (hdone : ∀ nd, (f nd).doneOf = nd.doneOf) (n : Nat) :
    doneField (s.upd id f) n = doneField s n := by
  by_cases hn : n = id
  · subst hn
    match hg : hGet s.heap n with
    | none => simp [doneField, upd_hGet_self, hg]
    | some nd => simp [doneField, upd_hGet_self, hg, hdone nd]
  · simp [doneField, upd_hGet_ne s id f hn]

theorem upd_timerField (s : State) (id : Nat) (f : Node → Node)
    (htm : ∀ nd, (f nd).timerOf = nd.timerOf) (n : Nat) :
    timerField (s.upd id f) n = timerField s n := by
  by_cases hn : n = id
  · subst hn
    match hg : hGet s.heap n with
    | none => simp [timerField, upd_hGet_self, hg]
    | some nd => simp [timerField, upd_hGet_self, hg, htm nd]
  · simp [timerField, upd_hGet_ne s id f hn]

/-! ## `parentCancelCtx` normal form and `removeChild` effects -/

/-- Unfolding of `parentCancelCtx` into its captured-done/value-probe/
consistency-check structure. -/
theorem parentCancelCtx_def (s : State) (parent : Nat) :
    parentCancelCtx s parent =
      ((Done s parent).1,
       match (Done s parent).2 with
       | none => none
       | some d =>
         if d = closedchan then none
         else
           match Value (Done s parent).1 parent Key.cancelCtxKey with
           | some (Val.ctxRef p) =>
             match hGet (Done s parent).1.heap p with
             | some (.cancelCtx _ pd _ _) => if pd = some d then some p else none
             | some (.timerCtx _ pd _ _ _ _) => if pd = some d then some p else none
             | _ => none
           | _ => none) := by
  rcases hD : Done s parent with ⟨s1, od⟩
  unfold parentCancelCtx
  rw [hD]
  match od with
  | none => rfl
  | some d =>
    show (if d = closedchan then (s1, none) else _) = _
    by_cases hd : d = closedchan
    · simp [hd]
    · simp only [if_neg hd]
      match hv : Value s1 parent Key.cancelCtxKey with
      | none => rfl
      | some (Val.str st) => rfl
      | some (Val.ctxRef p) =>
        simp only
        match hg : hGet s1.heap p with
        | none => rfl
        | some Node.emptyCtx => rfl
        | some (.valueCtx _ _ _) => rfl
        | some (.foreignCtx _ _) => rfl
        | some (.cancelCtx _ pd _ _) => by_cases hpd : pd = some d <;> simp [hpd]
        | some (.timerCtx _ pd _ _ _ _) => by_cases hpd : pd = some d <;> simp [hpd]

theorem parentCancelCtx_fst (s : State) (parent : Nat) :
    (parentCancelCtx s parent).1 = (Done s parent).1 := by
  rw [parentCancelCtx_def]

theorem removeChild_def (s : State) (parent child : Nat) :
    removeChild s parent child =
      match (parentCancelCtx s parent).2 with
      | none => (parentCancelCtx s parent).1
      | some p => (parentCancelCtx s parent).1.upd p
          (fun nd => nd.setChildren (nd.childrenOf.filter (· ≠ child))) := by
  rcases hP : parentCancelCtx s parent with ⟨s1, r⟩
  unfold removeChild
  rw [hP]

theorem removeChild_evol (s : State) (parent child : Nat) :
    Evol s (removeChild s parent child) := by
  have h1 : Evol s (parentCancelCtx s parent).1 := by
    rw [parentCancelCtx_fst]; exact Done_evol s parent
  rw [removeChild_def]
  match hp : (parentCancelCtx s parent).2 with
  | none => exact h1
  | some p =>
    refine Evol.trans h1 (upd_evol _ p _ ?_ ?_ ?_ ?_ ?_)
    · intro nd; exact setChildren_sig nd _
    · intro nd h
      rw [setChildren_fix nd _ h]
    · intro nd; exact setChildren_err nd _
    · intro nd; exact setChildren_done nd _
    · intro nd
      match hcc : nd.isCanceler with
      | true =>
        rw [setChildren_childrenOf nd _ hcc]
        exact fun x hx => (List.mem_filter.mp hx).1
      | false =>
        rw [setChildren_fix nd _ hcc]
        exact List.Subset.refl _

theorem removeChild_WFInv {s : State} (hwf : WF s) (hinv : Inv s) (parent child : Nat) :
    WF (removeChild s parent child) ∧ Inv (removeChild s parent child) := by
  have h1 : WF (parentCancelCtx s parent).1 ∧ Inv (parentCancelCtx s parent).1 := by
    rw [parentCancelCtx_fst]
    exact DoneAux_WFInv (parent + 1) s parent hwf hinv
  rw [removeChild_def]
  match hp : (parentCancelCtx s parent).2 with
  | none => exact h1
  | some p =>
    refine upd_WFInv _ p _ ?_ ?_ ?_ ?_ ?_ h1.1 h1.2
    · intro nd; exact setChildren_sig nd _
    · intro nd h
      rw [setChildren_fix nd _ h]
    · intro nd; exact setChildren_err nd _
    · intro nd; exact setChildren_done nd _
    · intro nd
      match hcc : nd.isCanceler with
      | true =>
        rw [setChildren_childrenOf nd _ hcc]
        exact fun x hx => (List.mem_filter.mp hx).1
      | false =>
        rw [setChildren_fix nd _ hcc]
        exact List.Subset.refl _

theorem removeChild_errField (s : State) (parent child : Nat) (n : Nat) :
    errField (removeChild s parent child) n = errField s n := by
  have h1 : ∀ m, errField (parentCancelCtx s parent).1 m = errField s m := by
    rw [parentCancelCtx_fst]
    exact (DoneAux_effect (parent + 1) s parent).2.2.1
  rw [removeChild_def]
  match hp : (parentCancelCtx s parent).2 with
  | none => exact h1 n
  | some p =>
    rw [upd_errField _ p _ (fun nd => setChildren_err nd _) n]
    exact h1 n

theorem removeChild_timerField (s : State) (parent child : Nat) (n : Nat) :
    timerField (removeChild s parent child) n = timerField s n := by
  have h1 : ∀ m, timerField (parentCancelCtx s parent).1 m = timerField s m := by
    rw [parentCancelCtx_fst]
    exact (DoneAux_effect (parent + 1) s parent).2.2.2.2
  rw [removeChild_def]
  match hp : (parentCancelCtx s parent).2 with
  | none => exact h1 n
  | some p =>
    rw [upd_timerField _ p _ (fun nd => setChildren_timer nd _) n]
    exact h1 n

theorem removeChild_closedChans (s : State) (parent child : Nat) :
    (removeChild s parent child).closedChans = s.closedChans := by
  have h1 : (parentCancelCtx s parent).1.closedChans = s.closedChans := by
    rw [parentCancelCtx_fst]
    exact (DoneAux_effect (parent + 1) s parent).2.1
  rw [removeChild_def]
  match hp : (parentCancelCtx s parent).2 with
  | none => exact h1
  | some p =>
    rw [(upd_scalars _ p _).2.2.1]
    exact h1

/-! ## `cancelAux` unfolding and inversion lemmas -/

theorem cancelChildren_nil (fuel : Nat) (e : GoError) (os : Option State) :
    cancelChildren fuel e [] os = os := rfl

theorem cancelChildren_cons (fuel : Nat) (e : GoError) (c : Nat) (cs : List Nat)
    (os : Option State) :
    cancelChildren fuel e (c :: cs) os =
      cancelChildren fuel e cs (os.bind fun st => cancelAux fuel false (some e) st c) := rfl

theorem cancelChildren_none (fuel : Nat) (e : GoError) (cs : List Nat) :
    cancelChildren fuel e cs none = none := by
  induction cs with
  | nil => rfl
  | cons c cs ih => rw [cancelChildren_cons]; exact ih

theorem cancelAux_errSome {s : State} {id : Nat} {nd : Node} {e0 : GoError}
    (fuel : Nat) (b : Bool) (e : GoError)
    (hg : hGet s.heap id = some nd) (hcan : nd.isCanceler = true)
    (he : nd.errOf = some e0) :
    cancelAux (fuel + 1) b (some e) s id = some s := by
  match nd, hcan, he with
  | .cancelCtx p dn cs (some e1), _, _ => simp [cancelAux, hg]
  | .timerCtx p dn cs (some e1) dl tm, _, _ => simp [cancelAux, hg]

theorem cancelAux_cancel_def {s : State} {id p : Nat} {dn : Option Nat} {cs : List Nat}
    (fuel : Nat) (b : Bool) (e : GoError)
    (hg : hGet s.heap id = some (.cancelCtx p dn cs none)) :
    cancelAux (fuel + 1) b (some e) s id =
      match cancelChildren fuel e cs (some
        { s with heap := hSet s.heap id (.cancelCtx p (some (dn.getD closedchan)) cs (some e)),
                 closedChans := dn.getD closedchan :: s.closedChans }) with
      | none => none
      | some s2 =>
        some (if b then removeChild (s2.upd id (Node.setChildren [])) p id
              else s2.upd id (Node.setChildren [])) := by
  simp only [cancelAux, hg, cancelChildren]
  cases dn <;> rfl

theorem cancelAux_timer_def {s : State} {id p : Nat} {dn : Option Nat} {cs : List Nat}
    {dl : Int} {tm : Bool} (fuel : Nat) (b : Bool) (e : GoError)
    (hg : hGet s.heap id = some (.timerCtx p dn cs none dl tm)) :
    cancelAux (fuel + 1) b (some e) s id =
      match cancelChildren fuel e cs (some
        { s with heap := hSet s.heap id
                   (.timerCtx p (some (dn.getD closedchan)) cs (some e) dl tm),
                 closedChans := dn.getD closedchan :: s.closedChans }) with
      | none => none
      | some s2 =>
        some (if b then
                removeChild ((s2.upd id (Node.setChildren [])).upd id (Node.setTimer false)) p id
              else (s2.upd id (Node.setChildren [])).upd id (Node.setTimer false)) := by
  simp only [cancelAux, hg, cancelChildren]
  cases dn <;> rfl

theorem mem_hSet_nodup {h : List (Nat × Node)} (hnd : (h.map Prod.fst).Nodup)
    {id : Nat} {nd : Node} {q : Nat × Node} (hm : q ∈ hSet h id nd) :
    (q ∈ h ∧ q.1 ≠ id) ∨ q = (id, nd) := by
  induction h with
  | nil => simp [hSet] at hm
  | cons p t ih =>
    obtain ⟨k, v⟩ := p
    simp only [List.map_cons, List.nodup_cons] at hnd
    by_cases hk : k = id
    · subst hk
      simp only [hSet, if_pos rfl] at hm
      rcases List.mem_cons.mp hm with h1 | h2
      · exact Or.inr h1
      · refine Or.inl ⟨List.mem_cons_of_mem _ h2, ?_⟩
        intro hq1
        exact hnd.1 (List.mem_map.mpr ⟨q, h2, hq1⟩)
    · simp only [hSet, if_neg hk] at hm
      rcases List.mem_cons.mp hm with h1 | h2
      · subst h1
        exact Or.inl ⟨List.mem_cons_self _ _, hk⟩
      · rcases ih hnd.2 h2 with ⟨h3, h4⟩ | h3
        · exact Or.inl ⟨List.mem_cons_of_mem _ h3, h4⟩
        · exact Or.inr h3

/-- The locked first half of `cancel`: setting `err` and closing the done
channel (installing `closedchan` if the channel was never observed)
preserves `WF` and `Inv` and is an evolution step. -/
theorem close_effect (s : State) (id : Nat) (old new : Node) (e : GoError) (d : Nat)
    (hg : hGet s.heap id = some old) (hsig : new.sig = old.sig)
    (hcan : old.isCanceler = true)
    (holde : old.errOf = none) (hnewe : new.errOf = some e)
    (hd : d = old.doneOf.getD closedchan) (hnewd : new.doneOf = some d)
    (hch : new.childrenOf = old.childrenOf)
    (hwf : WF s) (hinv : Inv s) :
    Evol s { s with heap := hSet s.heap id new, closedChans := d :: s.closedChans } ∧
    WF { s with heap := hSet s.heap id new, closedChans := d :: s.closedChans } ∧
    Inv { s with heap := hSet s.heap id new, closedChans := d :: s.closedChans } := by
  obtain ⟨hnd, hpos, hc0, hcb, hok, hpair⟩ := hwf
  have hgt : hGet (hSet s.heap id new) id = some new := by
    simp [hGet_hSet_self, hg]
  have hdlt : d < s.nextChan := by
    match hdo : old.doneOf with
    | some d0 =>
      have := hok (id, old) (hGet_mem hg)
      simp only [nodeOkB, Bool.and_eq_true, decide_eq_true_eq] at this
      have h4 := this.1.2
      rw [hdo] at h4
      simp only [decide_eq_true_eq] at h4
      rw [hd, hdo]
      exact h4
    | none =>
      rw [hd, hdo]
      simpa [closedchan] using hpos
  have hcanAt : ∀ c, isCancelerAt s c = true →
      isCancelerAt { s with heap := hSet s.heap id new, closedChans := d :: s.closedChans } c
        = true := by
    intro c hcat
    by_cases hc : c = id
    · subst hc
      simp [isCancelerAt, hgt, sig_isCanceler hsig, hcan]
    · simpa [isCancelerAt, hGet_hSet_ne _ _ hc] using hcat
  refine ⟨?_, ?_, ?_⟩
  · refine ⟨hSet_keys _ _ _, ?_, ?_, ?_, ?_, fun c h => List.mem_cons_of_mem _ h, ?_,
      rfl, le_refl _, rfl, rfl, rfl⟩
    · intro n nd hgn
      by_cases hn : n = id
      · subst hn
        rw [hg] at hgn; cases hgn
        exact ⟨new, hgt, hsig⟩
      · exact ⟨nd, by rw [hGet_hSet_ne _ _ hn]; exact hgn, rfl⟩
    · intro n nd hgn hnc
      by_cases hn : n = id
      · subst hn
        rw [hg] at hgn; cases hgn
        rw [hcan] at hnc
        cases hnc
      · rw [hGet_hSet_ne _ _ hn]; exact hgn
    · intro n e0 he
      by_cases hn : n = id
      · subst hn
        have : old.errOf = some e0 := by simpa [errField, hg] using he
        rw [holde] at this
        cases this
      · simpa [errField, hGet_hSet_ne _ _ hn] using he
    · intro n d0 hdn
      by_cases hn : n = id
      · subst hn
        have h1 : old.doneOf = some d0 := by simpa [doneField, hg] using hdn
        have h2 : d = d0 := by rw [hd, h1]; rfl
        simp [doneField, hgt, hnewd, h2]
      · simpa [doneField, hGet_hSet_ne _ _ hn] using hdn
    · intro n
      by_cases hn : n = id
      · subst hn
        simp [childrenField, hgt, hg, hch]
      · simp [childrenField, hGet_hSet_ne _ _ hn]
  · refine ⟨by rw [hSet_keys]; exact hnd, hpos, List.mem_cons_of_mem _ hc0, ?_, ?_, ?_⟩
    · intro ch hm
      rcases List.mem_cons.mp hm with h1 | h2
      · subst h1; exact hdlt
      · exact hcb ch h2
    · intro q hq
      rcases mem_hSet hq with hold | hnew
      · have hoq := hok q hold
        simp only [nodeOkB, Bool.and_eq_true, decide_eq_true_eq] at hoq ⊢
        obtain ⟨⟨⟨⟨h1, h2⟩, h3⟩, h4⟩, h5⟩ := hoq
        refine ⟨⟨⟨⟨h1, ?_⟩, ?_⟩, h4⟩, h5⟩
        · rw [List.all_eq_true] at h2 ⊢
          intro c hcm
          have := h2 c hcm
          simp only [Bool.and_eq_true, decide_eq_true_eq] at this ⊢
          exact ⟨this.1, hcanAt c this.2⟩
        · match hpq : q.2.parentOf with
          | none => simp
          | some pq =>
            rw [hpq] at h3
            simp only [Bool.and_eq_true, decide_eq_true_eq] at h3 ⊢
            refine ⟨h3.1, ?_⟩
            rw [hGet_isSome_iff] at h3 ⊢
            simpa [hSet_keys] using h3.2
      · have hq1 : q.1 = id := by rw [hnew]
        have hq2 : q.2 = new := by rw [hnew]
        have hoq := hok (id, old) (hGet_mem hg)
        simp only [nodeOkB, Bool.and_eq_true, decide_eq_true_eq] at hoq ⊢
        obtain ⟨⟨⟨⟨h1, h2⟩, h3⟩, h4⟩, h5⟩ := hoq
        rw [hq1, hq2]
        refine ⟨⟨⟨⟨h1, ?_⟩, ?_⟩, ?_⟩, ?_⟩
        · rw [List.all_eq_true]
          rw [List.all_eq_true] at h2
          intro c hcm
          rw [hch] at hcm
          have := h2 c hcm
          simp only [Bool.and_eq_true, decide_eq_true_eq] at this ⊢
          exact ⟨this.1, hcanAt c this.2⟩
        · rw [sig_parentOf hsig]
          match hpq : old.parentOf with
          | none => simp
          | some pq =>
            rw [hpq] at h3
            simp only [Bool.and_eq_true, decide_eq_true_eq] at h3 ⊢
            refine ⟨h3.1, ?_⟩
            rw [hGet_isSome_iff] at h3 ⊢
            simpa [hSet_keys] using h3.2
        · rw [hnewd]
          simpa using hdlt
        · match new, hnewd with
          | .cancelCtx _ _ _ _, _ => rfl
          | .timerCtx _ _ _ _ _ _, _ => rfl
          | .emptyCtx, hdx => simp [Node.doneOf] at hdx
          | .valueCtx _ _ _, hdx => simp [Node.doneOf] at hdx
          | .foreignCtx dd ee, hdx =>
            cases old <;> simp [Node.sig, Node.isCanceler] at hsig hcan
    · intro q hq r hr hne ch hqd hrd
      show ch ∈ d :: s.closedChans
      rcases mem_hSet hq with hqold | hqnew <;> rcases mem_hSet hr with hrold | hrnew
      · exact List.mem_cons_of_mem _ (hpair q hqold r hrold hne ch hqd hrd)
      · rw [show r.2 = new from by rw [hrnew], hnewd] at hrd
        cases hrd
        exact List.mem_cons_self _ _
      · rw [show q.2 = new from by rw [hqnew], hnewd] at hqd
        cases hqd
        exact List.mem_cons_self _ _
      · rw [show q.1 = id from by rw [hqnew], show r.1 = id from by rw [hrnew]] at hne
        simp at hne
  · intro q hq
    rcases mem_hSet_nodup hnd hq with ⟨hold, hne⟩ | hnew
    · have hi := hinv q hold
      match hcq : q.2.isCanceler with
      | false => simp [nodeInvB, hcq]
      | true =>
        have hi2 : (match q.2.errOf, q.2.doneOf with
            | some _, some ch => decide (ch ∈ s.closedChans)
            | some _, none => false
            | none, some ch => decide (ch ∉ s.closedChans)
            | none, none => true) = true := by
          simpa [nodeInvB, hcq] using hi
        have hgoal : (match q.2.errOf, q.2.doneOf with
            | some _, some ch => decide (ch ∈ d :: s.closedChans)
            | some _, none => false
            | none, some ch => decide (ch ∉ d :: s.closedChans)
            | none, none => true) = true := by
          match heq : q.2.errOf, hdq : q.2.doneOf with
          | some _, some ch =>
            simp only [heq, hdq, decide_eq_true_eq] at hi2 ⊢
            exact List.mem_cons_of_mem _ hi2
          | some _, none => simp [heq, hdq] at hi2
          | none, none => rfl
          | none, some ch =>
            simp only [heq, hdq, decide_eq_true_eq] at hi2 ⊢
            have hchne : ch ≠ d := by
              intro hchd
              match hdo : old.doneOf with
              | some d0 =>
                have hdd : d = d0 := by rw [hd, hdo]; rfl
                have h1 : old.doneOf = some ch := by rw [hdo, hchd.trans hdd]
                have hdin := hpair (id, old) (hGet_mem hg) q hold
                  (fun hx => hne hx.symm) ch h1 hdq
                exact Inv_open_of_none hinv hg hcan holde h1 hdin
              | none =>
                have hdd : d = closedchan := by rw [hd, hdo]; rfl
                exact hi2 (by rw [hchd, hdd]; exact hc0)
            simp only [List.mem_cons, not_or]
            exact ⟨hchne, hi2⟩
        simpa [nodeInvB, hcq] using hgoal
    · have hq2 : q.2 = new := by rw [hnew]
      have hcnew : new.isCanceler = true := by rw [sig_isCanceler hsig]; exact hcan
      simp [nodeInvB, hq2, hcnew, hnewe, hnewd]

theorem cancelAux_some_inv {fuel : Nat} {b : Bool} {o : Option GoError} {s : State}
    {id : Nat} {t : State} (h : cancelAux fuel b o s id = some t) :
    ∃ nd e, hGet s.heap id = some nd ∧ nd.isCanceler = true ∧ o = some e := by
  match fuel with
  | 0 => simp [cancelAux] at h
  | fuel + 1 =>
    match o with
    | none => simp [cancelAux] at h
    | some e =>
      match hg : hGet s.heap id with
      | none => simp [cancelAux, hg] at h
      | some Node.emptyCtx => simp [cancelAux, hg] at h
      | some (.valueCtx _ _ _) => simp [cancelAux, hg] at h
      | some (.foreignCtx _ _) => simp [cancelAux, hg] at h
      | some (.cancelCtx pp dd cc ee) =>
        exact ⟨.cancelCtx pp dd cc ee, e, rfl, rfl, rfl⟩
      | some (.timerCtx pp dd cc ee dll tt) =>
        exact ⟨.timerCtx pp dd cc ee dll tt, e, rfl, rfl, rfl⟩

/-! ## Frame lemmas: nodes above the touched region are unchanged -/

theorem finalNode_err {nd : Node} (h : nd.isCanceler = true) (e : GoError) :
    (finalNode e nd).errOf = some e := by
  cases nd <;> first | rfl | simp [Node.isCanceler] at h

theorem finalNode_done {nd : Node} (h : nd.isCanceler = true) (e : GoError) :
    (finalNode e nd).doneOf = some (nd.doneOf.getD closedchan) := by
  cases nd <;> first | rfl | simp [Node.isCanceler] at h

theorem finalNode_children {nd : Node} (h : nd.isCanceler = true) (e : GoError) :
    (finalNode e nd).childrenOf = [] := by
  cases nd <;> first | rfl | simp [Node.isCanceler] at h

theorem DoneAux_frame {s : State} (hwf : WF s) :
    ∀ fuel q n, q < n → hGet (DoneAux fuel s q).1.heap n = hGet s.heap n := by
  intro fuel
  induction fuel with
  | zero => intro q n hqn; rfl
  | succ fuel ih =>
    intro q n hqn
    match hg : hGet s.heap q with
    | none => simp [DoneAux, hg]
    | some Node.emptyCtx => simp [DoneAux, hg]
    | some (Node.foreignCtx d e) => simp [DoneAux, hg]
    | some (Node.cancelCtx p (some d) ch e) => simp [DoneAux, hg]
    | some (Node.timerCtx p (some d) ch e dl tm) => simp [DoneAux, hg]
    | some (Node.cancelCtx p none ch e) =>
      have hD : (DoneAux (fuel + 1) s q).1 =
          { s with heap := hSet s.heap q (Node.cancelCtx p (some s.nextChan) ch e),
                   nextChan := s.nextChan + 1 } := by
        simp [DoneAux, hg]
      rw [hD]
      exact hGet_hSet_ne _ _ (by omega)
    | some (Node.timerCtx p none ch e dl tm) =>
      have hD : (DoneAux (fuel + 1) s q).1 =
          { s with heap := hSet s.heap q (Node.timerCtx p (some s.nextChan) ch e dl tm),
                   nextChan := s.nextChan + 1 } := by
        simp [DoneAux, hg]
      rw [hD]
      exact hGet_hSet_ne _ _ (by omega)
    | some (Node.valueCtx p k v) =>
      have hD : DoneAux (fuel + 1) s q = DoneAux fuel s p := by simp [DoneAux, hg]
      rw [hD]
      have hp : p < q := (WF_parent_lt hwf hg (by rfl)).1
      exact ih p n (by omega)

theorem Done_frame {s : State} (hwf : WF s) (q : Nat) {n : Nat} (hqn : q < n) :
    hGet (Done s q).1.heap n = hGet s.heap n :=
  DoneAux_frame hwf (q + 1) q n hqn

/-- A discovered concrete cancellable ancestor lies at or below the
parent on the id order. -/
theorem parentCancelCtx_le {s : State} (hwf : WF s) (hinv : Inv s) {parent p : Nat}
    (h : (parentCancelCtx s parent).2 = some p) : p ≤ parent := by
  rw [parentCancelCtx_def] at h
  simp only at h
  match h2 : (Done s parent).2 with
  | none => simp only [h2] at h; cases h
  | some d =>
    simp only [h2] at h
    by_cases hd : d = closedchan
    · rw [if_pos hd] at h; cases h
    · rw [if_neg hd] at h
      have hwf1 : WF (Done s parent).1 :=
        (DoneAux_WFInv (parent + 1) s parent hwf hinv).1
      match hv : Value (Done s parent).1 parent Key.cancelCtxKey with
      | none => simp only [hv] at h; cases h
      | some (Val.str st) => simp only [hv] at h; cases h
      | some (Val.ctxRef p0) =>
        simp only [hv] at h
        obtain ⟨p1, hp1, hle, hcan1⟩ := ValueAux_sentinel hwf1 (parent + 1) parent _ hv
        cases hp1
        match hgp : hGet (Done s parent).1.heap p0 with
        | none => simp only [hgp] at h; cases h
        | some Node.emptyCtx => simp only [hgp] at h; cases h
        | some (.valueCtx _ _ _) => simp only [hgp] at h; cases h
        | some (.foreignCtx _ _) => simp only [hgp] at h; cases h
        | some (.cancelCtx _ pd _ _) =>
          simp only [hgp] at h
          by_cases hpd : pd = some d
          · rw [if_pos hpd] at h; cases h; exact hle
          · rw [if_neg hpd] at h; cases h
        | some (.timerCtx _ pd _ _ _ _) =>
          simp only [hgp] at h
          by_cases hpd : pd = some d
          · rw [if_pos hpd] at h; cases h; exact hle
          · rw [if_neg hpd] at h; cases h

theorem removeChild_frame {s : State} (hwf : WF s) (hinv : Inv s) (parent child : Nat)
    {n : Nat} (hn : parent < n) :
    hGet (removeChild s parent child).heap n = hGet s.heap n := by
  rw [removeChild_def]
  have hfr : hGet (parentCancelCtx s parent).1.heap n = hGet s.heap n := by
    rw [parentCancelCtx_fst]
    exact Done_frame hwf parent hn
  match hp : (parentCancelCtx s parent).2 with
  | none => exact hfr
  | some p =>
    have hple : p ≤ parent := parentCancelCtx_le hwf hinv hp
    rw [upd_hGet_ne _ p _ (by omega)]
    exact hfr

/-! ## Soundness of the fan-out fold and of `cancel` -/

theorem cancelChildren_sound (fuel : Nat)
    (IH : ∀ s e id t, WF s → Inv s → cancelAux fuel false (some e) s id = some t →
      CancelConcl false e s id t) :
    ∀ cs e s t, WF s → Inv s → cancelChildren fuel e cs (some s) = some t →
      Evol s t ∧ WF t ∧ Inv t ∧
      (∀ n, (∀ c ∈ cs, n < c) → hGet t.heap n = hGet s.heap n) ∧
      (∀ n, errField s n = none → errField t n = none ∨ errField t n = some e) ∧
      (∀ c ∈ cs, errField t c ≠ none ∧ (errField s c = none → errField t c = some e)) := by
  intro cs
  induction cs with
  | nil =>
    intro e s t hwf hinv h
    rw [cancelChildren_nil] at h
    cases h
    exact ⟨Evol.refl s, hwf, hinv, fun n _ => rfl, fun n hn => Or.inl hn,
      fun c hc => absurd hc (List.not_mem_nil c)⟩
  | cons c cs ih =>
    intro e s t hwf hinv h
    rw [cancelChildren_cons] at h
    simp only [Option.some_bind] at h
    match h1 : cancelAux fuel false (some e) s c with
    | none =>
      rw [h1, cancelChildren_none] at h
      cases h
    | some s2 =>
      rw [h1] at h
      obtain ⟨hev1, hwf1, hinv1, hfr1, hnew1, hpost1⟩ := IH s e c s2 hwf hinv h1
      obtain ⟨hev2, hwf2, hinv2, hfr2, hnew2, hcs2⟩ := ih e s2 t hwf1 hinv1 h
      refine ⟨hev1.trans hev2, hwf2, hinv2, ?_, ?_, ?_⟩
      · intro n hn
        rw [hfr2 n (fun c2 hc2 => hn c2 (List.mem_cons_of_mem _ hc2))]
        exact hfr1 rfl n (hn c (List.mem_cons_self c cs))
      · intro n hnone
        rcases hnew1 n hnone with h0 | h0
        · exact hnew2 n h0
        · exact Or.inr (hev2.errs n e h0)
      · intro c2 hc2
        rcases List.mem_cons.mp hc2 with rfl | hmem
        · match herr : errField s c2 with
          | some e0 =>
            have h3 := hev2.errs c2 e0 (hev1.errs c2 e0 herr)
            refine ⟨by rw [h3]; simp, ?_⟩
            intro hnone
            simp [herr] at hnone
          | none =>
            obtain ⟨nd, e2, hgnd, hcan, he2⟩ := cancelAux_some_inv h1
            have hee : e2 = e := by cases he2; rfl
            subst hee
            have hndErr : nd.errOf = none := by simpa [errField, hgnd] using herr
            obtain ⟨hfin, _, _⟩ := hpost1 nd hgnd hndErr
            have hse : errField s2 c2 = some e2 := by
              simp [errField, hfin, finalNode_err hcan]
            have hte := hev2.errs c2 e2 hse
            exact ⟨by rw [hte]; simp, fun _ => hte⟩
        · obtain ⟨hne0, himp⟩ := hcs2 c2 hmem
          refine ⟨hne0, ?_⟩
          intro hnone
          rcases hnew1 c2 hnone with h0 | h0
          · exact himp h0
          · exact hev2.errs c2 e h0

theorem updNilChildren_evol (s : State) (id : Nat) :
    Evol s (s.upd id (Node.setChildren [])) := by
  refine upd_evol s id _ (fun nd => setChildren_sig nd [])
    (fun nd h => setChildren_fix nd [] h) (fun nd => setChildren_err nd [])
    (fun nd => setChildren_done nd []) ?_
  intro nd
  match hcc : nd.isCanceler with
  | true => rw [setChildren_childrenOf nd [] hcc]; exact List.nil_subset _
  | false => rw [setChildren_fix nd [] hcc]; exact List.Subset.refl _

theorem updNilChildren_WFInv {s : State} (hwf : WF s) (hinv : Inv s) (id : Nat) :
    WF (s.upd id (Node.setChildren [])) ∧ Inv (s.upd id (Node.setChildren [])) := by
  refine upd_WFInv s id _ (fun nd => setChildren_sig nd [])
    (fun nd h => setChildren_fix nd [] h) (fun nd => setChildren_err nd [])
    (fun nd => setChildren_done nd []) ?_ hwf hinv
  intro nd
  match hcc : nd.isCanceler with
  | true => rw [setChildren_childrenOf nd [] hcc]; exact List.nil_subset _
  | false => rw [setChildren_fix nd [] hcc]; exact List.Subset.refl _

theorem updTimerOff_evol (s : State) (id : Nat) :
    Evol s (s.upd id (Node.setTimer false)) := by
  refine upd_evol s id _ (fun nd => setTimer_sig nd false)
    (fun nd h => setTimer_fix nd false h) (fun nd => setTimer_err nd false)
    (fun nd => setTimer_done nd false) ?_
  intro nd
  rw [setTimer_childrenOf]
  exact List.Subset.refl _

theorem updTimerOff_WFInv {s : State} (hwf : WF s) (hinv : Inv s) (id : Nat) :
    WF (s.upd id (Node.setTimer false)) ∧ Inv (s.upd id (Node.setTimer false)) := by
  refine upd_WFInv s id _ (fun nd => setTimer_sig nd false)
    (fun nd h => setTimer_fix nd false h) (fun nd => setTimer_err nd false)
    (fun nd => setTimer_done nd false) ?_ hwf hinv
  intro nd
  rw [setTimer_childrenOf]
  exact List.Subset.refl _

/-- Soundness of `cancelAux`: a successful `cancel(b, some e)` satisfies
`CancelConcl`. -/
theorem cancelAux_sound : ∀ fuel b s e id t, WF s → Inv s →
    cancelAux fuel b (some e) s id = some t → CancelConcl b e s id t := by
  intro fuel
  induction fuel with
  | zero => intro b s e id t _ _ h; simp [cancelAux] at h
  | succ fuel ihf =>
    intro b s e id t hwf hinv h
    have IH : ∀ s e id t, WF s → Inv s → cancelAux fuel false (some e) s id = some t →
        CancelConcl false e s id t := fun s e id t hw hi hh => ihf false s e id t hw hi hh
    match hg : hGet s.heap id with
    | none => simp [cancelAux, hg] at h
    | some Node.emptyCtx => simp [cancelAux, hg] at h
    | some (.valueCtx _ _ _) => simp [cancelAux, hg] at h
    | some (.foreignCtx _ _) => simp [cancelAux, hg] at h
    | some (.cancelCtx p dn cs (some e0)) =>
      rw [cancelAux_errSome fuel b e hg rfl rfl] at h
      cases h
      refine ⟨Evol.refl s, hwf, hinv, fun _ n _ => rfl, fun n hn => Or.inl hn, ?_⟩
      intro nd hgnd hnde
      rw [hg] at hgnd
      cases hgnd
      simp [Node.errOf] at hnde
    | some (.timerCtx p dn cs (some e0) dl tm) =>
      rw [cancelAux_errSome fuel b e hg rfl rfl] at h
      cases h
      refine ⟨Evol.refl s, hwf, hinv, fun _ n _ => rfl, fun n hn => Or.inl hn, ?_⟩
      intro nd hgnd hnde
      rw [hg] at hgnd
      cases hgnd
      simp [Node.errOf] at hnde
    | some (.cancelCtx p dn cs none) =>
      rw [cancelAux_cancel_def fuel b e hg] at h
      obtain ⟨hev1, hwf1, hinv1⟩ := close_effect s id (.cancelCtx p dn cs none)
        (.cancelCtx p (some (dn.getD closedchan)) cs (some e)) e (dn.getD closedchan)
        hg rfl rfl rfl rfl rfl rfl rfl hwf hinv
      have hIdLtCs : ∀ c ∈ cs, id < c := fun c hc => (WF_children hwf hg c hc).1
      match h2 : cancelChildren fuel e cs (some
          { s with heap := hSet s.heap id
                     (Node.cancelCtx p (some (dn.getD closedchan)) cs (some e)),
                   closedChans := dn.getD closedchan :: s.closedChans }) with
      | none => rw [h2] at h; cases h
      | some s2 =>
        rw [h2] at h
        obtain ⟨hev2, hwf2, hinv2, hfr2, hnew2, hcs2⟩ :=
          cancelChildren_sound fuel IH cs e _ s2 hwf1 hinv1 h2
        have hS1id : hGet (hSet s.heap id
            (Node.cancelCtx p (some (dn.getD closedchan)) cs (some e))) id =
            some (Node.cancelCtx p (some (dn.getD closedchan)) cs (some e)) := by
          simp [hGet_hSet_self, hg]
        have hs2id : hGet s2.heap id =
            some (Node.cancelCtx p (some (dn.getD closedchan)) cs (some e)) := by
          rw [hfr2 id hIdLtCs]
          exact hS1id
        have hev3 := updNilChildren_evol s2 id
        obtain ⟨hwf3, hinv3⟩ := updNilChildren_WFInv hwf2 hinv2 id
        have hs3id : hGet (s2.upd id (Node.setChildren [])).heap id =
            some (Node.cancelCtx p (some (dn.getD closedchan)) [] (some e)) := by
          rw [upd_hGet_self, hs2id]
          rfl
        have hEvAll : Evol s (s2.upd id (Node.setChildren [])) :=
          (hev1.trans hev2).trans hev3
        have hfrS1 : ∀ n, n ≠ id →
            errField { s with
                heap := (hSet s.heap id
                  (Node.cancelCtx p (some (dn.getD closedchan)) cs (some e))),
                closedChans := (dn.getD closedchan :: s.closedChans) } n
              = errField s n := by
          intro n hn
          simp [errField, hGet_hSet_ne _ _ hn]
        have hErr3 : ∀ n, errField (s2.upd id (Node.setChildren [])) n = errField s2 n :=
          fun n => upd_errField s2 id _ (fun nd => setChildren_err nd []) n
        have hErrNew : ∀ n, errField s n = none →
            errField (s2.upd id (Node.setChildren [])) n = none ∨
            errField (s2.upd id (Node.setChildren [])) n = some e := by
          intro n hnone
          by_cases hn : n = id
          · subst hn
            refine Or.inr ?_
            rw [hErr3 n]
            simp [errField, hs2id, Node.errOf]
          · rw [hErr3 n]
            rcases hnew2 n (by rw [hfrS1 n hn]; exact hnone) with h0 | h0
            · exact Or.inl h0
            · exact Or.inr h0
        have hPost : ∀ nd, hGet s.heap id = some nd → nd.errOf = none →
            hGet (s2.upd id (Node.setChildren [])).heap id = some (finalNode e nd) ∧
            (∀ c ∈ nd.childrenOf, errField (s2.upd id (Node.setChildren [])) c ≠ none) ∧
            (∀ c ∈ nd.childrenOf, errField s c = none →
              errField (s2.upd id (Node.setChildren [])) c = some e) := by
          intro nd hgnd hnde
          rw [hg] at hgnd
          cases hgnd
          refine ⟨hs3id, ?_, ?_⟩
          · intro c hc
            have hcid : c ≠ id := by
              have := hIdLtCs c hc
              omega
            rw [hErr3 c]
            exact (hcs2 c hc).1
          · intro c hc hcnone
            have hcid : c ≠ id := by
              have := hIdLtCs c hc
              omega
            rw [hErr3 c]
            exact (hcs2 c hc).2 (by rw [hfrS1 c hcid]; exact hcnone)
        have ht : (if b = true then removeChild (s2.upd id (Node.setChildren [])) p id
            else s2.upd id (Node.setChildren [])) = t := Option.some.inj h
        cases b with
        | false =>
          rw [if_neg (by decide)] at ht
          subst ht
          refine ⟨hEvAll, hwf3, hinv3, ?_, hErrNew, hPost⟩
          intro _ n hn
          rw [upd_hGet_ne _ id _ (by omega), hfr2 n (fun c hc => by
            have := hIdLtCs c hc; omega)]
          exact hGet_hSet_ne _ _ (by omega)
        | true =>
          rw [if_pos rfl] at ht
          subst ht
          have hplt : p < id := (WF_parent_lt hwf hg rfl).1
          refine ⟨hEvAll.trans (removeChild_evol _ p id),
            (removeChild_WFInv hwf3 hinv3 p id).1, (removeChild_WFInv hwf3 hinv3 p id).2,
            fun hb => absurd hb (by decide), ?_, ?_⟩
          · intro n hnone
            rw [removeChild_errField]
            exact hErrNew n hnone
          · intro nd hgnd hnde
            obtain ⟨ha, hb2, hc2⟩ := hPost nd hgnd hnde
            refine ⟨?_, ?_, ?_⟩
            · rw [removeChild_frame hwf3 hinv3 p id hplt]
              exact ha
            · intro c hc
              rw [removeChild_errField]
              exact hb2 c hc
            · intro c hc hcn
              rw [removeChild_errField]
              exact hc2 c hc hcn
    | some (.timerCtx p dn cs none dl tm) =>
      rw [cancelAux_timer_def fuel b e hg] at h
      obtain ⟨hev1, hwf1, hinv1⟩ := close_effect s id (.timerCtx p dn cs none dl tm)
        (.timerCtx p (some (dn.getD closedchan)) cs (some e) dl tm) e (dn.getD closedchan)
        hg rfl rfl rfl rfl rfl rfl rfl hwf hinv
      have hIdLtCs : ∀ c ∈ cs, id < c := fun c hc => (WF_children hwf hg c hc).1
      match h2 : cancelChildren fuel e cs (some
          { s with heap := hSet s.heap id
                     (Node.timerCtx p (some (dn.getD closedchan)) cs (some e) dl tm),
                   closedChans := dn.getD closedchan :: s.closedChans }) with
      | none => rw [h2] at h; cases h
      | some s2 =>
        rw [h2] at h
        obtain ⟨hev2, hwf2, hinv2, hfr2, hnew2, hcs2⟩ :=
          cancelChildren_sound fuel IH cs e _ s2 hwf1 hinv1 h2
        have hS1id : hGet (hSet s.heap id
            (Node.timerCtx p (some (dn.getD closedchan)) cs (some e) dl tm)) id =
            some (Node.timerCtx p (some (dn.getD closedchan)) cs (some e) dl tm) := by
          simp [hGet_hSet_self, hg]
        have hs2id : hGet s2.heap id =
            some (Node.timerCtx p (some (dn.getD closedchan)) cs (some e) dl tm) := by
          rw [hfr2 id hIdLtCs]
          exact hS1id
        have hev3 := updNilChildren_evol s2 id
        obtain ⟨hwf3, hinv3⟩ := updNilChildren_WFInv hwf2 hinv2 id
        have hs3id : hGet (s2.upd id (Node.setChildren [])).heap id =
            some (Node.timerCtx p (some (dn.getD closedchan)) [] (some e) dl tm) := by
          rw [upd_hGet_self, hs2id]
          rfl
        have hev4 := updTimerOff_evol (s2.upd id (Node.setChildren [])) id
        obtain ⟨hwf4, hinv4⟩ := updTimerOff_WFInv hwf3 hinv3 id
        have hs4id : hGet ((s2.upd id (Node.setChildren [])).upd id
            (Node.setTimer false)).heap id =
            some (Node.timerCtx p (some (dn.getD closedchan)) [] (some e) dl false) := by
          rw [upd_hGet_self, hs3id]
          rfl
        have hEvAll : Evol s ((s2.upd id (Node.setChildren [])).upd id
            (Node.setTimer false)) :=
          ((hev1.trans hev2).trans hev3).trans hev4
        have hfrS1 : ∀ n, n ≠ id →
            errField { s with
                heap := (hSet s.heap id
                  (Node.timerCtx p (some (dn.getD closedchan)) cs (some e) dl tm)),
                closedChans := (dn.getD closedchan :: s.closedChans) } n
              = errField s n := by
          intro n hn
          simp [errField, hGet_hSet_ne _ _ hn]
        have hErr3 : ∀ n, errField ((s2.upd id (Node.setChildren [])).upd id
            (Node.setTimer false)) n = errField s2 n := by
          intro n
          rw [upd_errField _ id _ (fun nd => setTimer_err nd false) n,
            upd_errField s2 id _ (fun nd => setChildren_err nd []) n]
        have hErrNew : ∀ n, errField s n = none →
            errField ((s2.upd id (Node.setChildren [])).upd id (Node.setTimer false)) n
              = none ∨
            errField ((s2.upd id (Node.setChildren [])).upd id (Node.setTimer false)) n
              = some e := by
          intro n hnone
          by_cases hn : n = id
          · subst hn
            refine Or.inr ?_
            rw [hErr3 n]
            simp [errField, hs2id, Node.errOf]
          · rw [hErr3 n]
            rcases hnew2 n (by rw [hfrS1 n hn]; exact hnone) with h0 | h0
            · exact Or.inl h0
            · exact Or.inr h0
        have hPost : ∀ nd, hGet s.heap id = some nd → nd.errOf = none →
            hGet ((s2.upd id (Node.setChildren [])).upd id (Node.setTimer false)).heap id
              = some (finalNode e nd) ∧
            (∀ c ∈ nd.childrenOf, errField ((s2.upd id (Node.setChildren [])).upd id
              (Node.setTimer false)) c ≠ none) ∧
            (∀ c ∈ nd.childrenOf, errField s c = none →
              errField ((s2.upd id (Node.setChildren [])).upd id
                (Node.setTimer false)) c = some e) := by
          intro nd hgnd hnde
          rw [hg] at hgnd
          cases hgnd
          refine ⟨hs4id, ?_, ?_⟩
          · intro c hc
            have hcid : c ≠ id := by
              have := hIdLtCs c hc
              omega
            rw [hErr3 c]
            exact (hcs2 c hc).1
          · intro c hc hcnone
            have hcid : c ≠ id := by
              have := hIdLtCs c hc
              omega
            rw [hErr3 c]
            exact (hcs2 c hc).2 (by rw [hfrS1 c hcid]; exact hcnone)
        have ht : (if b = true then
              removeChild ((s2.upd id (Node.setChildren [])).upd id (Node.setTimer false)) p id
            else (s2.upd id (Node.setChildren [])).upd id (Node.setTimer false)) = t :=
          Option.some.inj h
        cases b with
        | false =>
          rw [if_neg (by decide)] at ht
          subst ht
          refine ⟨hEvAll, hwf4, hinv4, ?_, hErrNew, hPost⟩
          intro _ n hn
          rw [upd_hGet_ne _ id _ (by omega), upd_hGet_ne _ id _ (by omega),
            hfr2 n (fun c hc => by have := hIdLtCs c hc; omega)]
          exact hGet_hSet_ne _ _ (by omega)
        | true =>
          rw [if_pos rfl] at ht
          subst ht
          have hplt : p < id := (WF_parent_lt hwf hg rfl).1
          refine ⟨hEvAll.trans (removeChild_evol _ p id),
            (removeChild_WFInv hwf4 hinv4 p id).1, (removeChild_WFInv hwf4 hinv4 p id).2,
            fun hb => absurd hb (by decide), ?_, ?_⟩
          · intro n hnone
            rw [removeChild_errField]
            exact hErrNew n hnone
          · intro nd hgnd hnde
            obtain ⟨ha, hb2, hc2⟩ := hPost nd hgnd hnde
            refine ⟨?_, ?_, ?_⟩
            · rw [removeChild_frame hwf4 hinv4 p id hplt]
              exact ha
            · intro c hc
              rw [removeChild_errField]
              exact hb2 c hc
            · intro c hc hcn
              rw [removeChild_errField]
              exact hc2 c hc hcn

theorem Evol_isCancelerAt {s t : State} (hev : Evol s t) {c : Nat}
    (h : isCancelerAt s c = true) : isCancelerAt t c = true := by
  match hg : hGet s.heap c with
  | none => simp [isCancelerAt, hg] at h
  | some nd =>
    have hc : nd.isCanceler = true := by simpa [isCancelerAt, hg] using h
    obtain ⟨nd2, hg2, hs2⟩ := hev.sig c nd hg
    simp [isCancelerAt, hg2, sig_isCanceler hs2, hc]

theorem cancelChildren_progress (fuel : Nat)
    (IHp : ∀ s e id, WF s → Inv s → isCancelerAt s id = true → s.nextCtx - id ≤ fuel →
      ∃ t, cancelAux fuel false (some e) s id = some t) :
    ∀ cs e s, WF s → Inv s →
      (∀ c ∈ cs, isCancelerAt s c = true ∧ s.nextCtx - c ≤ fuel) →
      ∃ t, cancelChildren fuel e cs (some s) = some t := by
  intro cs
  induction cs with
  | nil => intro e s _ _ _; exact ⟨s, rfl⟩
  | cons c cs ih =>
    intro e s hwf hinv hcond
    obtain ⟨t1, h1⟩ := IHp s e c hwf hinv (hcond c (List.mem_cons_self c cs)).1
      (hcond c (List.mem_cons_self c cs)).2
    obtain ⟨hev1, hwf1, hinv1, _, _, _⟩ := cancelAux_sound fuel false s e c t1 hwf hinv h1
    obtain ⟨t2, h2⟩ := ih e t1 hwf1 hinv1 (fun c2 hc2 => by
      refine ⟨Evol_isCancelerAt hev1 (hcond c2 (List.mem_cons_of_mem _ hc2)).1, ?_⟩
      rw [hev1.ctx]
      exact (hcond c2 (List.mem_cons_of_mem _ hc2)).2)
    refine ⟨t2, ?_⟩
    rw [cancelChildren_cons]
    simp only [Option.some_bind]
    rw [h1]
    exact h2

theorem cancelAux_progress : ∀ fuel b s e id, WF s → Inv s → isCancelerAt s id = true →
    s.nextCtx - id ≤ fuel → ∃ t, cancelAux fuel b (some e) s id = some t := by
  intro fuel
  induction fuel with
  | zero =>
    intro b s e id hwf hinv hcan hfuel
    match hg : hGet s.heap id with
    | none => simp [isCancelerAt, hg] at hcan
    | some nd =>
      have := WF_lt_nextCtx hwf hg
      omega
  | succ fuel ihp =>
    intro b s e id hwf hinv hcan hfuel
    match hg : hGet s.heap id with
    | none => simp [isCancelerAt, hg] at hcan
    | some Node.emptyCtx => simp [isCancelerAt, hg, Node.isCanceler] at hcan
    | some (.valueCtx _ _ _) => simp [isCancelerAt, hg, Node.isCanceler] at hcan
    | some (.foreignCtx _ _) => simp [isCancelerAt, hg, Node.isCanceler] at hcan
    | some (.cancelCtx p dn cs (some e0)) =>
      exact ⟨s, cancelAux_errSome fuel b e hg rfl rfl⟩
    | some (.timerCtx p dn cs (some e0) dl tm) =>
      exact ⟨s, cancelAux_errSome fuel b e hg rfl rfl⟩
    | some (.cancelCtx p dn cs none) =>
      rw [cancelAux_cancel_def fuel b e hg]
      obtain ⟨hev1, hwf1, hinv1⟩ := close_effect s id (.cancelCtx p dn cs none)
        (.cancelCtx p (some (dn.getD closedchan)) cs (some e)) e (dn.getD closedchan)
        hg rfl rfl rfl rfl rfl rfl rfl hwf hinv
      have hidlt := WF_lt_nextCtx hwf hg
      obtain ⟨s2, h2⟩ := cancelChildren_progress fuel
        (fun s e id hw hi hc hf => ihp false s e id hw hi hc hf) cs e _ hwf1 hinv1
        (fun c hc => by
          obtain ⟨hlt, hcat⟩ := WF_children hwf hg c hc
          refine ⟨Evol_isCancelerAt hev1 hcat, ?_⟩
          show s.nextCtx - c ≤ fuel
          omega)
      rw [h2]
      exact ⟨_, rfl⟩
    | some (.timerCtx p dn cs none dl tm) =>
      rw [cancelAux_timer_def fuel b e hg]
      obtain ⟨hev1, hwf1, hinv1⟩ := close_effect s id (.timerCtx p dn cs none dl tm)
        (.timerCtx p (some (dn.getD closedchan)) cs (some e) dl tm) e (dn.getD closedchan)
        hg rfl rfl rfl rfl rfl rfl rfl hwf hinv
      have hidlt := WF_lt_nextCtx hwf hg
      obtain ⟨s2, h2⟩ := cancelChildren_progress fuel
        (fun s e id hw hi hc hf => ihp false s e id hw hi hc hf) cs e _ hwf1 hinv1
        (fun c hc => by
          obtain ⟨hlt, hcat⟩ := WF_children hwf hg c hc
          refine ⟨Evol_isCancelerAt hev1 hcat, ?_⟩
          show s.nextCtx - c ≤ fuel
          omega)
      rw [h2]
      exact ⟨_, rfl⟩

/-- Soundness of the `cancel` method. -/
theorem cancel_sound {s : State} {id : Nat} {b : Bool} {e : GoError} {t : State}
    (hwf : WF s) (hinv : Inv s) (h : cancel s id b (some e) = some t) :
    CancelConcl b e s id t :=
  cancelAux_sound (s.nextCtx - id) b s e id t hwf hinv h

/-- Progress of the `cancel` method: on a well-formed state a cancellation
of a canceler never panics. -/
theorem cancel_progress {s : State} {id : Nat} (b : Bool) (e : GoError)
    (hwf : WF s) (hinv : Inv s) (hcan : isCancelerAt s id = true) :
    ∃ t, cancel s id b (some e) = some t :=
  cancelAux_progress (s.nextCtx - id) b s e id hwf hinv hcan (le_refl _)

/-! ## `propagateCancel` normal form and preservation -/

theorem propagateCancel_def (s : State) (parent child : Nat) :
    propagateCancel s parent child =
      match (Done s parent).2 with
      | none => some (Done s parent).1
      | some d =>
        if d ∈ (Done s parent).1.closedChans then
          cancel (Done s parent).1 child false (Err (Done s parent).1 parent)
        else
          match (parentCancelCtx (Done s parent).1 parent).2 with
          | some p =>
            match errField (parentCancelCtx (Done s parent).1 parent).1 p with
            | some pe =>
              cancel (parentCancelCtx (Done s parent).1 parent).1 child false (some pe)
            | none =>
              some ((parentCancelCtx (Done s parent).1 parent).1.upd p
                (Node.insertChild child))
          | none =>
            some { (parentCancelCtx (Done s parent).1 parent).1 with
              goroutines := (parentCancelCtx (Done s parent).1 parent).1.goroutines + 1,
              watchers := (parentCancelCtx (Done s parent).1 parent).1.watchers
                ++ [(parent, child)] } := by
  rcases hD : Done s parent with ⟨s1, od⟩
  unfold propagateCancel
  rw [hD]

/-- Inserting a child into a discovered ancestor's `children` set
preserves `WF` and `Inv`, provided the child is a canceler with a larger
id than the ancestor (as is always the case for a freshly derived
child). -/
theorem upd_insert_WFInv {s : State} (hwf : WF s) (hinv : Inv s) {p child : Nat}
    (hplt : p < child) (hchild : isCancelerAt s child = true) :
    WF (s.upd p (Node.insertChild child)) ∧ Inv (s.upd p (Node.insertChild child)) := by
  have hsig : ∀ nd, (Node.insertChild child nd).sig = nd.sig := by
    intro nd
    unfold Node.insertChild
    by_cases hm : child ∈ nd.childrenOf
    · simp [hm]
    · simp [hm, setChildren_sig]
  have hfix : ∀ nd, nd.isCanceler = false → Node.insertChild child nd = nd := by
    intro nd h
    unfold Node.insertChild
    by_cases hm : child ∈ nd.childrenOf
    · simp [hm]
    · simp [hm, setChildren_fix nd _ h]
  have herr : ∀ nd, (Node.insertChild child nd).errOf = nd.errOf := by
    intro nd
    unfold Node.insertChild
    by_cases hm : child ∈ nd.childrenOf
    · simp [hm]
    · simp [hm, setChildren_err]
  have hdone : ∀ nd, (Node.insertChild child nd).doneOf = nd.doneOf := by
    intro nd
    unfold Node.insertChild
    by_cases hm : child ∈ nd.childrenOf
    · simp [hm]
    · simp [hm, setChildren_done]
  have hchsub : ∀ nd, (Node.insertChild child nd).childrenOf ⊆ nd.childrenOf ++ [child] := by
    intro nd
    unfold Node.insertChild
    by_cases hm : child ∈ nd.childrenOf
    · rw [if_pos hm]
      exact fun x hx => List.mem_append_left _ hx
    · rw [if_neg hm]
      match hcc : nd.isCanceler with
      | true =>
        rw [setChildren_childrenOf nd _ hcc]
        exact List.Subset.refl _
      | false =>
        rw [setChildren_fix nd _ hcc]
        exact fun x hx => List.mem_append_left _ hx
  obtain ⟨e1, e2, e3, e4, e5, e6⟩ := upd_scalars s p (Node.insertChild child)
  obtain ⟨hnd, hpos, hc0, hcb, hok, hpair⟩ := hwf
  have hmem : ∀ q ∈ (s.upd p (Node.insertChild child)).heap, q ∈ s.heap ∨
      ∃ nd0, hGet s.heap p = some nd0 ∧ q = (p, Node.insertChild child nd0) := by
    intro q hq
    unfold State.upd at hq
    match hgp : hGet s.heap p with
    | none => rw [hgp] at hq; exact Or.inl hq
    | some nd0 =>
      rw [hgp] at hq
      rcases mem_hSet hq with h1 | h2
      · exact Or.inl h1
      · exact Or.inr ⟨nd0, rfl, h2⟩
  have hcanAt : ∀ c, isCancelerAt s c = true →
      isCancelerAt (s.upd p (Node.insertChild child)) c = true := by
    intro c hcat
    by_cases hc : c = p
    · subst hc
      match hgp : hGet s.heap c with
      | none => simp [isCancelerAt, hgp] at hcat
      | some nd =>
        have h2 : nd.isCanceler = true := by simpa [isCancelerAt, hgp] using hcat
        simp [isCancelerAt, upd_hGet_self, hgp, sig_isCanceler (hsig nd), h2]
    · simp only [isCancelerAt] at hcat ⊢
      rw [upd_hGet_ne s p _ hc]
      exact hcat
  constructor
  · refine ⟨by rw [upd_keys]; exact hnd, by omega, by rw [e3]; exact hc0,
      by rw [e3, e2]; exact hcb, ?_, ?_⟩
    · intro q hq
      rcases hmem q hq with hold | ⟨nd0, hg0, hq0⟩
      · have hoq := hok q hold
        simp only [nodeOkB, Bool.and_eq_true, decide_eq_true_eq] at hoq ⊢
        obtain ⟨⟨⟨⟨h1, h2⟩, h3⟩, h4⟩, h5⟩ := hoq
        rw [e1, e2]
        refine ⟨⟨⟨⟨h1, ?_⟩, ?_⟩, h4⟩, h5⟩
        · rw [List.all_eq_true] at h2 ⊢
          intro c hcm
          have := h2 c hcm
          simp only [Bool.and_eq_true, decide_eq_true_eq] at this ⊢
          exact ⟨this.1, hcanAt c this.2⟩
        · match hpq : q.2.parentOf with
          | none => simp
          | some pq =>
            rw [hpq] at h3
            simp only [Bool.and_eq_true, decide_eq_true_eq] at h3 ⊢
            refine ⟨h3.1, ?_⟩
            rw [hGet_isSome_iff] at h3 ⊢
            rw [upd_keys]
            exact h3.2
      · have hoq := hok (p, nd0) (hGet_mem hg0)
        simp only [nodeOkB, Bool.and_eq_true, decide_eq_true_eq] at hoq ⊢
        obtain ⟨⟨⟨⟨h1, h2⟩, h3⟩, h4⟩, h5⟩ := hoq
        rw [hq0]
        rw [e1, e2]
        refine ⟨⟨⟨⟨h1, ?_⟩, ?_⟩, ?_⟩, ?_⟩
        · rw [List.all_eq_true]
          rw [List.all_eq_true] at h2
          intro c hcm
          have hcm2 := hchsub nd0 hcm
          rcases List.mem_append.mp hcm2 with hcold | hcnew
          · have := h2 c hcold
            simp only [Bool.and_eq_true, decide_eq_true_eq] at this ⊢
            exact ⟨this.1, hcanAt c this.2⟩
          · have hceq : c = child := by simpa using hcnew
            subst hceq
            simp only [Bool.and_eq_true, decide_eq_true_eq]
            exact ⟨hplt, hcanAt c hchild⟩
        · rw [sig_parentOf (hsig nd0)]
          match hpq : nd0.parentOf with
          | none => simp
          | some pq =>
            rw [hpq] at h3
            simp only [Bool.and_eq_true, decide_eq_true_eq] at h3 ⊢
            refine ⟨h3.1, ?_⟩
            rw [hGet_isSome_iff] at h3 ⊢
            rw [upd_keys]
            exact h3.2
        · rw [hdone nd0]
          match hdq : nd0.doneOf with
          | none => simp
          | some ch =>
            rw [hdq] at h4
            exact h4
        · match hcc : nd0.isCanceler with
          | true =>
            match nd0, hcc with
            | .cancelCtx pp dd cc ee, _ =>
              obtain ⟨_, _, _, hfe⟩ :=
                sig_eq_cancel (hsig (Node.cancelCtx pp dd cc ee))
              rw [hfe]
            | .timerCtx pp dd cc ee dll tt, _ =>
              obtain ⟨_, _, _, _, hfe⟩ :=
                sig_eq_timer (hsig (Node.timerCtx pp dd cc ee dll tt))
              rw [hfe]
          | false =>
            rw [hfix nd0 hcc]
            exact h5
    · intro q hq r hr hne ch hqd hrd
      rw [e3]
      have hdq : ∀ x, x ∈ (s.upd p (Node.insertChild child)).heap → ∀ c,
          x.2.doneOf = some c → ∃ y ∈ s.heap, y.1 = x.1 ∧ y.2.doneOf = some c := by
        intro x hx c hc
        rcases hmem x hx with hold | ⟨nd0, hg0, hx0⟩
        · exact ⟨x, hold, rfl, hc⟩
        · refine ⟨(p, nd0), hGet_mem hg0, by rw [hx0], ?_⟩
          rw [hx0] at hc
          simp only at hc
          rw [hdone nd0] at hc
          exact hc
      obtain ⟨y1, hy1, he1, hd1⟩ := hdq q hq ch hqd
      obtain ⟨y2, hy2, he2, hd2⟩ := hdq r hr ch hrd
      exact hpair y1 hy1 y2 hy2 (by rw [he1, he2]; exact hne) ch hd1 hd2
  · intro q hq
    rcases hmem q hq with hold | ⟨nd0, hg0, hq0⟩
    · have := hinv q hold
      simp only [nodeInvB, e3] at *
      exact this
    · have hi := hinv (p, nd0) (hGet_mem hg0)
      rw [hq0]
      simp only [nodeInvB, e3] at hi ⊢
      rw [show (Node.insertChild child nd0).isCanceler = nd0.isCanceler from
        sig_isCanceler (hsig nd0), herr nd0, hdone nd0]
      exact hi

theorem cancelAux_none : ∀ fuel b s id, cancelAux fuel b none s id = none := by
  intro fuel b s id
  match fuel with
  | 0 => rfl
  | fuel + 1 => rfl

theorem cancel_none (s : State) (id : Nat) (b : Bool) : cancel s id b none = none := by
  unfold cancel
  exact cancelAux_none _ b s id

/-- `propagateCancel` preserves well-formedness and the invariant (the
child is always a freshly derived canceler, so it is a canceler with an
id above its parent). -/
theorem propagateCancel_WFInv {s : State} (hwf : WF s) (hinv : Inv s) {parent child : Nat}
    (hplt : parent < child) (hchild : isCancelerAt s child = true) {t : State}
    (h : propagateCancel s parent child = some t) : WF t ∧ Inv t := by
  rw [propagateCancel_def] at h
  have hwf1 : WF (Done s parent).1 := (DoneAux_WFInv (parent + 1) s parent hwf hinv).1
  have hinv1 : Inv (Done s parent).1 := (DoneAux_WFInv (parent + 1) s parent hwf hinv).2
  have hcc1 : isCancelerAt (Done s parent).1 child = true :=
    Evol_isCancelerAt (Done_evol s parent) hchild
  match hD2 : (Done s parent).2 with
  | none =>
    simp only [hD2] at h
    cases h
    exact ⟨hwf1, hinv1⟩
  | some d =>
    simp only [hD2] at h
    by_cases hd : d ∈ (Done s parent).1.closedChans
    · rw [if_pos hd] at h
      match hE : Err (Done s parent).1 parent with
      | none =>
        rw [hE, cancel_none] at h
        cases h
      | some pe =>
        rw [hE] at h
        obtain ⟨_, hwt, hit, _, _, _⟩ := cancel_sound hwf1 hinv1 h
        exact ⟨hwt, hit⟩
    · rw [if_neg hd] at h
      have hwf2 : WF (parentCancelCtx (Done s parent).1 parent).1 ∧
          Inv (parentCancelCtx (Done s parent).1 parent).1 := by
        rw [parentCancelCtx_fst]
        exact DoneAux_WFInv (parent + 1) _ parent hwf1 hinv1
      have hev2 : Evol (Done s parent).1 (parentCancelCtx (Done s parent).1 parent).1 := by
        rw [parentCancelCtx_fst]
        exact Done_evol _ parent
      match hP : (parentCancelCtx (Done s parent).1 parent).2 with
      | some p =>
        simp only [hP] at h
        match hEf : errField (parentCancelCtx (Done s parent).1 parent).1 p with
        | some pe =>
          simp only [hEf] at h
          obtain ⟨_, hwt, hit, _, _, _⟩ := cancel_sound hwf2.1 hwf2.2 h
          exact ⟨hwt, hit⟩
        | none =>
          simp only [hEf] at h
          cases h
          have hple : p ≤ parent := parentCancelCtx_le hwf1 hinv1 hP
          exact upd_insert_WFInv hwf2.1 hwf2.2 (by omega) (Evol_isCancelerAt hev2 hcc1)
      | none =>
        simp only [hP] at h
        cases h
        exact ⟨hwf2.1, hwf2.2⟩

/-- Readable form of the invariant at one canceler entry. -/
theorem Inv_iff {s : State} (hinv : Inv s) {n : Nat} {nd : Node}
    (hm : (n, nd) ∈ s.heap) (hc : nd.isCanceler = true) :
    nd.errOf ≠ none ↔ ∃ ch, nd.doneOf = some ch ∧ ch ∈ s.closedChans := by
  have hi := hinv (n, nd) hm
  have hi2 : (match nd.errOf, nd.doneOf with
      | some _, some ch => decide (ch ∈ s.closedChans)
      | some _, none => false
      | none, some ch => decide (ch ∉ s.closedChans)
      | none, none => true) = true := by
    simpa [nodeInvB, hc] using hi
  match he : nd.errOf, hd : nd.doneOf with
  | some e0, some ch =>
    simp only [he, hd, decide_eq_true_eq] at hi2
    simp only [ne_eq, reduceCtorEq, not_false_eq_true, true_iff]
    exact ⟨ch, rfl, hi2⟩
  | some e0, none => simp [he, hd] at hi2
  | none, some ch =>
    simp only [he, hd, decide_eq_true_eq] at hi2
    simp only [ne_eq, not_true_eq_false, false_iff, not_exists]
    rintro c ⟨h1, h2⟩
    first
      | (injection h1 with h3; subst h3; exact hi2 h2)
      | (rw [hd] at h1; injection h1 with h3; subst h3; exact hi2 h2)
  | none, none =>
    simp only [ne_eq, not_true_eq_false, false_iff, not_exists]
    rintro c ⟨h1, h2⟩
    first
      | cases h1
      | (rw [hd] at h1; cases h1)

/-! ## Derivation-path helpers -/

theorem hGet_append_left {h : List (Nat × Node)} {n : Nat} {v : Node}
    (hg : hGet h n = some v) (t : List (Nat × Node)) : hGet (h ++ t) n = some v := by
  rw [hGet_append, hg]

theorem hGet_append_right {h : List (Nat × Node)} {n : Nat}
    (hg : hGet h n = none) (t : List (Nat × Node)) : hGet (h ++ t) n = hGet t n := by
  rw [hGet_append, hg]

theorem finalNode_isCanceler {nd : Node} (h : nd.isCanceler = true) (e : GoError) :
    (finalNode e nd).isCanceler = true := by
  cases nd <;> first | rfl | simp [Node.isCanceler] at h

/-- Direct `Err` on a canceler node. -/
theorem Err_canceler {s : State} {id : Nat} {nd : Node}
    (hg : hGet s.heap id = some nd) (hcan : nd.isCanceler = true) :
    Err s id = nd.errOf := by
  match nd, hcan with
  | .cancelCtx p dn cs e, _ => simp [Err, ErrAux, hg, Node.errOf]
  | .timerCtx p dn cs e dl tm, _ => simp [Err, ErrAux, hg, Node.errOf]

/-- Allocating a fresh canceler scope (as `WithCancel` / `WithDeadline`
do) preserves `WF` and `Inv`. -/
theorem allocNode_WFInv {s : State} (hwf : WF s) (hinv : Inv s) {parent : Nat}
    (hgp : (hGet s.heap parent).isSome) (node : Node)
    (hcan : node.isCanceler = true) (hpar : node.parentOf = some parent)
    (hdn : node.doneOf = none) (hne : node.errOf = none)
    (hch : node.childrenOf = []) (hplt : parent < s.nextCtx) :
    WF { s with heap := s.heap ++ [(s.nextCtx, node)], nextCtx := s.nextCtx + 1 } ∧
    Inv { s with heap := s.heap ++ [(s.nextCtx, node)], nextCtx := s.nextCtx + 1 } := by
  obtain ⟨hnd, hpos, hc0, hcb, hok, hpair⟩ := hwf
  have hfresh : hGet s.heap s.nextCtx = none := hGet_fresh ⟨hnd, hpos, hc0, hcb, hok, hpair⟩
    (le_refl _)
  have hmem : ∀ q ∈ s.heap ++ [(s.nextCtx, node)], q ∈ s.heap ∨ q = (s.nextCtx, node) := by
    intro q hq
    rcases List.mem_append.mp hq with h1 | h2
    · exact Or.inl h1
    · exact Or.inr (by simpa using h2)
  have hkeys : (s.heap ++ [(s.nextCtx, node)]).map Prod.fst
      = s.heap.map Prod.fst ++ [s.nextCtx] := by simp
  have hcanAt : ∀ c, isCancelerAt s c = true →
      isCancelerAt { s with
          heap := (s.heap ++ [(s.nextCtx, node)]),
          nextCtx := (s.nextCtx + 1) } c = true := by
    intro c hcat
    match hgc : hGet s.heap c with
    | none => simp [isCancelerAt, hgc] at hcat
    | some ndc =>
      simp only [isCancelerAt, hGet_append_left hgc]
      simpa [isCancelerAt, hgc] using hcat
  constructor
  · refine ⟨?_, hpos, hc0, hcb, ?_, ?_⟩
    · rw [hkeys]
      rw [List.nodup_append]
      refine ⟨hnd, List.nodup_singleton _, ?_⟩
      intro a ha hb
      have h2 : (hGet s.heap a).isSome := hGet_isSome_iff.mpr ha
      have h3 : a = s.nextCtx := by simpa using hb
      rw [h3, hfresh] at h2
      cases h2
    · intro q hq
      rcases hmem q hq with hold | hnew
      · have hoq := hok q hold
        simp only [nodeOkB, Bool.and_eq_true, decide_eq_true_eq] at hoq ⊢
        obtain ⟨⟨⟨⟨h1, h2⟩, h3⟩, h4⟩, h5⟩ := hoq
        refine ⟨⟨⟨⟨by omega, ?_⟩, ?_⟩, h4⟩, h5⟩
        · rw [List.all_eq_true] at h2 ⊢
          intro c hcm
          have := h2 c hcm
          simp only [Bool.and_eq_true, decide_eq_true_eq] at this ⊢
          exact ⟨this.1, hcanAt c this.2⟩
        · match hpq : q.2.parentOf with
          | none => simp
          | some pq =>
            rw [hpq] at h3
            simp only [Bool.and_eq_true, decide_eq_true_eq] at h3 ⊢
            refine ⟨h3.1, ?_⟩
            rw [hGet_isSome_iff] at h3 ⊢
            rw [hkeys]
            exact List.mem_append_left _ h3.2
      · have hq1 : q.1 = s.nextCtx := by rw [hnew]
        have hq2 : q.2 = node := by rw [hnew]
        simp only [nodeOkB, Bool.and_eq_true, decide_eq_true_eq]
        rw [hq1, hq2]
        refine ⟨⟨⟨⟨by omega, ?_⟩, ?_⟩, ?_⟩, ?_⟩
        · rw [hch]
          rfl
        · rw [hpar]
          simp only [Bool.and_eq_true, decide_eq_true_eq]
          refine ⟨hplt, ?_⟩
          rw [hGet_isSome_iff, hkeys]
          exact List.mem_append_left _ (hGet_isSome_iff.mp hgp)
        · rw [hdn]
        · match node, hcan with
          | .cancelCtx _ _ _ _, _ => rfl
          | .timerCtx _ _ _ _ _ _, _ => rfl
    · intro q hq r hr hne2 ch hqd hrd
      rcases hmem q hq with hqold | hqnew <;> rcases hmem r hr with hrold | hrnew
      · exact hpair q hqold r hrold hne2 ch hqd hrd
      · rw [show r.2 = node from by rw [hrnew], hdn] at hrd
        cases hrd
      · rw [show q.2 = node from by rw [hqnew], hdn] at hqd
        cases hqd
      · rw [show q.1 = s.nextCtx from by rw [hqnew],
          show r.1 = s.nextCtx from by rw [hrnew]] at hne2
        simp at hne2
  · intro q hq
    rcases hmem q hq with hold | hnew
    · have := hinv q hold
      simpa [nodeInvB] using this
    · have hq2 : q.2 = node := by rw [hnew]
      simp [nodeInvB, hq2, hcan, hne, hdn]

/-- The registration branch of `propagateCancel`: when the direct parent
is an uncancelled concrete canceler, the child is inserted into the
parent's `children` set; nothing else on the heap changes except the
parent's node (and possibly its lazily allocated done channel). -/
theorem propagateCancel_register {s : State} (hwf : WF s) (hinv : Inv s)
    {parent child : Nat} {nd : Node}
    (hgp : hGet s.heap parent = some nd) (hcan : nd.isCanceler = true)
    (hne : nd.errOf = none) :
    ∃ t, propagateCancel s parent child = some t ∧
      (∀ n, n ≠ parent → hGet t.heap n = hGet s.heap n) ∧
      t.closedChans = s.closedChans ∧ t.nextCtx = s.nextCtx ∧ t.now = s.now ∧
      child ∈ childrenField t parent := by
  rw [propagateCancel_def]
  have hd1 : ∃ d, (Done s parent).2 = some d ∧ d ∉ s.closedChans ∧
      doneField (Done s parent).1 parent = some d ∧ d ≠ closedchan ∧
      (Done s parent).1.closedChans = s.closedChans ∧
      (∀ n, n ≠ parent → hGet (Done s parent).1.heap n = hGet s.heap n) ∧
      (Done s parent).1.nextCtx = s.nextCtx ∧ (Done s parent).1.now = s.now := by
    have hc0 : closedchan ∈ s.closedChans := hwf.2.2.1
    match nd, hcan, hne, hgp with
    | .cancelCtx p (some ch) cs none, _, _, hgp =>
      have hopen : ch ∉ s.closedChans := Inv_open_of_none hinv hgp rfl rfl rfl
      have hD := Done_of_doneOf hgp (d := ch) rfl rfl
      rw [hD]
      exact ⟨ch, rfl, hopen, by simp [doneField, hgp, Node.doneOf],
        fun hc => hopen (hc ▸ hc0), rfl, fun n _ => rfl, rfl, rfl⟩
    | .timerCtx p (some ch) cs none dl tm, _, _, hgp =>
      have hopen : ch ∉ s.closedChans := Inv_open_of_none hinv hgp rfl rfl rfl
      have hD := Done_of_doneOf hgp (d := ch) rfl rfl
      rw [hD]
      exact ⟨ch, rfl, hopen, by simp [doneField, hgp, Node.doneOf],
        fun hc => hopen (hc ▸ hc0), rfl, fun n _ => rfl, rfl, rfl⟩
    | .cancelCtx p none cs none, _, _, hgp =>
      have hfr : s.nextChan ∉ s.closedChans := by
        intro hmem
        have := hwf.2.2.2.1 _ hmem
        omega
      have hD : Done s parent =
          ({ s with
              heap := (hSet s.heap parent (Node.cancelCtx p (some s.nextChan) cs none)),
              nextChan := s.nextChan + 1 }, some s.nextChan) := by
        simp [Done, DoneAux, hgp]
      rw [hD]
      refine ⟨s.nextChan, rfl, hfr, ?_, fun hc => hfr (hc ▸ hc0), rfl, ?_, rfl, rfl⟩
      · simp [doneField, hGet_hSet_self, hgp, Node.doneOf]
      · intro n hn
        exact hGet_hSet_ne _ _ hn
    | .timerCtx p none cs none dl tm, _, _, hgp =>
      have hfr : s.nextChan ∉ s.closedChans := by
        intro hmem
        have := hwf.2.2.2.1 _ hmem
        omega
      have hD : Done s parent =
          ({ s with
              heap := (hSet s.heap parent
                (Node.timerCtx p (some s.nextChan) cs none dl tm)),
              nextChan := s.nextChan + 1 }, some s.nextChan) := by
        simp [Done, DoneAux, hgp]
      rw [hD]
      refine ⟨s.nextChan, rfl, hfr, ?_, fun hc => hfr (hc ▸ hc0), rfl, ?_, rfl, rfl⟩
      · simp [doneField, hGet_hSet_self, hgp, Node.doneOf]
      · intro n hn
        exact hGet_hSet_ne _ _ hn
  obtain ⟨d, hD2, hopen, hDone1, hd0, hcc, hframe1, hctx1, hnow1⟩ := hd1
  have hev1 : Evol s (Done s parent).1 := Done_evol s parent
  have hgp1 : ∃ nd1, hGet (Done s parent).1.heap parent = some nd1 ∧
      nd1.isCanceler = true ∧ nd1.errOf = none ∧ nd1.doneOf = some d := by
    obtain ⟨nd1, hg1, hs1⟩ := hev1.sig parent nd hgp
    refine ⟨nd1, hg1, by rw [sig_isCanceler hs1]; exact hcan, ?_, ?_⟩
    · have heq : errField (Done s parent).1 parent = errField s parent :=
        (DoneAux_effect (parent + 1) s parent).2.2.1 parent
      have h1e : errField (Done s parent).1 parent = nd1.errOf := by
        simp [errField, hg1]
      have h2e : errField s parent = none := by
        simp [errField, hgp, hne]
      rw [h1e, h2e] at heq
      exact heq
    · simpa [doneField, hg1] using hDone1
  obtain ⟨nd1, hg1, hcan1, hne1, hd1v⟩ := hgp1
  simp only [hD2]
  rw [if_neg (by rw [hcc]; exact hopen)]
  have hDidem : Done (Done s parent).1 parent = ((Done s parent).1, some d) := by
    have h0 := @Done_idem s parent (Done s parent).1 (Done s parent).2 rfl
    rw [hD2] at h0
    rw [← hD2] at h0
    rw [h0, hD2]
  have hVal : Value (Done s parent).1 parent Key.cancelCtxKey
      = some (Val.ctxRef parent) := by
    match nd1, hcan1, hg1 with
    | .cancelCtx _ _ _ _, _, hg1 => simp [Value, ValueAux, hg1]
    | .timerCtx _ _ _ _ _ _, _, hg1 => simp [Value, ValueAux, hg1]
  have hX1 : (Done (Done s parent).1 parent).1 = (Done s parent).1 := by rw [hDidem]
  have hX2 : (Done (Done s parent).1 parent).2 = some d := by rw [hDidem]
  have hP : parentCancelCtx (Done s parent).1 parent
      = ((Done s parent).1, some parent) := by
    match nd1, hcan1, hg1, hd1v with
    | .cancelCtx q pd cc ee, _, hg1, hd1v =>
      simp only [Node.doneOf] at hd1v
      rw [parentCancelCtx_def]
      simp [hX2, hX1, hVal, hd0, hg1, hd1v]
    | .timerCtx q pd cc ee dll tt, _, hg1, hd1v =>
      simp only [Node.doneOf] at hd1v
      rw [parentCancelCtx_def]
      simp [hX2, hX1, hVal, hd0, hg1, hd1v]
  rw [hP]
  simp only
  have hEf : errField (Done s parent).1 parent = none := by
    simp [errField, hg1, hne1]
  rw [hEf]
  obtain ⟨e1, e2, e3, e4, e5, e6⟩ :=
    upd_scalars (Done s parent).1 parent (Node.insertChild child)
  refine ⟨_, rfl, ?_, by rw [e3, hcc], by rw [e1, hctx1], by rw [e6, hnow1], ?_⟩
  · intro n hnp
    rw [upd_hGet_ne _ parent _ hnp]
    exact hframe1 n hnp
  · have hup : hGet ((Done s parent).1.upd parent (Node.insertChild child)).heap parent
        = some (Node.insertChild child nd1) := by
      rw [upd_hGet_self, hg1]
      rfl
    simp only [childrenField, hup]
    unfold Node.insertChild
    by_cases hm : child ∈ nd1.childrenOf
    · rw [if_pos hm]
      exact hm
    · rw [if_neg hm, setChildren_childrenOf _ _ hcan1]
      simp

/-- `propagateCancel` never changes a node's kind, parent link or
deadline. -/
theorem propagateCancel_sig {s : State} (hwf : WF s) (hinv : Inv s)
    {parent child : Nat} {t : State} (h : propagateCancel s parent child = some t) :
    ∀ n nd, hGet s.heap n = some nd → ∃ nd', hGet t.heap n = some nd' ∧ nd'.sig = nd.sig := by
  rw [propagateCancel_def] at h
  have hwf1 : WF (Done s parent).1 := (DoneAux_WFInv (parent + 1) s parent hwf hinv).1
  have hinv1 : Inv (Done s parent).1 := (DoneAux_WFInv (parent + 1) s parent hwf hinv).2
  have hev1 : Evol s (Done s parent).1 := Done_evol s parent
  match hD2 : (Done s parent).2 with
  | none =>
    simp only [hD2] at h
    cases h
    exact hev1.sig
  | some d =>
    simp only [hD2] at h
    by_cases hd : d ∈ (Done s parent).1.closedChans
    · rw [if_pos hd] at h
      match hE : Err (Done s parent).1 parent with
      | none =>
        rw [hE, cancel_none] at h
        cases h
      | some pe =>
        rw [hE] at h
        obtain ⟨hev2, _, _, _, _, _⟩ := cancel_sound hwf1 hinv1 h
        exact (hev1.trans hev2).sig
    · rw [if_neg hd] at h
      have hwf2 : WF (parentCancelCtx (Done s parent).1 parent).1 ∧
          Inv (parentCancelCtx (Done s parent).1 parent).1 := by
        rw [parentCancelCtx_fst]
        exact DoneAux_WFInv (parent + 1) _ parent hwf1 hinv1
      have hev2 : Evol s (parentCancelCtx (Done s parent).1 parent).1 := by
        rw [parentCancelCtx_fst]
        exact hev1.trans (Done_evol _ parent)
      match hP : (parentCancelCtx (Done s parent).1 parent).2 with
      | some p =>
        simp only [hP] at h
        match hEf : errField (parentCancelCtx (Done s parent).1 parent).1 p with
        | some pe =>
          simp only [hEf] at h
          obtain ⟨hev3, _, _, _, _, _⟩ := cancel_sound hwf2.1 hwf2.2 h
          exact (hev2.trans hev3).sig
        | none =>
          simp only [hEf] at h
          cases h
          intro n nd hg
          obtain ⟨nd2, hg2, hs2⟩ := hev2.sig n nd hg
          by_cases hn : n = p
          · subst hn
            refine ⟨Node.insertChild child nd2, ?_, ?_⟩
            · rw [upd_hGet_self, hg2]
              rfl
            · rw [show (Node.insertChild child nd2).sig = nd2.sig from ?_]
              · exact hs2
              · unfold Node.insertChild
                by_cases hm : child ∈ nd2.childrenOf
                · rw [if_pos hm]
                · rw [if_neg hm, setChildren_sig]
          · refine ⟨nd2, ?_, hs2⟩
            rw [upd_hGet_ne _ p _ hn]
            exact hg2
      | none =>
        simp only [hP] at h
        cases h
        exact hev2.sig

/-! ## Claim theorems -/

/-- C1: on a live cancellable scope, `cancel(removeFromParent, cause)`
with a non-nil cause sets the scope's `err` to the cause, closes its done
channel, cancels (with `(false, cause)`, hence the same cause) every
entry of its `children` set, and empties `children` — all in the same
call, so every directly registered descendant is already cancelled when
`cancel` returns. -/
theorem cancel_fanout {s : State} {id p : Nat} {dn : Option Nat} {cs : List Nat}
    (hwf : WF s) (hinv : Inv s)
    (hg : hGet s.heap id = some (.cancelCtx p dn cs none))
    (b : Bool) (e : GoError) :
    ∃ t, cancel s id b (some e) = some t ∧
      errField t id = some e ∧
      (∃ d, doneField t id = some d ∧ d ∈ t.closedChans) ∧
      childrenField t id = [] ∧
      (∀ c ∈ cs, errField t c ≠ none) ∧
      (∀ c ∈ cs, errField s c = none → errField t c = some e) := by
  obtain ⟨t, ht⟩ := @cancel_progress s id b e hwf hinv
    (by simp [isCancelerAt, hg, Node.isCanceler])
  obtain ⟨hev, hwt, hit, _, _, hpost⟩ := cancel_sound hwf hinv ht
  obtain ⟨hfin, hnn, hsome⟩ := hpost _ hg rfl
  refine ⟨t, ht, ?_, ?_, ?_, hnn, hsome⟩
  · simp [errField, hfin, finalNode, Node.errOf]
  · obtain ⟨ch, hch, hcl⟩ := Inv_closed_of_err hit hfin
      (finalNode_isCanceler (by rfl) e) (finalNode_err (by rfl) e)
    exact ⟨ch, by simp [doneField, hfin, hch], hcl⟩
  · simp [childrenField, hfin, finalNode, Node.childrenOf]

/-- C2: cancellation is idempotent and first-cause-wins: a further
`cancel` call (any non-nil cause, either `removeFromParent` value) on a
scope whose `err` is already set returns with the state completely
unchanged, and no `cancel` call anywhere ever overwrites a non-nil
`err`. -/
theorem cancel_idempotent {s : State} {id : Nat} {nd : Node} {e0 : GoError}
    (hwf : WF s) (hinv : Inv s)
    (hg : hGet s.heap id = some nd) (hcan : nd.isCanceler = true)
    (he : nd.errOf = some e0) (b : Bool) (e : GoError) :
    cancel s id b (some e) = some s ∧
    (∀ m b2 e2 t, cancel s m b2 (some e2) = some t → errField t id = some e0) := by
  have hlt : id < s.nextCtx := WF_lt_nextCtx hwf hg
  constructor
  · unfold cancel
    have h1 : s.nextCtx - id = (s.nextCtx - id - 1) + 1 := by omega
    rw [h1]
    exact cancelAux_errSome _ b e hg hcan he
  · intro m b2 e2 t ht
    obtain ⟨hev, _, _, _, _, _⟩ := cancel_sound hwf hinv ht
    exact hev.errs id e0 (by simp [errField, hg, he])

/-- C6: cancelling a timer scope — by its explicit trigger or by ancestor
fan-out, i.e. by any `cancel` call — deactivates its pending timer, so
the deadline auto-cancellation callback never fires afterwards
(`fireTimer` is a no-op on the cancelled scope).  The `timerCtx.cancel`
method is modelled from the spec (its body is not part of the source):
it performs the `cancelCtx.cancel` steps and additionally stops the
timer. -/
theorem timer_deactivated {s : State} {id p : Nat} {dn : Option Nat} {cs : List Nat}
    {dl : Int} {tm : Bool} {t : State}
    (hwf : WF s) (hinv : Inv s)
    (hg : hGet s.heap id = some (.timerCtx p dn cs none dl tm))
    (b : Bool) (e : GoError)
    (h : cancel s id b (some e) = some t) :
    timerField t id = some false ∧ fireTimer t id = some t := by
  obtain ⟨hev, hwt, hit, _, _, hpost⟩ := cancel_sound hwf hinv h
  obtain ⟨hfin, _, _⟩ := hpost _ hg rfl
  refine ⟨?_, ?_⟩
  · simp [timerField, hfin, finalNode, Node.timerOf]
  · unfold fireTimer
    rw [show hGet t.heap id =
      some (.timerCtx p (some (dn.getD closedchan)) [] (some e) dl false) from hfin]

/-- C7: for every cancellable scope `err ≠ nil` iff its done channel is
closed, and this invariant is preserved by `Done` (lazy allocation),
`cancel`, child registration (`propagateCancel`) and child removal
(`removeChild`); `Err` is a pure read and changes nothing.  Moreover,
cancelling a scope whose channel was never observed installs the shared
pre-closed `closedchan`. -/
theorem invariant_preserved {s : State} (hwf : WF s) (hinv : Inv s) :
    (∀ q ∈ s.heap, q.2.isCanceler = true →
      (q.2.errOf ≠ none ↔ ∃ ch, q.2.doneOf = some ch ∧ ch ∈ s.closedChans)) ∧
    (∀ id, Inv (Done s id).1) ∧
    (∀ id b e t, cancel s id b (some e) = some t → Inv t) ∧
    (∀ parent child, Inv (removeChild s parent child)) ∧
    (∀ parent child t, parent < child → isCancelerAt s child = true →
      propagateCancel s parent child = some t → Inv t) ∧
    (∀ id nd b e t, hGet s.heap id = some nd → nd.isCanceler = true →
      nd.doneOf = none → nd.errOf = none → cancel s id b (some e) = some t →
      doneField t id = some closedchan) := by
  refine ⟨fun q hq hc => Inv_iff hinv hq hc,
    fun id => (DoneAux_WFInv (id + 1) s id hwf hinv).2,
    fun id b e t ht => (cancel_sound hwf hinv ht).2.2.1,
    fun parent child => (removeChild_WFInv hwf hinv parent child).2,
    fun parent child t h1 h2 ht => (propagateCancel_WFInv hwf hinv h1 h2 ht).2, ?_⟩
  intro id nd b e t hg hcan hdn hne ht
  obtain ⟨_, _, _, _, _, hpost⟩ := cancel_sound hwf hinv ht
  obtain ⟨hfin, _, _⟩ := hpost nd hg hne
  have hdf : doneField t id = (finalNode e nd).doneOf := by simp [doneField, hfin]
  rw [hdf, finalNode_done hcan, hdn]
  rfl

/-- C10: `Done` on a cancellable scope never returns nil and is stable:
the first call allocates the channel exactly once, every later call
returns the very same channel, and if the scope is cancelled before
`Done` was ever called, every later `Done` returns the shared pre-closed
`closedchan`. -/
theorem Done_stable {s : State} {id : Nat} {nd : Node}
    (hwf : WF s) (hinv : Inv s)
    (hg : hGet s.heap id = some nd) (hcan : nd.isCanceler = true) :
    (Done s id).2 ≠ none ∧
    (∀ d, nd.doneOf = some d → Done s id = (s, some d)) ∧
    (nd.doneOf = none → ∃ t, Done s id = (t, some s.nextChan) ∧
      doneField t id = some s.nextChan ∧ Done t id = (t, some s.nextChan)) ∧
    (∀ t r, Done s id = (t, r) → Done t id = (t, r)) ∧
    (nd.doneOf = none → nd.errOf = none → ∀ b e t, cancel s id b (some e) = some t →
      Done t id = (t, some closedchan)) := by
  have halloc : nd.doneOf = none → ∃ t, Done s id = (t, some s.nextChan) ∧
      doneField t id = some s.nextChan ∧ Done t id = (t, some s.nextChan) := by
    intro hdn
    match nd, hcan, hdn, hg with
    | .cancelCtx p none cs e, _, _, hg =>
      have hD : Done s id =
          ({ s with
              heap := (hSet s.heap id (Node.cancelCtx p (some s.nextChan) cs e)),
              nextChan := s.nextChan + 1 }, some s.nextChan) := by
        simp [Done, DoneAux, hg]
      exact ⟨_, hD, by simp [doneField, hGet_hSet_self, hg, Node.doneOf], Done_idem hD⟩
    | .timerCtx p none cs e dl tm, _, _, hg =>
      have hD : Done s id =
          ({ s with
              heap := (hSet s.heap id (Node.timerCtx p (some s.nextChan) cs e dl tm)),
              nextChan := s.nextChan + 1 }, some s.nextChan) := by
        simp [Done, DoneAux, hg]
      exact ⟨_, hD, by simp [doneField, hGet_hSet_self, hg, Node.doneOf], Done_idem hD⟩
  refine ⟨?_, fun d hd => Done_of_doneOf hg hcan hd, halloc,
    fun t r h => Done_idem h, ?_⟩
  · match hdo : nd.doneOf with
    | some d =>
      rw [Done_of_doneOf hg hcan hdo]
      simp
    | none =>
      obtain ⟨t, hD, _, _⟩ := halloc hdo
      rw [hD]
      simp
  · intro hdn hne b e t ht
    obtain ⟨_, _, _, _, _, hpost⟩ := cancel_sound hwf hinv ht
    obtain ⟨hfin, _, _⟩ := hpost nd hg hne
    refine Done_of_doneOf hfin (finalNode_isCanceler hcan e) ?_
    rw [finalNode_done hcan, hdn]
    rfl

/-- C8: ancestor discovery returns a concrete cancellable ancestor
exactly when the captured done channel is non-nil and distinct from the
shared `closedchan`, the value chain answers the private sentinel key
with a concrete cancellable scope (a cancellable scope answers with
itself), and that scope's currently-observed done channel equals the
captured one; otherwise it reports not-found, which makes `removeChild`
remove nothing and makes `propagateCancel` take the watcher fallback. -/
theorem parentCancelCtx_characterization {s : State} (hwf : WF s) (hinv : Inv s)
    (parent : Nat) :
    (parentCancelCtx s parent).1 = (Done s parent).1 ∧
    (∀ p, (parentCancelCtx s parent).2 = some p ↔
      ∃ d, (Done s parent).2 = some d ∧ d ≠ closedchan ∧
        Value (Done s parent).1 parent Key.cancelCtxKey = some (Val.ctxRef p) ∧
        isCancelerAt (Done s parent).1 p = true ∧
        doneField (Done s parent).1 p = some d) ∧
    (∀ id nd, hGet s.heap id = some nd → nd.isCanceler = true →
      Value s id Key.cancelCtxKey = some (Val.ctxRef id)) ∧
    ((parentCancelCtx s parent).2 = none →
      ∀ child n, childrenField (removeChild s parent child) n = childrenField s n) ∧
    (∀ child d, (Done s parent).2 = some d → d ∉ (Done s parent).1.closedChans →
      (parentCancelCtx (Done s parent).1 parent).2 = none →
      ∃ t, propagateCancel s parent child = some t ∧
        t.goroutines = s.goroutines + 1 ∧
        t.watchers = s.watchers ++ [(parent, child)]) := by
  refine ⟨parentCancelCtx_fst s parent, ?_, ?_, ?_, ?_⟩
  · intro p
    rw [parentCancelCtx_def]
    match hD2 : (Done s parent).2 with
    | none =>
      simp only
      constructor
      · intro h; cases h
      · rintro ⟨d, hd, _⟩; cases hd
    | some d0 =>
      simp only
      by_cases hd : d0 = closedchan
      · rw [if_pos hd]
        constructor
        · intro h; cases h
        · rintro ⟨d, hdq, hne, _⟩
          injection hdq with hdd
          exact absurd (hdd ▸ hd) hne
      · rw [if_neg hd]
        match hv : Value (Done s parent).1 parent Key.cancelCtxKey with
        | none =>
          constructor
          · intro h; cases h
          · rintro ⟨d, _, _, hval, _⟩; cases hval
        | some (Val.str st) =>
          constructor
          · intro h; cases h
          · rintro ⟨d, _, _, hval, _⟩; cases hval
        | some (Val.ctxRef p0) =>
          match hgp : hGet (Done s parent).1.heap p0 with
          | none =>
            simp only [hgp]
            constructor
            · intro h; cases h
            · rintro ⟨d, _, _, hval, hcan, _⟩
              injection hval with hval2
              injection hval2 with hval3
              rw [← hval3] at hcan
              simp [isCancelerAt, hgp] at hcan
          | some Node.emptyCtx =>
            simp only [hgp]
            constructor
            · intro h; cases h
            · rintro ⟨d, _, _, hval, hcan, _⟩
              injection hval with hval2
              injection hval2 with hval3
              rw [← hval3] at hcan
              simp [isCancelerAt, hgp, Node.isCanceler] at hcan
          | some (.valueCtx q k v) =>
            simp only [hgp]
            constructor
            · intro h; cases h
            · rintro ⟨d, _, _, hval, hcan, _⟩
              injection hval with hval2
              injection hval2 with hval3
              rw [← hval3] at hcan
              simp [isCancelerAt, hgp, Node.isCanceler] at hcan
          | some (.foreignCtx dd ee) =>
            simp only [hgp]
            constructor
            · intro h; cases h
            · rintro ⟨d, _, _, hval, hcan, _⟩
              injection hval with hval2
              injection hval2 with hval3
              rw [← hval3] at hcan
              simp [isCancelerAt, hgp, Node.isCanceler] at hcan
          | some (.cancelCtx q pd cc ee) =>
            simp only [hgp]
            by_cases hpd : pd = some d0
            · rw [if_pos hpd]
              constructor
              · intro h
                injection h with hp
                refine ⟨d0, rfl, hd, by rw [hp], ?_, ?_⟩
                · rw [← hp]
                  simp [isCancelerAt, hgp, Node.isCanceler]
                · rw [← hp]
                  simp [doneField, hgp, Node.doneOf, hpd]
              · rintro ⟨d, hdq, hne, hval, hcan, hdone⟩
                injection hdq with hdd
                injection hval with hval2
                injection hval2 with hval3
                rw [← hval3]
            · rw [if_neg hpd]
              constructor
              · intro h; cases h
              · rintro ⟨d, hdq, hne, hval, hcan, hdone⟩
                injection hdq with hdd
                injection hval with hval2
                injection hval2 with hval3
                rw [← hval3] at hdone
                simp only [doneField, hgp, Node.doneOf] at hdone
                rw [← hdd] at hdone
                exact absurd hdone hpd
          | some (.timerCtx q pd cc ee dl tm) =>
            simp only [hgp]
            by_cases hpd : pd = some d0
            · rw [if_pos hpd]
              constructor
              · intro h
                injection h with hp
                refine ⟨d0, rfl, hd, by rw [hp], ?_, ?_⟩
                · rw [← hp]
                  simp [isCancelerAt, hgp, Node.isCanceler]
                · rw [← hp]
                  simp [doneField, hgp, Node.doneOf, hpd]
              · rintro ⟨d, hdq, hne, hval, hcan, hdone⟩
                injection hdq with hdd
                injection hval with hval2
                injection hval2 with hval3
                rw [← hval3]
            · rw [if_neg hpd]
              constructor
              · intro h; cases h
              · rintro ⟨d, hdq, hne, hval, hcan, hdone⟩
                injection hdq with hdd
                injection hval with hval2
                injection hval2 with hval3
                rw [← hval3] at hdone
                simp only [doneField, hgp, Node.doneOf] at hdone
                rw [← hdd] at hdone
                exact absurd hdone hpd
  · intro id nd hg hcan
    match nd, hcan, hg with
    | .cancelCtx _ _ _ _, _, hg => simp [Value, ValueAux, hg]
    | .timerCtx _ _ _ _ _ _, _, hg => simp [Value, ValueAux, hg]
  · intro hnone child n
    rw [removeChild_def]
    match hP2 : (parentCancelCtx s parent).2 with
    | some p => rw [hP2] at hnone; cases hnone
    | none =>
      have h1 : ∀ m, childrenField (parentCancelCtx s parent).1 m = childrenField s m := by
        rw [parentCancelCtx_fst]
        exact (DoneAux_effect (parent + 1) s parent).2.2.2.1
      exact h1 n
  · intro child d hD2 hnc hP
    rw [propagateCancel_def]
    simp only [hD2]
    rw [if_neg hnc]
    rw [hP]
    refine ⟨_, rfl, ?_, ?_⟩
    · show (parentCancelCtx (Done s parent).1 parent).1.goroutines + 1 = s.goroutines + 1
      rw [parentCancelCtx_fst]
      rw [(Done_evol (Done s parent).1 parent).gor, (Done_evol s parent).gor]
    · show (parentCancelCtx (Done s parent).1 parent).1.watchers ++ [(parent, child)]
        = s.watchers ++ [(parent, child)]
      rw [parentCancelCtx_fst]
      rw [(Done_evol (Done s parent).1 parent).wat, (Done_evol s parent).wat]

/-- C9: when no concrete cancellable ancestor is discovered for a parent
with a non-nil, not-yet-closed done channel, propagation spawns exactly
one watcher goroutine (recorded in `watchers`) and increments the
`goroutines` counter by one; the counter is never decremented by `Done`,
`cancel` or `removeChild`; and the watcher body, once the parent's done
channel closes, cancels the child with `(false, parent.Err())`, so the
child eventually observes the parent's cancellation. -/
theorem watcher_fallback {s : State} {parent child : Nat} {s1 : State} {d : Nat}
    (hD : Done s parent = (s1, some d)) (hnc : d ∉ s1.closedChans)
    (hP : (parentCancelCtx s1 parent).2 = none) :
    (∃ t, propagateCancel s parent child = some t ∧
      t.goroutines = s.goroutines + 1 ∧
      t.watchers = s.watchers ++ [(parent, child)]) ∧
    (∀ u id, (Done u id).1.goroutines = u.goroutines) ∧
    (∀ u id b e t, WF u → Inv u → cancel u id b (some e) = some t →
      t.goroutines = u.goroutines) ∧
    (∀ u p2 c2, (removeChild u p2 c2).goroutines = u.goroutines) ∧
    (∀ u u1 d2 pe, WF u → Inv u → Done u parent = (u1, some d2) →
      d2 ∈ u1.closedChans → Err u1 parent = some pe →
      isCancelerAt u1 child = true →
      ∃ w, watcherRun u parent child = some w ∧
        errField w child ≠ none ∧
        (errField u1 child = none → errField w child = some pe)) := by
  refine ⟨?_, fun u id => (Done_evol u id).gor,
    fun u id b e t hw hi ht => (cancel_sound hw hi ht).1.gor,
    fun u p2 c2 => (removeChild_evol u p2 c2).gor, ?_⟩
  · rw [propagateCancel_def, hD]
    simp only
    rw [if_neg hnc, hP]
    have hP1 : (parentCancelCtx s1 parent).1 = s1 := by
      rw [parentCancelCtx_fst, Done_idem hD]
    have hev : Evol s s1 := by
      have h0 := Done_evol s parent
      rw [hD] at h0
      exact h0
    rw [hP1]
    exact ⟨_, rfl, by rw [hev.gor], by rw [hev.wat]⟩
  · intro u u1 d2 pe hwu hiu hDu hcl hEu hcc
    have hwf1 : WF u1 ∧ Inv u1 := by
      have h0 := DoneAux_WFInv (parent + 1) u parent hwu hiu
      rw [show (DoneAux (parent + 1) u parent).1 = u1 from by rw [show DoneAux
        (parent + 1) u parent = Done u parent from rfl, hDu]] at h0
      exact h0
    obtain ⟨w, hw⟩ := @cancel_progress u1 child false pe hwf1.1 hwf1.2 hcc
    obtain ⟨hev, _, _, _, _, hpost⟩ := cancel_sound hwf1.1 hwf1.2 hw
    have hrun : watcherRun u parent child = some w := by
      unfold watcherRun
      rw [hDu]
      simp only
      rw [if_pos hcl, hEu]
      exact hw
    refine ⟨w, hrun, ?_, ?_⟩
    · match hce : errField u1 child with
      | some e0 =>
        rw [hev.errs child e0 hce]
        simp
      | none =>
        match hgc : hGet u1.heap child with
        | none => simp [isCancelerAt, hgc] at hcc
        | some ndc =>
          have hnec : ndc.errOf = none := by simpa [errField, hgc] using hce
          obtain ⟨hfin, _, _⟩ := hpost ndc hgc hnec
          have hcanc : ndc.isCanceler = true := by simpa [isCancelerAt, hgc] using hcc
          rw [show errField w child = some pe from by
            simp [errField, hfin, finalNode_err hcanc]]
          simp
    · intro hce
      match hgc : hGet u1.heap child with
      | none => simp [isCancelerAt, hgc] at hcc
      | some ndc =>
        have hnec : ndc.errOf = none := by simpa [errField, hgc] using hce
        obtain ⟨hfin, _, _⟩ := hpost ndc hgc hnec
        have hcanc : ndc.isCanceler = true := by simpa [isCancelerAt, hgc] using hcc
        simp [errField, hfin, finalNode_err hcanc]

theorem hSet_append_left {h : List (Nat × Node)} {q : Nat} (hq : (hGet h q).isSome)
    (t : List (Nat × Node)) (v : Node) : hSet (h ++ t) q v = hSet h q v ++ t := by
  induction h with
  | nil => simp [hGet] at hq
  | cons p r ih =>
    obtain ⟨k, w⟩ := p
    by_cases hk : k = q
    · subst hk
      simp [hSet]
    · simp only [hGet, if_neg hk] at hq
      simp [hSet, hk, ih hq]

/-- Appending a fresh node does not disturb a `Done` walk started strictly
below `nextCtx`: the walk returns the same channel and performs the same
lazy allocation, with the fresh node carried along untouched. -/
theorem DoneAux_alloc {s : State} (hwf : WF s) (node : Node) {c : Nat}
    (hc : s.nextCtx ≤ c) :
    ∀ fuel q, q < s.nextCtx →
      DoneAux fuel { s with heap := (s.heap ++ [(c, node)]), nextCtx := (c + 1) } q
      = ({ (DoneAux fuel s q).1 with
            heap := ((DoneAux fuel s q).1.heap ++ [(c, node)]),
            nextCtx := (c + 1) }, (DoneAux fuel s q).2) := by
  intro fuel
  induction fuel with
  | zero => intro q hq; rfl
  | succ fuel ih =>
    intro q hq
    have hq2 : hGet (s.heap ++ [(c, node)]) q = hGet s.heap q := by
      match hg : hGet s.heap q with
      | some v => exact hGet_append_left hg _
      | none =>
        rw [hGet_append_right hg]
        simp only [hGet]
        rw [if_neg (by omega)]
    match hg : hGet s.heap q with
    | none => simp [DoneAux, hq2, hg]
    | some Node.emptyCtx => simp [DoneAux, hq2, hg]
    | some (Node.foreignCtx fd fe) => simp [DoneAux, hq2, hg]
    | some (Node.cancelCtx p (some dd) ch e) => simp [DoneAux, hq2, hg]
    | some (Node.timerCtx p (some dd) ch e dl tm) => simp [DoneAux, hq2, hg]
    | some (Node.cancelCtx p none ch e) =>
      have hiso : (hGet s.heap q).isSome := by rw [hg]; rfl
      simp [DoneAux, hq2, hg, hSet_append_left hiso]
    | some (Node.timerCtx p none ch e dl tm) =>
      have hiso : (hGet s.heap q).isSome := by rw [hg]; rfl
      simp [DoneAux, hq2, hg, hSet_append_left hiso]
    | some (Node.valueCtx p kk vv) =>
      have hp : p < q := (WF_parent_lt hwf hg rfl).1
      have hL : DoneAux (fuel + 1)
          { s with heap := (s.heap ++ [(c, node)]), nextCtx := (c + 1) } q
          = DoneAux fuel { s with heap := (s.heap ++ [(c, node)]), nextCtx := (c + 1) } p := by
        simp [DoneAux, hq2, hg]
      have hR : DoneAux (fuel + 1) s q = DoneAux fuel s p := by
        simp [DoneAux, hg]
      rw [hL, hR, ih p (by omega)]

/-- Appending a fresh node does not change `Err` for ids strictly below
`nextCtx`. -/
theorem ErrAux_alloc {s : State} (hwf : WF s) (node : Node) {c : Nat}
    (hc : s.nextCtx ≤ c) :
    ∀ fuel q, q < s.nextCtx →
      ErrAux fuel { s with heap := (s.heap ++ [(c, node)]), nextCtx := (c + 1) } q
        = ErrAux fuel s q := by
  intro fuel
  induction fuel with
  | zero => intro q hq; rfl
  | succ fuel ih =>
    intro q hq
    have hq2 : hGet (s.heap ++ [(c, node)]) q = hGet s.heap q := by
      match hg : hGet s.heap q with
      | some v => exact hGet_append_left hg _
      | none =>
        rw [hGet_append_right hg]
        simp only [hGet]
        rw [if_neg (by omega)]
    match hg : hGet s.heap q with
    | none => simp [ErrAux, hq2, hg]
    | some Node.emptyCtx => simp [ErrAux, hq2, hg]
    | some (Node.foreignCtx fd fe) => simp [ErrAux, hq2, hg]
    | some (Node.cancelCtx p dd ch e) => simp [ErrAux, hq2, hg]
    | some (Node.timerCtx p dd ch e dl tm) => simp [ErrAux, hq2, hg]
    | some (Node.valueCtx p kk vv) =>
      have hp : p < q := (WF_parent_lt hwf hg rfl).1
      simp [ErrAux, hq2, hg, ih p (by omega)]

/-- `propagateCancel` run for a freshly allocated child of a parent whose
done channel is already closed: the child is cancelled synchronously with
the parent's `Err()`, and no `children` set anywhere changes. -/
theorem propagateCancel_closed {s : State} (hwf : WF s) (hinv : Inv s)
    {parent : Nat} {pn : Node} (hgp : hGet s.heap parent = some pn)
    {s1 : State} {d0 : Nat} (hD : Done s parent = (s1, some d0))
    (hdc : d0 ∈ s1.closedChans) {pe : GoError} (hpe : Err s1 parent = some pe)
    (node : Node) (hcan : node.isCanceler = true) (hpar : node.parentOf = some parent)
    (hdn : node.doneOf = none) (hne : node.errOf = none) (hch : node.childrenOf = []) :
    ∃ t, propagateCancel
        { s with heap := (s.heap ++ [(s.nextCtx, node)]), nextCtx := (s.nextCtx + 1) }
        parent s.nextCtx = some t ∧
      WF t ∧ Inv t ∧
      hGet t.heap s.nextCtx = some (finalNode pe node) ∧
      errField t s.nextCtx = some pe ∧
      (∃ dc, doneField t s.nextCtx = some dc ∧ dc ∈ t.closedChans) ∧
      (∀ n, childrenField t n = childrenField s n) ∧
      t.nextCtx = s.nextCtx + 1 ∧ t.now = s.now := by
  have hplt : parent < s.nextCtx := WF_lt_nextCtx hwf hgp
  have hev1 : Evol s s1 := by
    have h := Done_evol s parent
    rw [show Done s parent = (s1, some d0) from hD] at h
    exact h
  have hwfinv1 : WF s1 ∧ Inv s1 := by
    have h := DoneAux_WFInv (parent + 1) s parent hwf hinv
    rw [show DoneAux (parent + 1) s parent = (s1, some d0) from hD] at h
    exact h
  have hctx1 : s1.nextCtx = s.nextCtx := hev1.ctx
  have hDa := DoneAux_alloc hwf node (le_refl s.nextCtx) (parent + 1) parent hplt
  rw [show DoneAux (parent + 1) s parent = (s1, some d0) from hD] at hDa
  have hD0 : Done { s with heap := (s.heap ++ [(s.nextCtx, node)]), nextCtx := (s.nextCtx + 1) } parent = ({ s1 with heap := (s1.heap ++ [(s.nextCtx, node)]), nextCtx := (s.nextCtx + 1) }, some d0) := hDa
  have hwfinv1' : WF { s1 with heap := (s1.heap ++ [(s.nextCtx, node)]), nextCtx := (s.nextCtx + 1) } ∧ Inv { s1 with heap := (s1.heap ++ [(s.nextCtx, node)]), nextCtx := (s.nextCtx + 1) } := by
    have hgp1 : (hGet s1.heap parent).isSome := by
      rw [hGet_isSome_iff, hev1.keys]
      exact hGet_isSome_iff.mp (by rw [hgp]; rfl)
    have h := allocNode_WFInv hwfinv1.1 hwfinv1.2 hgp1 node hcan hpar hdn hne hch
      (by omega)
    rw [hctx1] at h
    exact h
  have hg1c : hGet s1.heap s.nextCtx = none := hGet_fresh hwfinv1.1 (by omega)
  have hgc : hGet (s1.heap ++ [(s.nextCtx, node)]) s.nextCtx = some node := by
    rw [hGet_append_right hg1c]
    simp [hGet]
  have hErr : Err { s1 with heap := (s1.heap ++ [(s.nextCtx, node)]), nextCtx := (s.nextCtx + 1) } parent = some pe := by
    have h := ErrAux_alloc hwfinv1.1 node (le_of_eq hctx1) (parent + 1) parent (by omega)
    rw [show ErrAux (parent + 1) s1 parent = Err s1 parent from rfl, hpe] at h
    exact h
  obtain ⟨t, ht⟩ := @cancel_progress { s1 with heap := (s1.heap ++ [(s.nextCtx, node)]), nextCtx := (s.nextCtx + 1) } s.nextCtx false pe hwfinv1'.1 hwfinv1'.2 (by simp [isCancelerAt, hgc, hcan])
  obtain ⟨hevt, hwft, hinvt, hframe, herrs, hpost⟩ :=
    cancel_sound hwfinv1'.1 hwfinv1'.2 ht
  obtain ⟨hfin, _, _⟩ := hpost node hgc hne
  refine ⟨t, ?_, hwft, hinvt, hfin, ?_, ?_, ?_, ?_, ?_⟩
  · rw [propagateCancel_def]
    simp only [hD0]
    rw [if_pos hdc, hErr]
    exact ht
  · simp [errField, hfin, finalNode_err hcan]
  · refine ⟨node.doneOf.getD closedchan, ?_, ?_⟩
    · simp [doneField, hfin, finalNode_done hcan]
    · obtain ⟨ch, hch2, hchm⟩ := Inv_closed_of_err hinvt hfin
        (finalNode_isCanceler hcan pe) (finalNode_err hcan pe)
      rw [finalNode_done hcan pe] at hch2
      injection hch2 with hch3
      rw [hch3]
      exact hchm
  · intro n
    rcases Nat.lt_trichotomy n s.nextCtx with hn | hn | hn
    · have h1 := hframe rfl n hn
      have h2 : hGet (s1.heap ++ [(s.nextCtx, node)]) n = hGet s1.heap n := by
        match hgn : hGet s1.heap n with
        | some v => exact hGet_append_left hgn _
        | none =>
          rw [hGet_append_right hgn]
          simp only [hGet]
          rw [if_neg (by omega)]
      have h3 : childrenField s1 n = childrenField s n := by
        have h := (DoneAux_effect (parent + 1) s parent).2.2.2.1 n
        rw [show DoneAux (parent + 1) s parent = (s1, some d0) from hD] at h
        exact h
      have h4 : childrenField t n = childrenField s1 n := by
        unfold childrenField
        rw [h1]
        show (match hGet (s1.heap ++ [(s.nextCtx, node)]) n with
          | some nd => nd.childrenOf | none => []) = _
        rw [h2]
      rw [h4, h3]
    · subst hn
      have hsc : hGet s.heap s.nextCtx = none := hGet_fresh hwf (le_refl _)
      simp [childrenField, hfin, hsc, finalNode_children hcan]
    · have hkeys : t.heap.map Prod.fst = s.heap.map Prod.fst ++ [s.nextCtx] := by
        rw [hevt.keys]
        simp [hev1.keys]
      have hng : hGet t.heap n = none := by
        match hgn : hGet t.heap n with
        | none => rfl
        | some v =>
          have hmem := hGet_isSome_iff.mp (by rw [hgn]; rfl)
          rw [hkeys] at hmem
          rcases List.mem_append.mp hmem with h1 | h2
          · obtain ⟨w, hw⟩ := Option.isSome_iff_exists.mp (hGet_isSome_iff.mpr h1)
            exact absurd (WF_lt_nextCtx hwf hw) (by omega)
          · simp at h2
            omega
      have hns : hGet s.heap n = none := hGet_fresh hwf (by omega)
      simp [childrenField, hng, hns]
  · rw [hevt.ctx]
  · rw [hevt.now]
    exact hev1.now

/-- `WithCancel` on a parent whose done channel is already closed:
the fresh child comes back already cancelled with the parent's `Err()`,
and it is registered in no `children` set. -/
theorem WithCancel_closed {s : State} (hwf : WF s) (hinv : Inv s)
    {parent : Nat} {pn : Node} (hgp : hGet s.heap parent = some pn)
    {s1 : State} {d0 : Nat} (hD : Done s parent = (s1, some d0))
    (hdc : d0 ∈ s1.closedChans) {pe : GoError} (hpe : Err s1 parent = some pe) :
    ∃ t, WithCancel s parent = some (t, s.nextCtx) ∧
      errField t s.nextCtx = some pe ∧
      (∃ dc, doneField t s.nextCtx = some dc ∧ dc ∈ t.closedChans) ∧
      (∀ n, childrenField t n = childrenField s n) := by
  obtain ⟨t, hPC, hwft, hinvt, hfin, herr, hdone, hchild, hctx, hnow⟩ :=
    propagateCancel_closed hwf hinv hgp hD hdc hpe (newCancelCtx parent)
      rfl rfl rfl rfl rfl
  refine ⟨t, ?_, herr, hdone, hchild⟩
  simp only [WithCancel, hgp]
  rw [hPC]

/-- `withDeadlineTimer` on a parent whose done channel is already closed:
the fresh timer child comes back already cancelled with the parent's
`Err()` (a subsequent past-deadline `cancel` is a no-op by idempotence),
and it is registered in no `children` set. -/
theorem withDeadlineTimer_closed {s : State} (hwf : WF s) (hinv : Inv s)
    {parent : Nat} {pn : Node} (hgp : hGet s.heap parent = some pn)
    {s1 : State} {d0 : Nat} (hD : Done s parent = (s1, some d0))
    (hdc : d0 ∈ s1.closedChans) {pe : GoError} (hpe : Err s1 parent = some pe)
    (d : Int) :
    ∃ t flag, withDeadlineTimer s parent d = some (t, s.nextCtx, flag) ∧
      errField t s.nextCtx = some pe ∧
      (∃ dc, doneField t s.nextCtx = some dc ∧ dc ∈ t.closedChans) ∧
      (∀ n, childrenField t n = childrenField s n) := by
  obtain ⟨t, hPC, hwft, hinvt, hfin, herr, hdone, hchild, hctx, hnow⟩ :=
    propagateCancel_closed hwf hinv hgp hD hdc hpe
      (Node.timerCtx parent none [] none d false) rfl rfl rfl rfl rfl
  have hcancelT : cancel t s.nextCtx true (some GoError.deadlineExceeded) = some t := by
    have hfuel : t.nextCtx - s.nextCtx = 1 := by omega
    show cancelAux (t.nextCtx - s.nextCtx) true (some GoError.deadlineExceeded) t s.nextCtx
      = some t
    rw [hfuel]
    exact cancelAux_errSome 0 true GoError.deadlineExceeded hfin
      (@finalNode_isCanceler (Node.timerCtx parent none [] none d false) rfl pe)
      (@finalNode_err (Node.timerCtx parent none [] none d false) rfl pe)
  by_cases hdt : d - t.now ≤ 0
  · refine ⟨t, false, ?_, herr, hdone, hchild⟩
    simp only [withDeadlineTimer]
    rw [hPC]
    simp [hdt, hcancelT]
  · refine ⟨t, true, ?_, herr, hdone, hchild⟩
    simp only [withDeadlineTimer]
    rw [hPC]
    simp [hdt, herr]

/-- C3: a scope derived (by `WithCancel`, `WithDeadline` or `WithTimeout`)
from a parent whose done channel is already closed is cancelled
synchronously, before the derivation call returns, with cause equal to
the parent's `Err()`; it is registered in no ancestor's `children` set
(every `children` set in the final state equals its value before the
call). -/
theorem derive_from_cancelled_parent {s : State} {parent : Nat} {pn : Node}
    {s1 : State} {d0 : Nat} {pe : GoError}
    (hwf : WF s) (hinv : Inv s) (hgp : hGet s.heap parent = some pn)
    (hD : Done s parent = (s1, some d0)) (hdc : d0 ∈ s1.closedChans)
    (hpe : Err s1 parent = some pe) :
    (∃ t, WithCancel s parent = some (t, s.nextCtx) ∧
      errField t s.nextCtx = some pe ∧
      (∃ dc, doneField t s.nextCtx = some dc ∧ dc ∈ t.closedChans) ∧
      (∀ n, childrenField t n = childrenField s n)) ∧
    (∀ d, ∃ t c flag, WithDeadline s parent d = some (t, c, flag) ∧
      errField t c = some pe ∧
      (∃ dc, doneField t c = some dc ∧ dc ∈ t.closedChans) ∧
      (∀ n, childrenField t n = childrenField s n)) ∧
    (∀ dur, ∃ t c flag, WithTimeout s parent dur = some (t, c, flag) ∧
      errField t c = some pe ∧
      (∃ dc, doneField t c = some dc ∧ dc ∈ t.closedChans) ∧
      (∀ n, childrenField t n = childrenField s n)) := by
  have hWD : ∀ d, ∃ t c flag, WithDeadline s parent d = some (t, c, flag) ∧
      errField t c = some pe ∧
      (∃ dc, doneField t c = some dc ∧ dc ∈ t.closedChans) ∧
      (∀ n, childrenField t n = childrenField s n) := by
    intro d
    simp only [WithDeadline, hgp]
    match hdl : Deadline s parent with
    | some cur =>
      simp only
      by_cases hcd : cur < d
      · rw [if_pos hcd]
        obtain ⟨t, hWC, h1, h2, h3⟩ := WithCancel_closed hwf hinv hgp hD hdc hpe
        exact ⟨t, s.nextCtx, true, by simp [hWC], h1, h2, h3⟩
      · rw [if_neg hcd]
        obtain ⟨t, flag, hT, h1, h2, h3⟩ :=
          withDeadlineTimer_closed hwf hinv hgp hD hdc hpe d
        exact ⟨t, s.nextCtx, flag, hT, h1, h2, h3⟩
    | none =>
      simp only
      obtain ⟨t, flag, hT, h1, h2, h3⟩ :=
        withDeadlineTimer_closed hwf hinv hgp hD hdc hpe d
      exact ⟨t, s.nextCtx, flag, hT, h1, h2, h3⟩
  refine ⟨?_, hWD, fun dur => hWD (s.now + dur)⟩
  obtain ⟨t, hWC, h1, h2, h3⟩ := WithCancel_closed hwf hinv hgp hD hdc hpe
  exact ⟨t, hWC, h1, h2, h3⟩

/-- When ancestor discovery succeeds, the discovered scope is a canceler
whose currently-observed done channel equals the captured one. -/
theorem parentCancelCtx_done {s : State} {parent p : Nat}
    (h : (parentCancelCtx s parent).2 = some p) :
    ∃ d, (Done s parent).2 = some d ∧ isCancelerAt (Done s parent).1 p = true ∧
      doneField (Done s parent).1 p = some d := by
  rw [parentCancelCtx_def] at h
  simp only at h
  match h2 : (Done s parent).2 with
  | none => simp only [h2] at h; cases h
  | some d =>
    simp only [h2] at h
    by_cases hd : d = closedchan
    · rw [if_pos hd] at h; cases h
    · rw [if_neg hd] at h
      match hv : Value (Done s parent).1 parent Key.cancelCtxKey with
      | none => simp only [hv] at h; cases h
      | some (Val.str st) => simp only [hv] at h; cases h
      | some (Val.ctxRef p0) =>
        simp only [hv] at h
        match hgp : hGet (Done s parent).1.heap p0 with
        | none => simp only [hgp] at h; cases h
        | some Node.emptyCtx => simp only [hgp] at h; cases h
        | some (.valueCtx q kk vv) => simp only [hgp] at h; cases h
        | some (.foreignCtx fd fe) => simp only [hgp] at h; cases h
        | some (.cancelCtx q pd cc ee) =>
          simp only [hgp] at h
          by_cases hpd : pd = some d
          · rw [if_pos hpd] at h
            injection h with hp
            subst hp
            exact ⟨d, rfl, by simp [isCancelerAt, hgp, Node.isCanceler],
              by simp [doneField, hgp, Node.doneOf, hpd]⟩
          · rw [if_neg hpd] at h; cases h
        | some (.timerCtx q pd cc ee dl tm) =>
          simp only [hgp] at h
          by_cases hpd : pd = some d
          · rw [if_pos hpd] at h
            injection h with hp
            subst hp
            exact ⟨d, rfl, by simp [isCancelerAt, hgp, Node.isCanceler],
              by simp [doneField, hgp, Node.doneOf, hpd]⟩
          · rw [if_neg hpd] at h; cases h

/-- `propagateCancel` for a parent whose done channel is nil or still
open: attachment always succeeds (nil-done return, registration, or the
watcher fallback), and the child's node, `nextCtx` and clock are
untouched. -/
theorem propagateCancel_open {u : State} (hwfu : WF u) (hinvu : Inv u)
    {parent c : Nat} (hc : parent < c)
    (hopen : ∀ dd, (Done u parent).2 = some dd → dd ∉ (Done u parent).1.closedChans) :
    ∃ t, propagateCancel u parent c = some t ∧
      hGet t.heap c = hGet u.heap c ∧ t.nextCtx = u.nextCtx ∧ t.now = u.now := by
  rw [propagateCancel_def]
  have hwf1 : WF (Done u parent).1 := (DoneAux_WFInv (parent + 1) u parent hwfu hinvu).1
  have hinv1 : Inv (Done u parent).1 := (DoneAux_WFInv (parent + 1) u parent hwfu hinvu).2
  have hev1 : Evol u (Done u parent).1 := Done_evol u parent
  have hfr : hGet (Done u parent).1.heap c = hGet u.heap c := Done_frame hwfu parent hc
  match hD2 : (Done u parent).2 with
  | none =>
    simp only
    exact ⟨(Done u parent).1, rfl, hfr, hev1.ctx, hev1.now⟩
  | some dd =>
    simp only
    rw [if_neg (hopen dd hD2)]
    have hDu : Done u parent = ((Done u parent).1, some dd) := by rw [← hD2]
    have hidem := Done_idem hDu
    match hP : (parentCancelCtx (Done u parent).1 parent).2 with
    | none =>
      simp only
      refine ⟨_, rfl, ?_, ?_, ?_⟩
      · rw [parentCancelCtx_fst]
        simp only [hidem]
        exact hfr
      · rw [parentCancelCtx_fst]
        simp only [hidem]
        exact hev1.ctx
      · rw [parentCancelCtx_fst]
        simp only [hidem]
        exact hev1.now
    | some p =>
      simp only
      obtain ⟨d2, hd2, hcanp, hdonep⟩ := parentCancelCtx_done hP
      rw [hidem] at hd2 hcanp hdonep
      have hd2e : some dd = some d2 := hd2
      injection hd2e with hd2f
      subst hd2f
      have hple : p ≤ parent := parentCancelCtx_le hwf1 hinv1 hP
      have hcanp2 : isCancelerAt (Done u parent).1 p = true := hcanp
      have hdonep2 : doneField (Done u parent).1 p = some dd := hdonep
      match hnp : hGet (Done u parent).1.heap p with
      | none => simp [isCancelerAt, hnp] at hcanp2
      | some np =>
        have hcanp3 : np.isCanceler = true := by
          simpa [isCancelerAt, hnp] using hcanp2
        have hdnp : np.doneOf = some dd := by
          simpa [doneField, hnp] using hdonep2
        have herrp : errField (Done u parent).1 p = none := by
          match hep : np.errOf with
          | none => simp [errField, hnp, hep]
          | some pe =>
            obtain ⟨ch, hch2, hchm⟩ := Inv_closed_of_err hinv1 hnp hcanp3 hep
            rw [hdnp] at hch2
            injection hch2 with hch3
            rw [← hch3] at hchm
            exact absurd hchm (hopen dd hD2)
        rw [parentCancelCtx_fst]
        simp only [hidem]
        rw [herrp]
        refine ⟨_, rfl, ?_, ?_, ?_⟩
        · rw [upd_hGet_ne _ p _ (by omega)]
          exact hfr
        · rw [(upd_scalars (Done u parent).1 p (Node.insertChild c)).1]
          exact hev1.ctx
        · rw [(upd_scalars (Done u parent).1 p (Node.insertChild c)).2.2.2.2.2]
          exact hev1.now

/-- C5 (amended): a `WithDeadline` whose deadline is already due
(`d - now ≤ 0`), whose parent's deadline does not pre-empt it, and whose
parent's done channel is not already closed, returns a scope cancelled
immediately with cause `DeadlineExceeded`, with trigger flag
`removeFromParent = false`; invoking the returned trigger
(`cancel(false, Canceled)`) afterwards is a no-op, so the cause never
becomes `Canceled`. -/
theorem past_deadline_deadlineExceeded {s : State} {parent : Nat} {pn : Node}
    (hwf : WF s) (hinv : Inv s) (hgp : hGet s.heap parent = some pn)
    (hopen : ∀ dd, (Done s parent).2 = some dd → dd ∉ (Done s parent).1.closedChans)
    {d : Int} (hpast : d - s.now ≤ 0)
    (hnodl : ∀ cur, Deadline s parent = some cur → ¬ cur < d) :
    ∃ t, WithDeadline s parent d = some (t, s.nextCtx, false) ∧
      errField t s.nextCtx = some GoError.deadlineExceeded ∧
      cancel t s.nextCtx false (some GoError.canceled) = some t := by
  have hplt : parent < s.nextCtx := WF_lt_nextCtx hwf hgp
  have hwfinv0 := allocNode_WFInv hwf hinv (by rw [hgp]; rfl)
    (Node.timerCtx parent none [] none d false) rfl rfl rfl rfl rfl hplt
  have hDa := DoneAux_alloc hwf (Node.timerCtx parent none [] none d false)
    (le_refl s.nextCtx) (parent + 1) parent hplt
  have hD0 : Done { s with heap := (s.heap ++ [(s.nextCtx, Node.timerCtx parent none [] none d false)]), nextCtx := (s.nextCtx + 1) } parent = ({ (Done s parent).1 with heap := ((Done s parent).1.heap ++ [(s.nextCtx, Node.timerCtx parent none [] none d false)]), nextCtx := (s.nextCtx + 1) }, (Done s parent).2) := hDa
  have hopen0 : ∀ dd,
      (Done { s with heap := (s.heap ++ [(s.nextCtx, Node.timerCtx parent none [] none d false)]), nextCtx := (s.nextCtx + 1) } parent).2 = some dd →
      dd ∉ (Done { s with heap := (s.heap ++ [(s.nextCtx, Node.timerCtx parent none [] none d false)]), nextCtx := (s.nextCtx + 1) } parent).1.closedChans := by
    intro dd hdd
    rw [hD0] at hdd
    have hdd2 : (Done s parent).2 = some dd := hdd
    rw [hD0]
    exact hopen dd hdd2
  obtain ⟨s2, hPC, hg2, hctx2, hnow2⟩ :=
    propagateCancel_open hwfinv0.1 hwfinv0.2 hplt hopen0
  have hg0c : hGet (s.heap ++ [(s.nextCtx, Node.timerCtx parent none [] none d false)]) s.nextCtx = some (Node.timerCtx parent none [] none d false) := by
    rw [hGet_append_right (hGet_fresh hwf (le_refl _))]
    simp [hGet]
  have hg2c : hGet s2.heap s.nextCtx = some (Node.timerCtx parent none [] none d false) := by
    rw [hg2]
    exact hg0c
  have hwfinv2 := propagateCancel_WFInv hwfinv0.1 hwfinv0.2 hplt
    (by simp [isCancelerAt, hg0c, Node.isCanceler]) hPC
  obtain ⟨t, ht⟩ := @cancel_progress s2 s.nextCtx true GoError.deadlineExceeded
    hwfinv2.1 hwfinv2.2 (by simp [isCancelerAt, hg2c, Node.isCanceler])
  obtain ⟨hevt, hwft, hinvt, hframe, herrs, hpost⟩ := cancel_sound hwfinv2.1 hwfinv2.2 ht
  obtain ⟨hfin, hfo1, hfo2⟩ := hpost _ hg2c rfl
  have herrt : errField t s.nextCtx = some GoError.deadlineExceeded := by
    simp [errField, hfin, finalNode, Node.errOf]
  have htrig : cancel t s.nextCtx false (some GoError.canceled) = some t := by
    have hctxt : t.nextCtx = s.nextCtx + 1 := by rw [hevt.ctx, hctx2]
    have hfuel : t.nextCtx - s.nextCtx = 1 := by omega
    show cancelAux (t.nextCtx - s.nextCtx) false (some GoError.canceled) t s.nextCtx
      = some t
    rw [hfuel]
    exact cancelAux_errSome 0 false GoError.canceled hfin
      (@finalNode_isCanceler (Node.timerCtx parent none [] none d false) rfl
        GoError.deadlineExceeded)
      (@finalNode_err (Node.timerCtx parent none [] none d false) rfl
        GoError.deadlineExceeded)
  have hWT : withDeadlineTimer s parent d = some (t, s.nextCtx, false) := by
    simp only [withDeadlineTimer]
    rw [hPC]
    have hdt : d - s2.now ≤ 0 := by rw [hnow2]; exact hpast
    simp [hdt, ht]
  refine ⟨t, ?_, herrt, htrig⟩
  simp only [WithDeadline, hgp]
  match hdl : Deadline s parent with
  | some cur =>
    simp only
    rw [if_neg (hnodl cur hdl)]
    exact hWT
  | none =>
    simp only
    exact hWT

/-- C5 counterexample: in the well-formed state `c5state` the parent
scope `1` is already cancelled (err `Canceled`, done channel closed);
`WithDeadline c5state 1 (-3)` has its deadline already due and no
pre-empting parent deadline, yet the returned scope's cause is
`Canceled`, not `DeadlineExceeded`: the already-closed parent cancels the
child with the parent's error before the past-deadline check runs. -/
theorem past_deadline_counterexample :
    WF c5state ∧ Inv c5state ∧
    Deadline c5state 1 = none ∧
    ((-3 : Int) - c5state.now ≤ 0) ∧
    (WithDeadline c5state 1 (-3)).map (fun r => errField r.1 r.2.1) =
      some (some GoError.canceled) := by
  refine ⟨⟨by decide, by decide, by decide, by decide, by decide, ?_⟩,
    by unfold Inv; decide, by decide, by decide, by decide⟩
  intro p hp q hq hne ch h1 h2
  fin_cases hp <;> fin_cases hq <;> simp_all [Node.doneOf]

/-- C4 (amended): only a parent deadline STRICTLY earlier than the
requested one makes `WithDeadline` degenerate: when `cur < d` the call
returns exactly the `WithCancel` result (with trigger flag `true`), and
the returned scope is a plain `cancelCtx` with no timer. -/
theorem deadline_degenerate {s : State} {parent : Nat} {pn : Node} {cur d : Int}
    (hwf : WF s) (hinv : Inv s) (hgp : hGet s.heap parent = some pn)
    (hdl : Deadline s parent = some cur) (hlt : cur < d) :
    WithDeadline s parent d = (WithCancel s parent).map (fun r => (r.1, r.2, true)) ∧
    (∀ t c, WithCancel s parent = some (t, c) →
      ∃ dn chl e, hGet t.heap c = some (Node.cancelCtx parent dn chl e) ∧
        timerField t c = none) := by
  constructor
  · simp only [WithDeadline, hgp, hdl]
    rw [if_pos hlt]
  · intro t c hWC
    simp only [WithCancel, hgp] at hWC
    match hPC : propagateCancel { s with heap := (s.heap ++ [(s.nextCtx, newCancelCtx parent)]), nextCtx := (s.nextCtx + 1) } parent s.nextCtx with
    | none =>
      rw [hPC] at hWC
      cases hWC
    | some s1 =>
      rw [hPC] at hWC
      have hWC2 : (s1, s.nextCtx) = (t, c) := Option.some.inj hWC
      have hts : t = s1 := (congrArg Prod.fst hWC2).symm
      have hcs : c = s.nextCtx := (congrArg Prod.snd hWC2).symm
      subst hts
      subst hcs
      have hwfinv0 := allocNode_WFInv hwf hinv (by rw [hgp]; rfl) (newCancelCtx parent)
        rfl rfl rfl rfl rfl (WF_lt_nextCtx hwf hgp)
      have hg0c : hGet (s.heap ++ [(s.nextCtx, newCancelCtx parent)]) s.nextCtx
          = some (newCancelCtx parent) := by
        rw [hGet_append_right (hGet_fresh hwf (le_refl _))]
        simp [hGet]
      obtain ⟨nd', hgc', hsig⟩ := propagateCancel_sig hwfinv0.1 hwfinv0.2 hPC
        s.nextCtx (newCancelCtx parent) hg0c
      simp only [newCancelCtx] at hsig
      obtain ⟨dn', ch', e', hnd⟩ := sig_eq_cancel hsig
      subst hnd
      exact ⟨dn', ch', e', hgc', by simp [timerField, hgc', Node.timerOf]⟩

/-- C4 counterexample: in the well-formed state `c4state` the parent
scope `1` carries deadline `5`, equal to the requested deadline, so the
claim's "earlier or equal" condition holds; yet `WithDeadline c4state 1 5`
does not degenerate: it allocates a fresh `timerCtx` and arms its timer
(`timerField = some true`), while the `WithCancel` result carries no
timer, and the two results differ. -/
theorem deadline_degenerate_counterexample :
    WF c4state ∧ Inv c4state ∧
    Deadline c4state 1 = some 5 ∧
    (WithDeadline c4state 1 5).map (fun r => timerField r.1 r.2.1) = some (some true) ∧
    (WithCancel c4state 1).map (fun r => timerField r.1 r.2) = some none ∧
    WithDeadline c4state 1 5 ≠ (WithCancel c4state 1).map (fun r => (r.1, r.2, true)) := by
  refine ⟨⟨by decide, by decide, by decide, by decide, by decide, ?_⟩,
    by unfold Inv; decide, by decide, by decide, by decide, by decide⟩
  intro p hp q hq hne ch h1 h2
  fin_cases hp <;> fin_cases hq <;> simp_all [Node.doneOf]

/-! ## Concrete-state facts and witnesses -/

theorem WF_wstate : WF wstate := by
  refine ⟨by decide, by decide, by decide, by decide, by decide, ?_⟩
  intro p hp q hq hne ch h1 h2
  fin_cases hp <;> fin_cases hq <;> simp_all [Node.doneOf] <;> omega

theorem Inv_wstate : Inv wstate := by
  unfold Inv
  decide

/-- Witness for C1 at `wstate`, live scope `1` with child `2`. -/
theorem cancel_fanout_witness :
    ∃ t, cancel wstate 1 true (some GoError.canceled) = some t ∧
      errField t 1 = some GoError.canceled ∧
      (∃ d, doneField t 1 = some d ∧ d ∈ t.closedChans) ∧
      childrenField t 1 = [] ∧
      (∀ c ∈ [2], errField t c ≠ none) ∧
      (∀ c ∈ [2], errField wstate c = none → errField t c = some GoError.canceled) :=
  cancel_fanout WF_wstate Inv_wstate
    (rfl : hGet wstate.heap 1 = some (Node.cancelCtx 0 (some 1) [2] none))
    true GoError.canceled

/-- Witness for C2 at `wstate`, cancelled scope `4`. -/
theorem cancel_idempotent_witness :
    cancel wstate 4 true (some GoError.deadlineExceeded) = some wstate ∧
    (∀ m b2 e2 t, cancel wstate m b2 (some e2) = some t →
      errField t 4 = some GoError.canceled) :=
  cancel_idempotent WF_wstate Inv_wstate
    (rfl : hGet wstate.heap 4 = some (Node.cancelCtx 0 (some 3) [] (some GoError.canceled)))
    rfl rfl true GoError.deadlineExceeded

/-- Witness for C3 at `wstate`, cancelled parent `4`. -/
theorem derive_from_cancelled_parent_witness :
    (∃ t, WithCancel wstate 4 = some (t, wstate.nextCtx) ∧
      errField t wstate.nextCtx = some GoError.canceled ∧
      (∃ dc, doneField t wstate.nextCtx = some dc ∧ dc ∈ t.closedChans) ∧
      (∀ n, childrenField t n = childrenField wstate n)) ∧
    (∀ d, ∃ t c flag, WithDeadline wstate 4 d = some (t, c, flag) ∧
      errField t c = some GoError.canceled ∧
      (∃ dc, doneField t c = some dc ∧ dc ∈ t.closedChans) ∧
      (∀ n, childrenField t n = childrenField wstate n)) ∧
    (∀ dur, ∃ t c flag, WithTimeout wstate 4 dur = some (t, c, flag) ∧
      errField t c = some GoError.canceled ∧
      (∃ dc, doneField t c = some dc ∧ dc ∈ t.closedChans) ∧
      (∀ n, childrenField t n = childrenField wstate n)) :=
  derive_from_cancelled_parent WF_wstate Inv_wstate
    (rfl : hGet wstate.heap 4 = some (Node.cancelCtx 0 (some 3) [] (some GoError.canceled)))
    (rfl : Done wstate 4 = (wstate, some 3)) (by decide)
    (rfl : Err wstate 4 = some GoError.canceled)

/-- Witness for C4 (amended) at `wstate`, parent `3` with deadline `5 < 7`. -/
theorem deadline_degenerate_witness :
    WithDeadline wstate 3 7 = (WithCancel wstate 3).map (fun r => (r.1, r.2, true)) ∧
    (∀ t c, WithCancel wstate 3 = some (t, c) →
      ∃ dn chl e, hGet t.heap c = some (Node.cancelCtx 3 dn chl e) ∧
        timerField t c = none) :=
  deadline_degenerate WF_wstate Inv_wstate
    (rfl : hGet wstate.heap 3 = some (Node.timerCtx 0 none [] none 5 true))
    (rfl : Deadline wstate 3 = some 5) (by decide)

/-- Witness for C5 (amended) at `wstate`, uncancelled parent `1`,
deadline `-3` already due. -/
theorem past_deadline_deadlineExceeded_witness :
    ∃ t, WithDeadline wstate 1 (-3) = some (t, wstate.nextCtx, false) ∧
      errField t wstate.nextCtx = some GoError.deadlineExceeded ∧
      cancel t wstate.nextCtx false (some GoError.canceled) = some t :=
  past_deadline_deadlineExceeded WF_wstate Inv_wstate
    (rfl : hGet wstate.heap 1 = some (Node.cancelCtx 0 (some 1) [2] none))
    (by intro dd hdd
        rw [show (Done wstate 1).2 = some 1 from rfl] at hdd
        injection hdd with h
        subst h
        decide)
    (by decide)
    (by intro cur hc
        rw [show Deadline wstate 1 = none from rfl] at hc
        cases hc)

/-- Witness for C6: cancelling the armed timer scope `3` of `wstate`. -/
theorem timer_deactivated_witness :
    timerField wtimerRes 3 = some false ∧ fireTimer wtimerRes 3 = some wtimerRes :=
  timer_deactivated WF_wstate Inv_wstate
    (rfl : hGet wstate.heap 3 = some (Node.timerCtx 0 none [] none 5 true))
    true GoError.canceled
    (rfl : cancel wstate 3 true (some GoError.canceled) = some wtimerRes)

/-- Witness for C7 at `wstate`. -/
theorem invariant_preserved_witness :
    (∀ q ∈ wstate.heap, q.2.isCanceler = true →
      (q.2.errOf ≠ none ↔ ∃ ch, q.2.doneOf = some ch ∧ ch ∈ wstate.closedChans)) ∧
    (∀ id, Inv (Done wstate id).1) ∧
    (∀ id b e t, cancel wstate id b (some e) = some t → Inv t) ∧
    (∀ parent child, Inv (removeChild wstate parent child)) ∧
    (∀ parent child t, parent < child → isCancelerAt wstate child = true →
      propagateCancel wstate parent child = some t → Inv t) ∧
    (∀ id nd b e t, hGet wstate.heap id = some nd → nd.isCanceler = true →
      nd.doneOf = none → nd.errOf = none → cancel wstate id b (some e) = some t →
      doneField t id = some closedchan) :=
  invariant_preserved WF_wstate Inv_wstate

/-- Witness for C8 at `wstate`, parent `2`. -/
theorem parentCancelCtx_characterization_witness :
    (parentCancelCtx wstate 2).1 = (Done wstate 2).1 ∧
    (∀ p, (parentCancelCtx wstate 2).2 = some p ↔
      ∃ d, (Done wstate 2).2 = some d ∧ d ≠ closedchan ∧
        Value (Done wstate 2).1 2 Key.cancelCtxKey = some (Val.ctxRef p) ∧
        isCancelerAt (Done wstate 2).1 p = true ∧
        doneField (Done wstate 2).1 p = some d) ∧
    (∀ id nd, hGet wstate.heap id = some nd → nd.isCanceler = true →
      Value wstate id Key.cancelCtxKey = some (Val.ctxRef id)) ∧
    ((parentCancelCtx wstate 2).2 = none →
      ∀ child n, childrenField (removeChild wstate 2 child) n = childrenField wstate n) ∧
    (∀ child d, (Done wstate 2).2 = some d → d ∉ (Done wstate 2).1.closedChans →
      (parentCancelCtx (Done wstate 2).1 2).2 = none →
      ∃ t, propagateCancel wstate 2 child = some t ∧
        t.goroutines = wstate.goroutines + 1 ∧
        t.watchers = wstate.watchers ++ [(2, child)]) :=
  parentCancelCtx_characterization WF_wstate Inv_wstate 2

/-- Witness for C9 at `wstate`, foreign parent `5` (open done channel,
no discoverable cancellable ancestor), child `2`. -/
theorem watcher_fallback_witness :
    (∃ t, propagateCancel wstate 5 2 = some t ∧
      t.goroutines = wstate.goroutines + 1 ∧
      t.watchers = wstate.watchers ++ [(5, 2)]) ∧
    (∀ u id, (Done u id).1.goroutines = u.goroutines) ∧
    (∀ u id b e t, WF u → Inv u → cancel u id b (some e) = some t →
      t.goroutines = u.goroutines) ∧
    (∀ u p2 c2, (removeChild u p2 c2).goroutines = u.goroutines) ∧
    (∀ u u1 d2 pe, WF u → Inv u → Done u 5 = (u1, some d2) →
      d2 ∈ u1.closedChans → Err u1 5 = some pe →
      isCancelerAt u1 2 = true →
      ∃ w, watcherRun u 5 2 = some w ∧
        errField w 2 ≠ none ∧
        (errField u1 2 = none → errField w 2 = some pe)) :=
  watcher_fallback (rfl : Done wstate 5 = (wstate, some 4)) (by decide)
    (rfl : (parentCancelCtx wstate 5).2 = none)

/-- Witness for C10 at `wstate`, scope `1` with an observed done channel. -/
theorem Done_stable_witness :
    (Done wstate 1).2 ≠ none ∧
    (∀ d, (Node.cancelCtx 0 (some 1) [2] none).doneOf = some d →
      Done wstate 1 = (wstate, some d)) ∧
    ((Node.cancelCtx 0 (some 1) [2] none).doneOf = none →
      ∃ t, Done wstate 1 = (t, some wstate.nextChan) ∧
        doneField t 1 = some wstate.nextChan ∧ Done t 1 = (t, some wstate.nextChan)) ∧
    (∀ t r, Done wstate 1 = (t, r) → Done t 1 = (t, r)) ∧
    ((Node.cancelCtx 0 (some 1) [2] none).doneOf = none →
      (Node.cancelCtx 0 (some 1) [2] none).errOf = none →
      ∀ b e t, cancel wstate 1 b (some e) = some t →
      Done t 1 = (t, some closedchan)) :=
  Done_stable WF_wstate Inv_wstate
    (rfl : hGet wstate.heap 1 = some (Node.cancelCtx 0 (some 1) [2] none)) rfl

end Context
